import Mathlib

/-!
# LinearProgrammingTools: model normalisation and the simplex engine

A shallow embedding of `model/linearProgram.go`, `model/model_conversion.go` and
`solver/simplexAlgorithm.go`.

Conventions of the embedding.

* Numbers.  A finite `float64` value is the rational it denotes (`ℚ`).  The model
  normalisation, `InitializeTableau`, `FindEnteringVariable`, `IsInitiallyFeasible` and
  `ExtractSolution` only copy, compare and negate numbers, which `float64` does exactly, so
  their embedding is the program itself on finite numbers.  The quotients, products and
  differences of `FindLeavingVariable` and `PerformPivot` are embedded twice: computed
  exactly (`FindLeavingVariable`, `PerformPivot`, `Solve`: the program run in exact
  arithmetic), and rounded to `float64` after each operation (`FindLeavingVariable64`,
  `PerformPivot64`, `Solve64`: round to nearest, ties to even, no fused multiply-add; a
  result that is not finite ends the run with `none`, except in the ratio test, whose
  comparisons with an infinite quotient are all false).  A statement about `Solve` that
  depends on the numbers computed is a statement in exact arithmetic; the statements about
  the control flow, the shapes and the states do not depend on the arithmetic.  The
  tolerance `epsilon := 1e-10` is the `float64` constant, and the `+Inf` that starts the
  ratio test is `none`.
* Go slices are lists.  A read `a[i]` is `List.getD` and a write `a[i] = v` is `List.set`;
  where the Go program would stop with an index-out-of-range panic the embedding reads the
  default and skips the write.  On every run in which the Go program does not panic (in
  particular on every model satisfying `WellFormed`) each access is in range and the
  embedding computes what the program computes.  `GetSolutionJSON`, whose reads of `ObjVar`
  no invariant of the model keeps in range, is embedded with its panic, as the result
  `none`.
* `NbConstraints` and `NbVariables` are natural numbers; differences of them, column and row
  results with the sentinel `-1`, and the entries of `basicVariables` (which the program
  stores as `float64` holding exact integers) are integers.
* In-place mutation of `*LinearProgram` is state passing: every method returns the new model.
* The unbounded `for` loop of `Solve` takes a fuel argument: `none` means the fuel ran out
  before the loop returned, `some r` is what the call returned.
-/

namespace LinearProgrammingTools

/-! ## model/linearProgram.go -/

/-- Optimisation direction (`type Objectiv int`). -/
inductive Objectiv where
  | MINIMIZE
  | MAXIMIZE
  deriving DecidableEq, Repr

/-- Comparison operator of one constraint row (`type Comparison int`):
`EQ` is `=`, `LO` is `<`, `LE` is `<=`, `BI` is `>`, `BE` is `>=`. -/
inductive Comparison where
  | EQ
  | LO
  | LE
  | BI
  | BE
  deriving DecidableEq, Repr

/-- Normalisation state (`type LPState int`). -/
inductive LPState where
  | Undefined
  | Canonical
  | Slack
  deriving DecidableEq, Repr

/-- The struct `LinearProgram`.  `ObjVar` is `none` for the nil slice. -/
structure LinearProgram where
  NbConstraints : Nat
  NbVariables : Nat
  VariableNames : List String
  SlackVariablesNames : List String
  Objective : Objectiv
  ObjVar : Option (List ℚ)
  ObjCoeff : List ℚ
  Comparisons : List Comparison
  ConstraintCoeff : List (List ℚ)
  Rhs : List ℚ
  State : LPState
  deriving DecidableEq

/-! ## model/model_conversion.go -/

/-- `MultiplyRow`: a fresh row holding `val * scalar` for every `val` of `row`. -/
def MultiplyRow (row : List ℚ) (scalar : ℚ) : List ℚ :=
  row.map (fun val => val * scalar)

/-- `FlipComparison`. -/
def FlipComparison (comp : Comparison) : Comparison :=
  match comp with
  | .LE => .BE
  | .BE => .LE
  | .LO => .BI
  | .BI => .LO
  | .EQ => .EQ

/-- `EnsureMaximization`. -/
def EnsureMaximization (lp : LinearProgram) : LinearProgram :=
  if lp.Objective = .MINIMIZE then
    { lp with Objective := .MAXIMIZE, ObjCoeff := lp.ObjCoeff.map (fun c => c * (-1)) }
  else lp

/-- Body of the loop of `EnsureNonNegativeRhs` at index `i`. -/
def EnsureNonNegativeRhsStep (lp : LinearProgram) (i : Nat) : LinearProgram :=
  if lp.Rhs.getD i 0 < 0 then
    { lp with
      Rhs := lp.Rhs.set i (lp.Rhs.getD i 0 * (-1))
      ConstraintCoeff := lp.ConstraintCoeff.set i (MultiplyRow (lp.ConstraintCoeff.getD i []) (-1))
      Comparisons := lp.Comparisons.set i (FlipComparison (lp.Comparisons.getD i .EQ)) }
  else lp

/-- `EnsureNonNegativeRhs`: `for i := range lp.Rhs`. -/
def EnsureNonNegativeRhs (lp : LinearProgram) : LinearProgram :=
  (List.range lp.Rhs.length).foldl EnsureNonNegativeRhsStep lp

/-- The four accumulators of `ConvertToLeConstraints`. -/
structure LeAcc where
  newConstraintCoeff : List (List ℚ)
  newRhs : List ℚ
  newComparisons : List Comparison
  newNbConstraints : Nat
  deriving DecidableEq

/-- Body of the loop of `ConvertToLeConstraints` at index `i`. -/
def ConvertToLeStep (lp : LinearProgram) (acc : LeAcc) (i : Nat) : LeAcc :=
  let row := lp.ConstraintCoeff.getD i []
  let b := lp.Rhs.getD i 0
  match lp.Comparisons.getD i .EQ with
  | .LE =>
    { newConstraintCoeff := acc.newConstraintCoeff ++ [row]
      newRhs := acc.newRhs ++ [b]
      newComparisons := acc.newComparisons ++ [.LE]
      newNbConstraints := acc.newNbConstraints + 1 }
  | .LO =>
    { newConstraintCoeff := acc.newConstraintCoeff ++ [row]
      newRhs := acc.newRhs ++ [b]
      newComparisons := acc.newComparisons ++ [.LE]
      newNbConstraints := acc.newNbConstraints + 1 }
  | .BE =>
    { newConstraintCoeff := acc.newConstraintCoeff ++ [MultiplyRow row (-1)]
      newRhs := acc.newRhs ++ [-b]
      newComparisons := acc.newComparisons ++ [.LE]
      newNbConstraints := acc.newNbConstraints + 1 }
  | .BI =>
    { newConstraintCoeff := acc.newConstraintCoeff ++ [MultiplyRow row (-1)]
      newRhs := acc.newRhs ++ [-b]
      newComparisons := acc.newComparisons ++ [.LE]
      newNbConstraints := acc.newNbConstraints + 1 }
  | .EQ =>
    { newConstraintCoeff := acc.newConstraintCoeff ++ [row] ++ [MultiplyRow row (-1)]
      newRhs := acc.newRhs ++ [b] ++ [-b]
      newComparisons := acc.newComparisons ++ [.LE] ++ [.LE]
      newNbConstraints := acc.newNbConstraints + 1 + 1 }

/-- `ConvertToLeConstraints`: `for i := 0; i < lp.NbConstraints; i++`. -/
def ConvertToLeConstraints (lp : LinearProgram) : LinearProgram :=
  let acc := (List.range lp.NbConstraints).foldl (ConvertToLeStep lp) ⟨[], [], [], 0⟩
  { lp with
    ConstraintCoeff := acc.newConstraintCoeff
    Rhs := acc.newRhs
    Comparisons := acc.newComparisons
    NbConstraints := acc.newNbConstraints }

/-- `ToCanonicalForm`. -/
def ToCanonicalForm (lp : LinearProgram) : LinearProgram :=
  if lp.State ≠ .Undefined then lp
  else
    { ConvertToLeConstraints (EnsureNonNegativeRhs (EnsureMaximization lp)) with
      State := .Canonical }

/-- The slack name `fmt.Sprintf("s%d", k)`. -/
def slackName (k : Nat) : String :=
  "s" ++ toString k

/-- The loop `for i := range lp.ConstraintCoeff` shared by `AddSlackVariable` and
`AddSurplusVariable`: row `constraintIndex` gets `unit` appended, every other row `0`. -/
def appendColumn (rows : List (List ℚ)) (constraintIndex : Nat) (unit : ℚ) : List (List ℚ) :=
  (List.range rows.length).foldl
    (fun acc i => acc.set i (acc.getD i [] ++ [if i = constraintIndex then unit else 0])) rows

/-- `AddSlackVariable`. -/
def AddSlackVariable (lp : LinearProgram) (constraintIndex : Nat) : LinearProgram :=
  { lp with
    NbVariables := lp.NbVariables + 1
    SlackVariablesNames :=
      lp.SlackVariablesNames ++ [slackName (lp.SlackVariablesNames.length + 1)]
    ObjCoeff := lp.ObjCoeff ++ [0]
    ConstraintCoeff := appendColumn lp.ConstraintCoeff constraintIndex 1
    Comparisons := lp.Comparisons.set constraintIndex .EQ }

/-- `AddSurplusVariable`. -/
def AddSurplusVariable (lp : LinearProgram) (constraintIndex : Nat) : LinearProgram :=
  { lp with
    NbVariables := lp.NbVariables + 1
    SlackVariablesNames :=
      lp.SlackVariablesNames ++ [slackName (lp.SlackVariablesNames.length + 1)]
    ObjCoeff := lp.ObjCoeff ++ [0]
    ConstraintCoeff := appendColumn lp.ConstraintCoeff constraintIndex (-1)
    Comparisons := lp.Comparisons.set constraintIndex .EQ }

/-- Body of the loop of `ConvertToEqualities` at index `i`. -/
def ConvertToEqualitiesStep (lp : LinearProgram) (i : Nat) : LinearProgram :=
  match lp.Comparisons.getD i .EQ with
  | .LE => AddSlackVariable lp i
  | .BI => AddSurplusVariable lp i
  | .LO => AddSlackVariable lp i
  | .BE => AddSurplusVariable lp i
  | .EQ => lp

/-- `ConvertToEqualities`: `for i := 0; i < lp.NbConstraints; i++`. -/
def ConvertToEqualities (lp : LinearProgram) : LinearProgram :=
  (List.range lp.NbConstraints).foldl ConvertToEqualitiesStep lp

/-- `ToSlackForm`. -/
def ToSlackForm (lp : LinearProgram) : LinearProgram :=
  if lp.State = .Slack then lp
  else
    let lp1 := if lp.State = .Undefined then ToCanonicalForm lp else lp
    { ConvertToEqualities lp1 with State := .Slack }

/-! ## solver/simplexAlgorithm.go -/

/-- The struct `SimplexTable`. -/
structure SimplexTable where
  data : List (List ℚ)
  basicVariables : List Int
  deriving DecidableEq

/-- The read `data[i][j]`. -/
def entry (data : List (List ℚ)) (i j : Nat) : ℚ :=
  (data.getD i []).getD j 0

/-- The write `data[i][j] = v`. -/
def setEntry (data : List (List ℚ)) (i j : Nat) (v : ℚ) : List (List ℚ) :=
  data.set i ((data.getD i []).set j v)

/-- The tolerance `epsilon := 1e-10`: the `float64` constant, which is the rational
`7737125245533627 / 2 ^ 86`, the binary fraction of 53 bits nearest to `1 / 10 ^ 10` (and a
little above it). -/
def epsilon : ℚ := 7737125245533627 / 77371252455336267181195264

/-- `InitializeTableau`: the table built and the (possibly normalised) problem. -/
def InitializeTableau (problem0 : LinearProgram) : SimplexTable × LinearProgram :=
  let problem := if problem0.State ≠ .Slack then ToSlackForm problem0 else problem0
  let m := problem.NbConstraints
  let n := problem.NbVariables
  let n_orig : Int := (n : Int) - (m : Int)
  let constraintRows := (List.range m).map (fun i =>
    (List.range n).map (fun j => entry problem.ConstraintCoeff i j) ++ [problem.Rhs.getD i 0])
  let objectiveRow := (List.range n).map (fun j => -(problem.ObjCoeff.getD j 0)) ++ [0]
  ({ data := constraintRows ++ [objectiveRow]
     basicVariables := (List.range m).map (fun (i : Nat) => n_orig + (i : Int)) }, problem)

/-- `FindEnteringVariable`: the first column of the objective row (RHS column excluded)
whose entry is `< -epsilon`, or `-1`. -/
def FindEnteringVariable (table : SimplexTable) : Int :=
  let objectiveRow := table.data.length - 1
  let row := table.data.getD objectiveRow []
  match (List.range (row.length - 1)).find? (fun j => decide (row.getD j 0 < -epsilon)) with
  | some j => (j : Int)
  | none => -1

/-- Body of the loop of `FindLeavingVariable` at row `i`; the state is
`(smallestRatio, pivotRow)` with `none` for `+Inf`. -/
def FindLeavingVariableStep (table : SimplexTable) (pivotCol : Int) (rhsCol : Nat)
    (st : Option ℚ × Int) (i : Nat) : Option ℚ × Int :=
  let pivotColValue := entry table.data i pivotCol.toNat
  let rhsValue := entry table.data i rhsCol
  if pivotColValue > epsilon then
    let ratio := rhsValue / pivotColValue
    if ratio ≥ -epsilon then
      match st.1 with
      | none => (some ratio, (i : Int))
      | some smallestRatio =>
        if ratio < smallestRatio - epsilon then (some ratio, (i : Int)) else st
    else st
  else st

/-- `FindLeavingVariable`. -/
def FindLeavingVariable (table : SimplexTable) (pivotCol : Int) : Int :=
  let numConstraintRows := table.data.length - 1
  let rhsCol := (table.data.getD 0 []).length - 1
  ((List.range numConstraintRows).foldl
    (FindLeavingVariableStep table pivotCol rhsCol) (none, -1)).2

/-- Step 1 of `PerformPivot`: `for j := 0; j < numCols; j++ { data[r][j] /= pivotElement }`. -/
def normalizePivotRow (data : List (List ℚ)) (r numCols : Nat) (pivotElement : ℚ) :
    List (List ℚ) :=
  (List.range numCols).foldl (fun d j => setEntry d r j (entry d r j / pivotElement)) data

/-- Inner loop of step 2 of `PerformPivot`:
`for j := 0; j < numCols; j++ { data[i][j] -= factor * data[r][j] }`. -/
def eliminateRow (data : List (List ℚ)) (r i numCols : Nat) (factor : ℚ) : List (List ℚ) :=
  (List.range numCols).foldl
    (fun d j => setEntry d i j (entry d i j - factor * entry d r j)) data

/-- `PerformPivot`. -/
def PerformPivot (table : SimplexTable) (pivotRow pivotCol : Int) : SimplexTable :=
  let numRows := table.data.length
  let numCols := (table.data.getD 0 []).length
  let pivotElement := entry table.data pivotRow.toNat pivotCol.toNat
  let data1 := normalizePivotRow table.data pivotRow.toNat numCols pivotElement
  let data2 := (List.range numRows).foldl
    (fun d i =>
      if i ≠ pivotRow.toNat then eliminateRow d pivotRow.toNat i numCols (entry d i pivotCol.toNat)
      else d) data1
  { table with data := data2 }

/-- `IsInitiallyFeasible`. -/
def IsInitiallyFeasible (table : SimplexTable) : Bool :=
  let rhsCol := (table.data.getD 0 []).length - 1
  let numConstraintRows := table.data.length - 1
  (List.range numConstraintRows).all (fun i => !decide (entry table.data i rhsCol < 0))

/-- `ExtractSolution`. -/
def ExtractSolution (table : SimplexTable) (problem : LinearProgram) : List ℚ :=
  let numOrigVars : Int := (problem.NbVariables : Int) - (problem.NbConstraints : Int)
  let rhsCol := (table.data.getD 0 []).length - 1
  let solution0 : List ℚ := List.replicate numOrigVars.toNat 0
  let solution := (List.range table.basicVariables.length).foldl
    (fun sol i =>
      let basicVarIndex := table.basicVariables.getD i 0
      if basicVarIndex < numOrigVars then sol.set basicVarIndex.toNat (entry table.data i rhsCol)
      else sol) solution0
  let objectiveRow := table.data.length - 1
  solution ++ [entry table.data objectiveRow rhsCol]

/-- What one call of `Solve` leaves behind: the returned `error` (`none` is `nil`), the
model, and, for the statements about the run, the local table and the number of pivots
performed. -/
structure SolveRun where
  err : Option String
  lp : LinearProgram
  table : SimplexTable
  pivots : Nat
  deriving DecidableEq

/-- The last element of `ObjVar` multiplied by `-1` (`lp.ObjVar[len(lp.ObjVar)-1] *= -1`). -/
def negateLast (xs : List ℚ) : List ℚ :=
  xs.set (xs.length - 1) (xs.getD (xs.length - 1) 0 * (-1))

/-- The `for { ... }` loop of `Solve`, with fuel. -/
def solveLoop (originalObjective : Objectiv) (lp : LinearProgram) :
    Nat → SimplexTable → Nat → Option SolveRun
  | 0, _, _ => none
  | fuel + 1, table, pivots =>
    let pivotCol := FindEnteringVariable table
    if pivotCol = -1 then
      let sol := ExtractSolution table lp
      let sol1 := if originalObjective = .MINIMIZE then negateLast sol else sol
      some { err := none
             lp := { lp with ObjVar := some sol1, State := .Undefined }
             table := table
             pivots := pivots }
    else
      let pivotRow := FindLeavingVariable table pivotCol
      if pivotRow = -1 then
        some { err := some "Unbounded", lp := lp, table := table, pivots := pivots }
      else
        let table1 := PerformPivot table pivotRow pivotCol
        let table2 :=
          { table1 with basicVariables := table1.basicVariables.set pivotRow.toNat pivotCol }
        solveLoop originalObjective lp fuel table2 (pivots + 1)

/-- `Solve`, instrumented with the final table and the pivot count. -/
def SolveRunOf (fuel : Nat) (lp0 : LinearProgram) : Option SolveRun :=
  let originalObjective := lp0.Objective
  let lp1 := ToSlackForm lp0
  let init := InitializeTableau lp1
  let table := init.1
  let lp := init.2
  if !IsInitiallyFeasible table then
    some { err := some "infeasible problem", lp := lp, table := table, pivots := 0 }
  else
    solveLoop originalObjective lp fuel table 0

/-- `Solve`: the returned error and the model as the call leaves it. -/
def Solve (fuel : Nat) (lp : LinearProgram) : Option (Option String × LinearProgram) :=
  (SolveRunOf fuel lp).map (fun r => (r.err, r.lp))

/-! ## The loop of `Solve`, pass by pass -/

/-- One pass through the body of the loop of `Solve` that reaches `PerformPivot`: the table
the next pass starts from, or `none` when this pass returns (optimal or unbounded). -/
def pivotStep (table : SimplexTable) : Option SimplexTable :=
  let pivotCol := FindEnteringVariable table
  if pivotCol = -1 then none
  else
    let pivotRow := FindLeavingVariable table pivotCol
    if pivotRow = -1 then none
    else
      let table1 := PerformPivot table pivotRow pivotCol
      some { table1 with basicVariables := table1.basicVariables.set pivotRow.toNat pivotCol }

/-- The table after `k` pivoting passes of the loop of `Solve` started on `table`, or `none`
when the loop returns earlier. -/
def tableAfter : Nat → SimplexTable → Option SimplexTable
  | 0, table => some table
  | k + 1, table =>
    match pivotStep table with
    | none => none
    | some table1 => tableAfter k table1

/-! ## model/linearProgram.go: `GetSolutionJSON` -/

/-- A `float64` value as `json.Marshal` meets it: a finite number, an infinity or a NaN. -/
inductive Float64Value where
  | finite (q : ℚ)
  | posInf
  | negInf
  | nan
  deriving DecidableEq

/-- The values `json.Marshal` encodes: the finite ones. -/
def Float64Value.isFinite (v : Float64Value) : Bool :=
  match v with
  | .finite _ => true
  | .posInf => false
  | .negInf => false
  | .nan => false

/-- The read `m[k]` of a Go map with string keys given by the list of its entries. -/
def mapGet {α : Type} (m : List (String × α)) (k : String) : Option α :=
  match m with
  | [] => none
  | p :: rest => if p.1 = k then some p.2 else mapGet rest k

/-- The write `m[k] = v` of a Go map with string keys: the entry of `k`, if any, is
replaced. -/
def mapSet {α : Type} (m : List (String × α)) (k : String) (v : α) : List (String × α) :=
  (k, v) :: m.filter (fun p => decide (p.1 ≠ k))

/-- The errors `GetSolutionJSON` returns: `fmt.Errorf("solution not available")`, and the
`*json.UnsupportedValueError` of `json.Marshal`. -/
inductive SolutionError where
  | solutionNotAvailable
  | unsupportedValue
  deriving DecidableEq

deriving instance DecidableEq for Except

/-- The statements of `GetSolutionJSON` between the `nil` test and `json.Marshal`: the map
`solution` after the loop over `VariableNames` and the write of the key `"objective"`.
`none` is the index-out-of-range panic of a read `lp.ObjVar[i]` with `i >= len(lp.ObjVar)` or
of `lp.ObjVar[len(lp.ObjVar)-1]` on an empty `ObjVar`. -/
def solutionMap (VariableNames : List String) (objVar : List Float64Value) :
    Option (List (String × Float64Value)) :=
  let filled := (List.range VariableNames.length).foldl
    (fun acc i => acc.bind (fun solution =>
      (objVar[i]?).map (fun v => mapSet solution (VariableNames.getD i "") v))) (some [])
  filled.bind (fun solution =>
    if objVar.length = 0 then none
    else some (mapSet solution "objective" (objVar.getD (objVar.length - 1) (.finite 0))))

/-- `GetSolutionJSON`, a method that reads the fields `VariableNames` and `ObjVar` only; for
`ObjVar`, `none` is `nil`, and its elements are any `float64` values.  The result `none` is
a panic; `json.Marshal` of the map fails exactly when one of its values is not finite, and
the JSON text returned otherwise is represented by the map it encodes. -/
def GetSolutionJSON (VariableNames : List String) (ObjVar : Option (List Float64Value)) :
    Option (Except SolutionError (List (String × Float64Value))) :=
  match ObjVar with
  | none => some (.error .solutionNotAvailable)
  | some objVar =>
    (solutionMap VariableNames objVar).map (fun solution =>
      if solution.all (fun p => p.2.isFinite) then .ok solution
      else .error .unsupportedValue)

/-- The field `ObjVar` of a model of this embedding as `float64` values: its numbers are
rationals, hence finite. -/
def ObjVarValues (lp : LinearProgram) : Option (List Float64Value) :=
  lp.ObjVar.map (List.map Float64Value.finite)

/-! ## Well-formed models and the reading of a model as a linear program -/

/-- All vectors and matrix rows are consistent with `NbConstraints` / `NbVariables`. -/
def WellFormed (lp : LinearProgram) : Prop :=
  lp.ObjCoeff.length = lp.NbVariables ∧
  lp.Rhs.length = lp.NbConstraints ∧
  lp.Comparisons.length = lp.NbConstraints ∧
  lp.ConstraintCoeff.length = lp.NbConstraints ∧
  ∀ row ∈ lp.ConstraintCoeff, row.length = lp.NbVariables

instance (lp : LinearProgram) : Decidable (WellFormed lp) := by
  unfold WellFormed
  infer_instance

/-- The dimension invariant of the data model: every row of `ConstraintCoeff` has
`NbVariables` entries, `ObjCoeff` has `NbVariables` entries, `Rhs`, `Comparisons` and
`ConstraintCoeff` have `NbConstraints` entries, and `NbVariables` counts the variable names
and the slack names. -/
def DimensionInvariant (lp : LinearProgram) : Prop :=
  (∀ row ∈ lp.ConstraintCoeff, row.length = lp.NbVariables) ∧
  lp.ObjCoeff.length = lp.NbVariables ∧
  lp.Rhs.length = lp.NbConstraints ∧
  lp.Comparisons.length = lp.NbConstraints ∧
  lp.ConstraintCoeff.length = lp.NbConstraints ∧
  lp.NbVariables = lp.VariableNames.length + lp.SlackVariablesNames.length

/-- The order `Undefined < Canonical < Slack` of the states, as a rank. -/
def stateRank (s : LPState) : Nat :=
  match s with
  | .Undefined => 0
  | .Canonical => 1
  | .Slack => 2

/-- The scalar product of a coefficient row and a point. -/
def dot (a x : List ℚ) : ℚ :=
  (List.zipWith (fun u v => u * v) a x).sum

/-- The point `x` satisfies the constraint `a . x comp b`, reading `<` as `<=` and `>` as
`>=`. -/
def rowHolds (comp : Comparison) (a : List ℚ) (b : ℚ) (x : List ℚ) : Prop :=
  match comp with
  | .EQ => dot a x = b
  | .LO => dot a x ≤ b
  | .LE => dot a x ≤ b
  | .BI => b ≤ dot a x
  | .BE => b ≤ dot a x

instance (comp : Comparison) (a : List ℚ) (b : ℚ) (x : List ℚ) :
    Decidable (rowHolds comp a b x) := by
  unfold rowHolds
  cases comp <;> infer_instance

/-- The point `x` satisfies every constraint of the model. -/
def SatisfiesConstraints (lp : LinearProgram) (x : List ℚ) : Prop :=
  ∀ i, i < lp.NbConstraints →
    rowHolds (lp.Comparisons.getD i .EQ) (lp.ConstraintCoeff.getD i []) (lp.Rhs.getD i 0) x

instance (lp : LinearProgram) (x : List ℚ) : Decidable (SatisfiesConstraints lp x) := by
  unfold SatisfiesConstraints
  infer_instance

/-- The point `x` is feasible for the model: one value per variable, all values
non-negative, every constraint satisfied. -/
def Feasible (lp : LinearProgram) (x : List ℚ) : Prop :=
  x.length = lp.NbVariables ∧ (∀ v ∈ x, 0 ≤ v) ∧ SatisfiesConstraints lp x

instance (lp : LinearProgram) (x : List ℚ) : Decidable (Feasible lp x) := by
  unfold Feasible
  infer_instance

/-- The rows the verdict `"infeasible problem"` is about: an `LE` or `LO` row with a negative
right-hand side, a `BE` or `BI` row with a positive right-hand side, an `EQ` row with a
non-zero right-hand side. -/
def rejectedRow (comp : Comparison) (b : ℚ) : Prop :=
  match comp with
  | .LE => b < 0
  | .LO => b < 0
  | .BE => 0 < b
  | .BI => 0 < b
  | .EQ => b ≠ 0

instance (comp : Comparison) (b : ℚ) : Decidable (rejectedRow comp b) := by
  unfold rejectedRow
  cases comp <;> infer_instance

/-- The rewriting of one constraint row `(row, b)` with comparison `comp` into rows read as
`<=`, in the words of the specification of `convertToLessEqual`: `LE` and `LO` pass through,
`BE` and `BI` are negated, `EQ` gives the row and its negation. -/
def leRows (comp : Comparison) (row : List ℚ) (b : ℚ) : List (List ℚ × ℚ) :=
  match comp with
  | .LE => [(row, b)]
  | .LO => [(row, b)]
  | .BE => [(MultiplyRow row (-1), -b)]
  | .BI => [(MultiplyRow row (-1), -b)]
  | .EQ => [(row, b), (MultiplyRow row (-1), -b)]

/-- The rewriting `leRows` of constraint `i` of a model. -/
def leRowsAt (lp : LinearProgram) (i : Nat) : List (List ℚ × ℚ) :=
  leRows (lp.Comparisons.getD i .EQ) (lp.ConstraintCoeff.getD i []) (lp.Rhs.getD i 0)

/-- The rewriting of one constraint row into `<=` rows, in the words of the specification:
`LE` and `LO` pass through, `BE` and `BI` are negated, `EQ` gives the row and its negation. -/
def referenceLeRow (comp : Comparison) (a : List ℚ) (b : ℚ) : List (List ℚ × ℚ) :=
  match comp with
  | .LE => [(a, b)]
  | .LO => [(a, b)]
  | .BE => [(a.map (fun v => -v), -b)]
  | .BI => [(a.map (fun v => -v), -b)]
  | .EQ => [(a, b), (a.map (fun v => -v), -b)]

/-- The reference rewriting of a constraint list: the in-order concatenation of the
rewritings of its rows. -/
def referenceLe (comps : List Comparison) (rows : List (List ℚ)) (rhs : List ℚ) :
    List (List ℚ × ℚ) :=
  (List.zip comps (List.zip rows rhs)).flatMap (fun p => referenceLeRow p.1 p.2.1 p.2.2)

/-- The sum of the values of a point `x` and of its slacks `b - a . x` in the rows `(a, b)`
of the canonical form of the model. -/
def slackSum (lp : LinearProgram) (x : List ℚ) : ℚ :=
  x.sum + ∑ i ∈ Finset.range (ToCanonicalForm lp).NbConstraints,
    ((ToCanonicalForm lp).Rhs.getD i 0 - dot ((ToCanonicalForm lp).ConstraintCoeff.getD i []) x)

/-! ## Tables as systems of equations -/

/-- The table `d` has `R` rows of `C` entries each. -/
def Rect (d : List (List ℚ)) (R C : Nat) : Prop :=
  d.length = R ∧ ∀ i, i < R → (d.getD i []).length = C

/-- The left-hand side of row `i` of a table with `N` variable columns at the assignment
`w` of the variables. -/
def rowEval (d : List (List ℚ)) (N i : Nat) (w : Nat → ℚ) : ℚ :=
  ∑ j ∈ Finset.range N, entry d i j * w j

/-- The assignment `w` solves the equation `row . w = rhs` of each of the `m` constraint rows
of a table with `N` variable columns. -/
def SolvesRows (d : List (List ℚ)) (m N : Nat) (w : Nat → ℚ) : Prop :=
  ∀ i, i < m → rowEval d N i w = entry d i N

/-- The invariant of the loop of `Solve` with respect to the first table `d0` (`m` constraint
rows, `N` variable columns): the table keeps its shape, its constraint rows have the same
solutions as those of `d0`, on these solutions its objective row differs from that of `d0` by
a constant, and `basicVariables` names for every constraint row a column that is the unit
vector of that row. -/
def TableInv (d0 : List (List ℚ)) (m N : Nat) (t : SimplexTable) : Prop :=
  Rect t.data (m + 1) (N + 1) ∧
  (∀ w, SolvesRows d0 m N w ↔ SolvesRows t.data m N w) ∧
  (∀ w, SolvesRows d0 m N w →
    rowEval t.data N m w - entry t.data m N = rowEval d0 N m w - entry d0 m N) ∧
  t.basicVariables.length = m ∧
  (∀ i, i < m → ∃ c : Nat, c < N ∧ t.basicVariables.getD i 0 = (c : Int) ∧
    ∀ k, k ≤ m → entry t.data k c = if k = i then 1 else 0)

/-- The value of variable `v` in the basic solution of a table: the right-hand side of the
row in which `v` is basic, `0` when `v` is not basic. -/
def basicValue (t : SimplexTable) (m N : Nat) (v : Nat) : ℚ :=
  ∑ i ∈ Finset.range m, if t.basicVariables.getD i 0 = (v : Int) then entry t.data i N else 0

/-- The quotient `rhs / entry` of row `i` in the ratio test for column `pivotCol`. -/
def rowRatio (table : SimplexTable) (pivotCol i : Nat) : ℚ :=
  entry table.data i ((table.data.getD 0 []).length - 1) / entry table.data i pivotCol

/-- The rows `FindLeavingVariable` considers for column `pivotCol`: the entry in the column
is above `epsilon` and the quotient is at least `-epsilon`. -/
def leavingCandidate (table : SimplexTable) (pivotCol i : Nat) : Prop :=
  epsilon < entry table.data i pivotCol ∧ -epsilon ≤ rowRatio table pivotCol i

/-! ## `float64` arithmetic -/

/-- The integer nearest to `t`, the even one of the two when `t` is half-way. -/
def roundHalfEven (t : ℚ) : ℤ :=
  if t - ⌊t⌋ < 1 / 2 then ⌊t⌋
  else if 1 / 2 < t - ⌊t⌋ then ⌊t⌋ + 1
  else if ⌊t⌋ % 2 = 0 then ⌊t⌋ else ⌊t⌋ + 1

/-- The number of halvings that bring `n` below `2`, at most `fuel` of them. -/
def halvings : Nat → Nat → Nat
  | 0, _ => 0
  | fuel + 1, n => if n < 2 then 0 else halvings fuel (n / 2) + 1

/-- The exponent `k` with `2 ^ k <= n < 2 ^ (k + 1)`, for `n > 0`. -/
def ilog2 (n : Nat) : Nat := halvings n n

/-- The exponent `e` with `2 ^ e <= q < 2 ^ (e + 1)`, for `q > 0`. -/
def binade (q : ℚ) : ℤ :=
  let e0 : ℤ := (ilog2 q.num.natAbs : ℤ) - (ilog2 q.den : ℤ)
  if (2 : ℚ) ^ e0 ≤ q then e0 else e0 - 1

/-- The `float64` nearest to the rational `q > 0`, were the exponent range unbounded above:
the multiple of `2 ^ p` nearest to `q`, with `p = max e (-1022) - 52` for the binade `e` of
`q` (53 bits, least exponent `-1074`); ties go to the even multiple. -/
def round64Pos (q : ℚ) : ℚ :=
  (roundHalfEven (q / 2 ^ (max (binade q) (-1022) - 52)) : ℚ)
    * 2 ^ (max (binade q) (-1022) - 52)

/-- Rounding to `float64` (round to nearest, ties to even), were the exponent range unbounded
above. -/
def round64 (q : ℚ) : ℚ :=
  if q = 0 then 0
  else if 0 < q then round64Pos q
  else -round64Pos (-q)

/-- The largest finite `float64`, `(2 ^ 53 - 1) * 2 ^ 971`. -/
def maxFloat64 : ℚ := ((2 ^ 1024 - 2 ^ 971 : Nat) : ℚ)

/-- The `float64` result of an operation whose exact result is `q`: `none` when the result
is not finite (overflow to an infinity). -/
def toFloat64 (q : ℚ) : Option ℚ :=
  if -maxFloat64 ≤ round64 q ∧ round64 q ≤ maxFloat64 then some (round64 q) else none

/-- The `float64` quotient `a / b`; `none` when it is not finite.  The sign of a zero is not
tracked, so the quotient by zero (an infinity or a NaN) is `none` too. -/
def div64 (a b : ℚ) : Option ℚ :=
  if b = 0 then none else toFloat64 (a / b)

/-- The `float64` product `a * b`; `none` when it is not finite. -/
def mul64 (a b : ℚ) : Option ℚ := toFloat64 (a * b)

/-- The `float64` difference `a - b`; `none` when it is not finite. -/
def sub64 (a b : ℚ) : Option ℚ := toFloat64 (a - b)


/-! ## solver/simplexAlgorithm.go in `float64` arithmetic -/

/-- Body of the loop of `FindLeavingVariable` at row `i`, in `float64` arithmetic; the state
is `(smallestRatio, pivotRow)` with `none` for `+Inf`.  The quotient is rounded; when it is
not finite (the entry being `> epsilon`, it is `+Inf` or `-Inf`), the row is passed over,
since `-Inf >= -epsilon` and `+Inf < smallestRatio - epsilon` are false.  The difference
`smallestRatio - epsilon` is rounded, and is `+Inf` as long as `smallestRatio` is. -/
def FindLeavingVariableStep64 (table : SimplexTable) (pivotCol : Int) (rhsCol : Nat)
    (st : Option ℚ × Int) (i : Nat) : Option ℚ × Int :=
  let pivotColValue := entry table.data i pivotCol.toNat
  let rhsValue := entry table.data i rhsCol
  if pivotColValue > epsilon then
    match div64 rhsValue pivotColValue with
    | none => st
    | some ratio =>
      if ratio ≥ -epsilon then
        match st.1 with
        | none => (some ratio, (i : Int))
        | some smallestRatio =>
          if ratio < round64 (smallestRatio - epsilon) then (some ratio, (i : Int)) else st
      else st
  else st

/-- `FindLeavingVariable` in `float64` arithmetic. -/
def FindLeavingVariable64 (table : SimplexTable) (pivotCol : Int) : Int :=
  let numConstraintRows := table.data.length - 1
  let rhsCol := (table.data.getD 0 []).length - 1
  ((List.range numConstraintRows).foldl
    (FindLeavingVariableStep64 table pivotCol rhsCol) (none, -1)).2

/-- Step 1 of `PerformPivot` in `float64` arithmetic; `none` when a quotient is not
finite. -/
def normalizePivotRow64 (data : List (List ℚ)) (r numCols : Nat) (pivotElement : ℚ) :
    Option (List (List ℚ)) :=
  (List.range numCols).foldl
    (fun acc j => acc.bind (fun d =>
      (div64 (entry d r j) pivotElement).map (fun v => setEntry d r j v))) (some data)

/-- Inner loop of step 2 of `PerformPivot` in `float64` arithmetic: the product
`factor * data[r][j]` is rounded, then the difference (no fused multiply-add); `none` when
one of them is not finite. -/
def eliminateRow64 (data : List (List ℚ)) (r i numCols : Nat) (factor : ℚ) :
    Option (List (List ℚ)) :=
  (List.range numCols).foldl
    (fun acc j => acc.bind (fun d =>
      (mul64 factor (entry d r j)).bind (fun p =>
        (sub64 (entry d i j) p).map (fun v => setEntry d i j v)))) (some data)

/-- `PerformPivot` in `float64` arithmetic; `none` when some entry computed is not finite. -/
def PerformPivot64 (table : SimplexTable) (pivotRow pivotCol : Int) : Option SimplexTable :=
  let numRows := table.data.length
  let numCols := (table.data.getD 0 []).length
  let pivotElement := entry table.data pivotRow.toNat pivotCol.toNat
  let data1 := normalizePivotRow64 table.data pivotRow.toNat numCols pivotElement
  let data2 := (List.range numRows).foldl
    (fun acc i => acc.bind (fun d =>
      if i ≠ pivotRow.toNat then
        eliminateRow64 d pivotRow.toNat i numCols (entry d i pivotCol.toNat)
      else some d)) data1
  data2.map (fun d => { table with data := d })

/-- The `for { ... }` loop of `Solve` in `float64` arithmetic, with fuel; `none` when the
fuel runs out or some entry computed is not finite. -/
def solveLoop64 (originalObjective : Objectiv) (lp : LinearProgram) :
    Nat → SimplexTable → Nat → Option SolveRun
  | 0, _, _ => none
  | fuel + 1, table, pivots =>
    let pivotCol := FindEnteringVariable table
    if pivotCol = -1 then
      let sol := ExtractSolution table lp
      let sol1 := if originalObjective = .MINIMIZE then negateLast sol else sol
      some { err := none
             lp := { lp with ObjVar := some sol1, State := .Undefined }
             table := table
             pivots := pivots }
    else
      let pivotRow := FindLeavingVariable64 table pivotCol
      if pivotRow = -1 then
        some { err := some "Unbounded", lp := lp, table := table, pivots := pivots }
      else
        match PerformPivot64 table pivotRow pivotCol with
        | none => none
        | some table1 =>
          let table2 :=
            { table1 with basicVariables := table1.basicVariables.set pivotRow.toNat pivotCol }
          solveLoop64 originalObjective lp fuel table2 (pivots + 1)

/-- `Solve` in `float64` arithmetic, instrumented with the final table and the pivot count,
on a model whose numbers are `float64` values: the normalisation, `InitializeTableau`,
`FindEnteringVariable`, `IsInitiallyFeasible` and `ExtractSolution` only copy, compare and
negate numbers, which `float64` does exactly; the quotients, products and differences of the
ratio test and of the pivot are rounded. -/
def SolveRunOf64 (fuel : Nat) (lp0 : LinearProgram) : Option SolveRun :=
  let originalObjective := lp0.Objective
  let lp1 := ToSlackForm lp0
  let init := InitializeTableau lp1
  let table := init.1
  let lp := init.2
  if !IsInitiallyFeasible table then
    some { err := some "infeasible problem", lp := lp, table := table, pivots := 0 }
  else
    solveLoop64 originalObjective lp fuel table 0

/-- `Solve` in `float64` arithmetic: the returned error and the model as the call leaves
it. -/
def Solve64 (fuel : Nat) (lp : LinearProgram) : Option (Option String × LinearProgram) :=
  (SolveRunOf64 fuel lp).map (fun r => (r.err, r.lp))

/-- The `float64` quotient `rhs / entry` of row `i` in the ratio test for column `pivotCol`;
`none` when it is not finite. -/
def rowRatio64 (table : SimplexTable) (pivotCol i : Nat) : Option ℚ :=
  div64 (entry table.data i ((table.data.getD 0 []).length - 1)) (entry table.data i pivotCol)

/-- The rows `FindLeavingVariable` considers for column `pivotCol` in `float64` arithmetic:
the entry in the column is above `epsilon` and the `float64` quotient `q` is finite and at
least `-epsilon`. -/
def leavingCandidate64 (table : SimplexTable) (pivotCol i : Nat) (q : ℚ) : Prop :=
  epsilon < entry table.data i pivotCol ∧ rowRatio64 table pivotCol i = some q ∧ -epsilon ≤ q

/-! ## Concrete models -/

/-- The model of `TestSolve`: maximize `3*x1 + 5*x2` subject to `x1 <= 4`, `2*x2 <= 12`,
`3*x1 + 2*x2 <= 18`. -/
def testSolveModel : LinearProgram :=
  { NbConstraints := 3
    NbVariables := 2
    VariableNames := ["x1", "x2"]
    SlackVariablesNames := []
    Objective := .MAXIMIZE
    ObjVar := none
    ObjCoeff := [3, 5]
    Comparisons := [.LE, .LE, .LE]
    ConstraintCoeff := [[1, 0], [0, 2], [3, 2]]
    Rhs := [4, 12, 18]
    State := .Undefined }

/-- The table on which `Solve` returns for `testSolveModel`, after three pivots. -/
def testSolveFinalTable : SimplexTable :=
  { data := [[1, 0, 0, -1/3, 1/3, 2], [0, 0, 1, 1/3, -1/3, 2], [0, 1, 0, 1/2, 0, 6],
             [0, 0, 0, 3/2, 1, 36]]
    basicVariables := [0, 2, 1] }

/-- The model `Solve` leaves for `testSolveModel`: its slack form with `ObjVar = [2, 6, 36]`
and the state reset to `Undefined`. -/
def testSolveSolved : LinearProgram :=
  { ToSlackForm testSolveModel with ObjVar := some [2, 6, 36], State := .Undefined }

/-- The model of `TestSolve_Unbounded`: maximize `x1 + x2` subject to `x1 - x2 <= 1`,
`-x1 + x2 <= 1`. -/
def testUnboundedModel : LinearProgram :=
  { NbConstraints := 2
    NbVariables := 2
    VariableNames := ["x1", "x2"]
    SlackVariablesNames := []
    Objective := .MAXIMIZE
    ObjVar := none
    ObjCoeff := [1, 1]
    Comparisons := [.LE, .LE]
    ConstraintCoeff := [[1, -1], [-1, 1]]
    Rhs := [1, 1]
    State := .Undefined }

/-- The model of `TestSolve_Infeasible`: maximize `x1 + x2` subject to `x1 + x2 <= 1`,
`x1 + x2 >= 2`. -/
def testInfeasibleModel : LinearProgram :=
  { NbConstraints := 2
    NbVariables := 2
    VariableNames := ["x1", "x2"]
    SlackVariablesNames := []
    Objective := .MAXIMIZE
    ObjVar := none
    ObjCoeff := [1, 1]
    Comparisons := [.LE, .BE]
    ConstraintCoeff := [[1, 1], [1, 1]]
    Rhs := [1, 2]
    State := .Undefined }

/-- The model of `TestToCanonicalForm`: minimize `x + 2*y` subject to `x + y >= 10`,
`2*x + y <= 15`. -/
def testCanonicalModel : LinearProgram :=
  { NbConstraints := 2
    NbVariables := 2
    VariableNames := ["x", "y"]
    SlackVariablesNames := []
    Objective := .MINIMIZE
    ObjVar := none
    ObjCoeff := [1, 2]
    Comparisons := [.BE, .LE]
    ConstraintCoeff := [[1, 1], [2, 1]]
    Rhs := [10, 15]
    State := .Undefined }

/-- The model of `TestToSlackForm`: maximize `x + 2*y` subject to `x + y <= 10`,
`2*x + y <= 15`. -/
def testSlackModel : LinearProgram :=
  { NbConstraints := 2
    NbVariables := 2
    VariableNames := ["x", "y"]
    SlackVariablesNames := []
    Objective := .MAXIMIZE
    ObjVar := none
    ObjCoeff := [1, 2]
    Comparisons := [.LE, .LE]
    ConstraintCoeff := [[1, 1], [2, 1]]
    Rhs := [10, 15]
    State := .Undefined }

/-- A model for the statements about `EnsureNonNegativeRhs`: rows `-x - y <= -3` and
`x >= 2`. -/
def negRhsModel : LinearProgram :=
  { NbConstraints := 2
    NbVariables := 2
    VariableNames := ["x", "y"]
    SlackVariablesNames := []
    Objective := .MAXIMIZE
    ObjVar := none
    ObjCoeff := [1, 1]
    Comparisons := [.LE, .BE]
    ConstraintCoeff := [[-1, -1], [1, 0]]
    Rhs := [-3, 2]
    State := .Undefined }

/-- A model with an `EQ` row: maximize `x + y` subject to `x + y = 0`, `x >= 0`, `y < 3`. -/
def eqRowModel : LinearProgram :=
  { NbConstraints := 3
    NbVariables := 2
    VariableNames := ["x", "y"]
    SlackVariablesNames := []
    Objective := .MAXIMIZE
    ObjVar := none
    ObjCoeff := [1, 1]
    Comparisons := [.EQ, .BE, .LO]
    ConstraintCoeff := [[1, 1], [1, 0], [0, 1]]
    Rhs := [0, 0, 3]
    State := .Undefined }

/-- A model whose objective coefficient is below the tolerance: maximize `x / 10^11` subject
to `x <= 10^12`. -/
def tinyObjectiveModel : LinearProgram :=
  { NbConstraints := 1
    NbVariables := 1
    VariableNames := ["x"]
    SlackVariablesNames := []
    Objective := .MAXIMIZE
    ObjVar := none
    ObjCoeff := [1 / 100000000000]
    Comparisons := [.LE]
    ConstraintCoeff := [[1]]
    Rhs := [1000000000000]
    State := .Undefined }

/-- A model with a constraint coefficient below the tolerance: maximize `x` subject to
`x <= 10^12` and `x / 10^11 <= 1`. -/
def tinyPivotModel : LinearProgram :=
  { NbConstraints := 2
    NbVariables := 1
    VariableNames := ["x"]
    SlackVariablesNames := []
    Objective := .MAXIMIZE
    ObjVar := none
    ObjCoeff := [1]
    Comparisons := [.LE, .LE]
    ConstraintCoeff := [[1], [1 / 100000000000]]
    Rhs := [1000000000000, 1]
    State := .Undefined }

/-- A degenerate model on which the loop of `Solve` cycles: maximize
`-x1 - x2 + 2*x3 + x4` subject to `-x1 - 2*x2 + x3 - 3*x4 <= 0`, `-x1 - 2*x2 - 3*x3 <= 0`,
`3*x1 - 3*x2 + 3*x3 - 3*x4 <= 0`. -/
def cyclingModel : LinearProgram :=
  { NbConstraints := 3
    NbVariables := 4
    VariableNames := ["x1", "x2", "x3", "x4"]
    SlackVariablesNames := []
    Objective := .MAXIMIZE
    ObjVar := none
    ObjCoeff := [-1, -1, 2, 1]
    Comparisons := [.LE, .LE, .LE]
    ConstraintCoeff := [[-1, -2, 1, -3], [-1, -2, -3, 0], [3, -3, 3, -3]]
    Rhs := [0, 0, 0]
    State := .Undefined }

/-- The table of `cyclingModel` after two pivots. -/
def cyclingTable : SimplexTable :=
  { data := [[0, -3/2, 1, -2, 1/2, 0, 1/6, 0], [0, -6, 0, -5, 1, 1, 2/3, 0],
             [1, 1/2, 0, 1, -1/2, 0, 1/6, 0], [0, -5/2, 0, -6, 3/2, 0, 1/6, 0]]
    basicVariables := [2, 5, 0] }

/-- A model with a variable named `objective`: maximize `2*objective` subject to
`objective <= 1`. -/
def objectiveNamedModel : LinearProgram :=
  { NbConstraints := 1
    NbVariables := 1
    VariableNames := ["objective"]
    SlackVariablesNames := []
    Objective := .MAXIMIZE
    ObjVar := none
    ObjCoeff := [2]
    Comparisons := [.LE]
    ConstraintCoeff := [[1]]
    Rhs := [1]
    State := .Undefined }

/-- A table with a negative right-hand side: the constraint row `x = -1` and an empty
objective row. -/
def negativeRhsTable : SimplexTable :=
  { data := [[1, -1], [0, 0]]
    basicVariables := [0] }

/-- A feasible model with an `EQ` row: maximize `x` subject to `x = 1`. -/
def eqOneModel : LinearProgram :=
  { NbConstraints := 1
    NbVariables := 1
    VariableNames := ["x"]
    SlackVariablesNames := []
    Objective := .MAXIMIZE
    ObjVar := none
    ObjCoeff := [1]
    Comparisons := [.EQ]
    ConstraintCoeff := [[1]]
    Rhs := [1]
    State := .Undefined }

/-- A minimizing model on which `Solve` succeeds: minimize `-3*x1 - 5*x2` subject to the
rows of `TestSolve`, `x1 <= 4`, `2*x2 <= 12`, `3*x1 + 2*x2 <= 18`. -/
def minimizeModel : LinearProgram :=
  { NbConstraints := 3
    NbVariables := 2
    VariableNames := ["x1", "x2"]
    SlackVariablesNames := []
    Objective := .MINIMIZE
    ObjVar := none
    ObjCoeff := [-3, -5]
    Comparisons := [.LE, .LE, .LE]
    ConstraintCoeff := [[1, 0], [0, 2], [3, 2]]
    Rhs := [4, 12, 18]
    State := .Undefined }

/-- A well-formed model labelled `Slack` whose only row is labelled `LE`: maximize `x`
subject to the row `[1 1 | 1]`. -/
def slackLabelledModel : LinearProgram :=
  { NbConstraints := 1
    NbVariables := 2
    VariableNames := ["x"]
    SlackVariablesNames := ["s1"]
    Objective := .MAXIMIZE
    ObjVar := none
    ObjCoeff := [1, 0]
    Comparisons := [.LE]
    ConstraintCoeff := [[1, 1]]
    Rhs := [1]
    State := .Slack }

/-- A model whose decimal coefficients are not binary fractions: maximize `x + y` subject to
`0.1*x + 0.2*y <= 0.3`, `x <= 1`, each decimal literal being the `float64` nearest to it. -/
def decimalModel : LinearProgram :=
  { NbConstraints := 2
    NbVariables := 2
    VariableNames := ["x", "y"]
    SlackVariablesNames := []
    Objective := .MAXIMIZE
    ObjVar := none
    ObjCoeff := [1, 1]
    Comparisons := [.LE, .LE]
    ConstraintCoeff := [[round64 (1 / 10), round64 (2 / 10)], [1, 0]]
    Rhs := [round64 (3 / 10), 1]
    State := .Undefined }

/-- A model with a large objective coefficient: maximize `1e9*x` subject to `3*x <= 1`. -/
def thirdModel : LinearProgram :=
  { NbConstraints := 1
    NbVariables := 1
    VariableNames := ["x"]
    SlackVariablesNames := []
    Objective := .MAXIMIZE
    ObjVar := none
    ObjCoeff := [1000000000]
    Comparisons := [.LE]
    ConstraintCoeff := [[3]]
    Rhs := [1]
    State := .Undefined }

/-- A model whose solution is not a binary fraction: maximize `x` subject to `10*x <= 1`. -/
def tenthModel : LinearProgram :=
  { NbConstraints := 1
    NbVariables := 1
    VariableNames := ["x"]
    SlackVariablesNames := []
    Objective := .MAXIMIZE
    ObjVar := none
    ObjCoeff := [1]
    Comparisons := [.LE]
    ConstraintCoeff := [[10]]
    Rhs := [1]
    State := .Undefined }

/-- A table whose quotient overflows: the constraint row `[2^-10 1 | 2^1023]` and the
objective row `[-1 0 | 0]`. -/
def overflowTable : SimplexTable :=
  { data := [[1 / 2 ^ 10, 1, 2 ^ 1023], [-1, 0, 0]]
    basicVariables := [1] }

/-- A table with two quotients one unit in the last place apart: the constraint rows
`[1 | 600000]` and `[1 | 600000 - 2^-33]` and the objective row `[0 | 0]`. -/
def closeRatiosTable : SimplexTable :=
  { data := [[1, 600000], [1, 600000 - 1 / 2 ^ 33], [0, 0]]
    basicVariables := [0, 0] }

/-! ## Lists as slices: reads, writes and counted loops -/

/-- Reading a slice after one write. -/
theorem getD_set_ite {α : Type} (l : List α) (i j : Nat) (a d : α) :
    (l.set i a).getD j d = if i = j ∧ i < l.length then a else l.getD j d := by
  simp only [List.getD_eq_getElem?_getD, List.getElem?_set]
  by_cases hij : i = j
  · subst hij
    by_cases hi : i < l.length
    · simp [hi]
    · have h0 : l[i]? = none := List.getElem?_eq_none_iff.mpr (by omega)
      simp [hi, h0]
  · simp [hij]

/-- One more iteration of a counted loop `for i := 0; i < k+1; i++`. -/
theorem foldl_range_succ {β : Type} (f : β → Nat → β) (b : β) (k : Nat) :
    (List.range (k + 1)).foldl f b = f ((List.range k).foldl f b) k := by
  rw [List.range_succ, List.foldl_append]
  rfl

/-! ## `EnsureNonNegativeRhs` -/

/-- A read out of range of `Rhs` is not negative. -/
theorem rhs_neg_in_range (l : List ℚ) (i : Nat) (h : l.getD i 0 < 0) : i < l.length := by
  by_contra hi
  rw [List.getD_eq_default _ _ (by omega)] at h
  exact lt_irrefl _ h

/-- The loop of `EnsureNonNegativeRhs` after `k` iterations: the rows below `k` with a
negative right-hand side are negated and flipped, everything else is as before. -/
theorem ensure_loop (lp : LinearProgram)
    (hc : lp.ConstraintCoeff.length = lp.Rhs.length)
    (hk : lp.Comparisons.length = lp.Rhs.length) (k : Nat) :
    (((List.range k).foldl EnsureNonNegativeRhsStep lp).NbConstraints = lp.NbConstraints ∧
      ((List.range k).foldl EnsureNonNegativeRhsStep lp).NbVariables = lp.NbVariables ∧
      ((List.range k).foldl EnsureNonNegativeRhsStep lp).VariableNames = lp.VariableNames ∧
      ((List.range k).foldl EnsureNonNegativeRhsStep lp).SlackVariablesNames
        = lp.SlackVariablesNames ∧
      ((List.range k).foldl EnsureNonNegativeRhsStep lp).Objective = lp.Objective ∧
      ((List.range k).foldl EnsureNonNegativeRhsStep lp).ObjVar = lp.ObjVar ∧
      ((List.range k).foldl EnsureNonNegativeRhsStep lp).ObjCoeff = lp.ObjCoeff ∧
      ((List.range k).foldl EnsureNonNegativeRhsStep lp).State = lp.State) ∧
    (((List.range k).foldl EnsureNonNegativeRhsStep lp).Rhs.length = lp.Rhs.length ∧
      ((List.range k).foldl EnsureNonNegativeRhsStep lp).ConstraintCoeff.length
        = lp.ConstraintCoeff.length ∧
      ((List.range k).foldl EnsureNonNegativeRhsStep lp).Comparisons.length
        = lp.Comparisons.length) ∧
    ∀ i,
      ((List.range k).foldl EnsureNonNegativeRhsStep lp).Rhs.getD i 0
        = (if i < k ∧ lp.Rhs.getD i 0 < 0 then lp.Rhs.getD i 0 * (-1) else lp.Rhs.getD i 0) ∧
      ((List.range k).foldl EnsureNonNegativeRhsStep lp).ConstraintCoeff.getD i []
        = (if i < k ∧ lp.Rhs.getD i 0 < 0 then MultiplyRow (lp.ConstraintCoeff.getD i []) (-1)
           else lp.ConstraintCoeff.getD i []) ∧
      ((List.range k).foldl EnsureNonNegativeRhsStep lp).Comparisons.getD i .EQ
        = (if i < k ∧ lp.Rhs.getD i 0 < 0 then FlipComparison (lp.Comparisons.getD i .EQ)
           else lp.Comparisons.getD i .EQ) := by
  induction k with
  | zero => simp
  | succ k ih =>
    rw [foldl_range_succ]
    generalize (List.range k).foldl EnsureNonNegativeRhsStep lp = q at ih ⊢
    obtain ⟨⟨f1, f2, f3, f4, f5, f6, f7, f8⟩, ⟨l1, l2, l3⟩, hrow⟩ := ih
    have hqk : q.Rhs.getD k 0 = lp.Rhs.getD k 0 := by
      have := (hrow k).1
      simpa using this
    unfold EnsureNonNegativeRhsStep
    by_cases hneg : lp.Rhs.getD k 0 < 0
    · have hkin : k < lp.Rhs.length := rhs_neg_in_range _ _ hneg
      rw [if_pos (by rw [hqk]; exact hneg)]
      refine ⟨⟨f1, f2, f3, f4, f5, f6, f7, f8⟩, ⟨?_, ?_, ?_⟩, ?_⟩
      · simpa using l1
      · simpa using l2
      · simpa using l3
      · intro i
        obtain ⟨r1, r2, r3⟩ := hrow i
        simp only [getD_set_ite]
        by_cases hik : k = i
        · subst hik
          have e1 : k < q.Rhs.length := by omega
          have e2 : k < q.ConstraintCoeff.length := by omega
          have e3 : k < q.Comparisons.length := by omega
          have r2k : q.ConstraintCoeff.getD k [] = lp.ConstraintCoeff.getD k [] := by
            simpa using r2
          have r3k : q.Comparisons.getD k .EQ = lp.Comparisons.getD k .EQ := by
            simpa using r3
          simp only [true_and, e1, e2, e3, if_true, Nat.lt_succ_self, hneg, and_self, hqk,
            r2k, r3k]
        · have hlt : (i < k + 1) ↔ (i < k) := by omega
          simp only [hik, false_and, if_false, hlt]
          exact ⟨r1, r2, r3⟩
    · rw [if_neg (by rw [hqk]; exact hneg)]
      refine ⟨⟨f1, f2, f3, f4, f5, f6, f7, f8⟩, ⟨l1, l2, l3⟩, ?_⟩
      intro i
      obtain ⟨r1, r2, r3⟩ := hrow i
      by_cases hik : i = k
      · subst hik
        simp only [hneg, and_false, if_false] at r1 r2 r3 ⊢
        exact ⟨r1, r2, r3⟩
      · have hlt : (i < k + 1) ↔ (i < k) := by omega
        simp only [hlt]
        exact ⟨r1, r2, r3⟩

/-- Whatever the lengths, `EnsureNonNegativeRhs` leaves the other eight fields alone. -/
theorem ensure_frame (lp : LinearProgram) :
    (EnsureNonNegativeRhs lp).NbConstraints = lp.NbConstraints ∧
    (EnsureNonNegativeRhs lp).NbVariables = lp.NbVariables ∧
    (EnsureNonNegativeRhs lp).VariableNames = lp.VariableNames ∧
    (EnsureNonNegativeRhs lp).SlackVariablesNames = lp.SlackVariablesNames ∧
    (EnsureNonNegativeRhs lp).Objective = lp.Objective ∧
    (EnsureNonNegativeRhs lp).ObjVar = lp.ObjVar ∧
    (EnsureNonNegativeRhs lp).ObjCoeff = lp.ObjCoeff ∧
    (EnsureNonNegativeRhs lp).State = lp.State := by
  unfold EnsureNonNegativeRhs
  generalize lp.Rhs.length = k
  induction k with
  | zero => simp
  | succ k ih =>
    rw [foldl_range_succ]
    generalize (List.range k).foldl EnsureNonNegativeRhsStep lp = q at ih ⊢
    unfold EnsureNonNegativeRhsStep
    split_ifs
    · exact ih
    · exact ih

/-- `EnsureNonNegativeRhs` touches only `Rhs`, `ConstraintCoeff` and `Comparisons`, keeps
their lengths, and treats every row on its own. -/
theorem ensure_spec (lp : LinearProgram)
    (hc : lp.ConstraintCoeff.length = lp.Rhs.length)
    (hk : lp.Comparisons.length = lp.Rhs.length) :
    ((EnsureNonNegativeRhs lp).NbConstraints = lp.NbConstraints ∧
      (EnsureNonNegativeRhs lp).NbVariables = lp.NbVariables ∧
      (EnsureNonNegativeRhs lp).VariableNames = lp.VariableNames ∧
      (EnsureNonNegativeRhs lp).SlackVariablesNames = lp.SlackVariablesNames ∧
      (EnsureNonNegativeRhs lp).Objective = lp.Objective ∧
      (EnsureNonNegativeRhs lp).ObjVar = lp.ObjVar ∧
      (EnsureNonNegativeRhs lp).ObjCoeff = lp.ObjCoeff ∧
      (EnsureNonNegativeRhs lp).State = lp.State) ∧
    ((EnsureNonNegativeRhs lp).Rhs.length = lp.Rhs.length ∧
      (EnsureNonNegativeRhs lp).ConstraintCoeff.length = lp.ConstraintCoeff.length ∧
      (EnsureNonNegativeRhs lp).Comparisons.length = lp.Comparisons.length) ∧
    ∀ i,
      (EnsureNonNegativeRhs lp).Rhs.getD i 0
        = (if lp.Rhs.getD i 0 < 0 then lp.Rhs.getD i 0 * (-1) else lp.Rhs.getD i 0) ∧
      (EnsureNonNegativeRhs lp).ConstraintCoeff.getD i []
        = (if lp.Rhs.getD i 0 < 0 then MultiplyRow (lp.ConstraintCoeff.getD i []) (-1)
           else lp.ConstraintCoeff.getD i []) ∧
      (EnsureNonNegativeRhs lp).Comparisons.getD i .EQ
        = (if lp.Rhs.getD i 0 < 0 then FlipComparison (lp.Comparisons.getD i .EQ)
           else lp.Comparisons.getD i .EQ) := by
  obtain ⟨hf, hl, hrow⟩ := ensure_loop lp hc hk lp.Rhs.length
  refine ⟨hf, hl, ?_⟩
  intro i
  have h := hrow i
  by_cases hneg : lp.Rhs.getD i 0 < 0
  · have hi : i < lp.Rhs.length := rhs_neg_in_range _ _ hneg
    simp only [hi, hneg, and_self, if_true] at h ⊢
    exact h
  · simp only [hneg, and_false, if_false] at h ⊢
    exact h

/-! ## C10 -/

/-- C10: `EnsureNonNegativeRhs` on a model with `len(ConstraintCoeff) = len(Comparisons) =
len(Rhs)` keeps the three lengths, and for every row `i`: if `Rhs[i] < 0` before the call then
afterwards `Rhs[i]` is the negated value (so `>= 0`), the coefficient row is negated entry by
entry, and the comparison is flipped by the table `LE <-> BE`, `LO <-> BI`, `EQ -> EQ`; if
`Rhs[i] >= 0` before the call the row, its right-hand side and its comparison are unchanged. -/
theorem C10_EnsureNonNegativeRhs (lp : LinearProgram)
    (hc : lp.ConstraintCoeff.length = lp.Rhs.length)
    (hk : lp.Comparisons.length = lp.Rhs.length) (i : Nat) (_hi : i < lp.Rhs.length) :
    ((EnsureNonNegativeRhs lp).Rhs.length = lp.Rhs.length ∧
      (EnsureNonNegativeRhs lp).ConstraintCoeff.length = lp.ConstraintCoeff.length ∧
      (EnsureNonNegativeRhs lp).Comparisons.length = lp.Comparisons.length) ∧
    (lp.Rhs.getD i 0 < 0 →
      0 ≤ (EnsureNonNegativeRhs lp).Rhs.getD i 0 ∧
      (EnsureNonNegativeRhs lp).Rhs.getD i 0 = -(lp.Rhs.getD i 0) ∧
      (EnsureNonNegativeRhs lp).ConstraintCoeff.getD i []
        = (lp.ConstraintCoeff.getD i []).map (fun v => -v) ∧
      (EnsureNonNegativeRhs lp).Comparisons.getD i .EQ
        = (match lp.Comparisons.getD i .EQ with
           | .LE => .BE
           | .BE => .LE
           | .LO => .BI
           | .BI => .LO
           | .EQ => .EQ)) ∧
    (0 ≤ lp.Rhs.getD i 0 →
      (EnsureNonNegativeRhs lp).Rhs.getD i 0 = lp.Rhs.getD i 0 ∧
      (EnsureNonNegativeRhs lp).ConstraintCoeff.getD i [] = lp.ConstraintCoeff.getD i [] ∧
      (EnsureNonNegativeRhs lp).Comparisons.getD i .EQ = lp.Comparisons.getD i .EQ) := by
  obtain ⟨_, hl, hrow⟩ := ensure_spec lp hc hk
  obtain ⟨r1, r2, r3⟩ := hrow i
  refine ⟨hl, ?_, ?_⟩
  · intro hneg
    rw [r1, r2, r3]
    simp only [hneg, if_true]
    refine ⟨?_, by ring, ?_, ?_⟩
    · linarith
    · unfold MultiplyRow
      apply List.map_congr_left
      intro v _
      ring
    · cases lp.Comparisons.getD i .EQ <;> rfl
  · intro hpos
    rw [r1, r2, r3]
    have hn : ¬ lp.Rhs.getD i 0 < 0 := not_lt.mpr hpos
    simp only [hn, if_false, and_self]

/-- C10 at row `0` (`-x - y <= -3`) of `negRhsModel`. -/
theorem C10_EnsureNonNegativeRhs_witness :
    ((EnsureNonNegativeRhs negRhsModel).Rhs.length = negRhsModel.Rhs.length ∧
      (EnsureNonNegativeRhs negRhsModel).ConstraintCoeff.length
        = negRhsModel.ConstraintCoeff.length ∧
      (EnsureNonNegativeRhs negRhsModel).Comparisons.length = negRhsModel.Comparisons.length) ∧
    (negRhsModel.Rhs.getD 0 0 < 0 →
      0 ≤ (EnsureNonNegativeRhs negRhsModel).Rhs.getD 0 0 ∧
      (EnsureNonNegativeRhs negRhsModel).Rhs.getD 0 0 = -(negRhsModel.Rhs.getD 0 0) ∧
      (EnsureNonNegativeRhs negRhsModel).ConstraintCoeff.getD 0 []
        = (negRhsModel.ConstraintCoeff.getD 0 []).map (fun v => -v) ∧
      (EnsureNonNegativeRhs negRhsModel).Comparisons.getD 0 .EQ
        = (match negRhsModel.Comparisons.getD 0 .EQ with
           | .LE => .BE
           | .BE => .LE
           | .LO => .BI
           | .BI => .LO
           | .EQ => .EQ)) ∧
    (0 ≤ negRhsModel.Rhs.getD 0 0 →
      (EnsureNonNegativeRhs negRhsModel).Rhs.getD 0 0 = negRhsModel.Rhs.getD 0 0 ∧
      (EnsureNonNegativeRhs negRhsModel).ConstraintCoeff.getD 0 []
        = negRhsModel.ConstraintCoeff.getD 0 [] ∧
      (EnsureNonNegativeRhs negRhsModel).Comparisons.getD 0 .EQ
        = negRhsModel.Comparisons.getD 0 .EQ) :=
  C10_EnsureNonNegativeRhs negRhsModel (by decide) (by decide) 0 (by decide)

/-! ## `ConvertToLeConstraints` and `ToCanonicalForm` -/

/-- The loop of `ConvertToLeConstraints` after `k` iterations has emitted, in order, the
rewritings `leRowsAt` of the rows below `k`, every one labelled `LE`. -/
theorem convertLe_loop (lp : LinearProgram) (k : Nat) :
    (List.range k).foldl (ConvertToLeStep lp) ⟨[], [], [], 0⟩ =
      { newConstraintCoeff := ((List.range k).flatMap (leRowsAt lp)).map Prod.fst
        newRhs := ((List.range k).flatMap (leRowsAt lp)).map Prod.snd
        newComparisons := List.replicate ((List.range k).flatMap (leRowsAt lp)).length .LE
        newNbConstraints := ((List.range k).flatMap (leRowsAt lp)).length } := by
  induction k with
  | zero => rfl
  | succ k ih =>
    rw [foldl_range_succ, ih, List.range_succ, List.flatMap_append, List.flatMap_singleton]
    unfold ConvertToLeStep leRowsAt
    cases lp.Comparisons.getD k .EQ <;>
      simp [leRows, List.replicate_add, Nat.add_assoc]

/-- The fields of the model after `ConvertToLeConstraints`. -/
theorem convertLe_spec (lp : LinearProgram) :
    ConvertToLeConstraints lp =
      { lp with
        ConstraintCoeff := ((List.range lp.NbConstraints).flatMap (leRowsAt lp)).map Prod.fst
        Rhs := ((List.range lp.NbConstraints).flatMap (leRowsAt lp)).map Prod.snd
        Comparisons :=
          List.replicate ((List.range lp.NbConstraints).flatMap (leRowsAt lp)).length .LE
        NbConstraints := ((List.range lp.NbConstraints).flatMap (leRowsAt lp)).length } := by
  unfold ConvertToLeConstraints
  rw [convertLe_loop]

/-- Every constraint is rewritten into one or two rows. -/
theorem leRowsAt_length_pos (lp : LinearProgram) (i : Nat) : 1 ≤ (leRowsAt lp i).length := by
  unfold leRowsAt leRows
  cases lp.Comparisons.getD i .EQ <;> simp

/-- The rewriting of the first `k` constraints has at least `k` rows. -/
theorem le_length_flatMap_leRowsAt (lp : LinearProgram) (k : Nat) :
    k ≤ ((List.range k).flatMap (leRowsAt lp)).length := by
  induction k with
  | zero => simp
  | succ k ih =>
    rw [List.range_succ, List.flatMap_append, List.flatMap_singleton, List.length_append]
    have := leRowsAt_length_pos lp k
    omega

/-- `EnsureMaximization` touches only `Objective` and `ObjCoeff`. -/
theorem ensureMax_frame (lp : LinearProgram) :
    (EnsureMaximization lp).NbConstraints = lp.NbConstraints ∧
    (EnsureMaximization lp).NbVariables = lp.NbVariables ∧
    (EnsureMaximization lp).VariableNames = lp.VariableNames ∧
    (EnsureMaximization lp).SlackVariablesNames = lp.SlackVariablesNames ∧
    (EnsureMaximization lp).ObjVar = lp.ObjVar ∧
    (EnsureMaximization lp).Comparisons = lp.Comparisons ∧
    (EnsureMaximization lp).ConstraintCoeff = lp.ConstraintCoeff ∧
    (EnsureMaximization lp).Rhs = lp.Rhs ∧
    (EnsureMaximization lp).State = lp.State := by
  unfold EnsureMaximization
  split_ifs <;> simp

/-- After `EnsureMaximization` the direction is `MAXIMIZE`. -/
theorem ensureMax_objective (lp : LinearProgram) :
    (EnsureMaximization lp).Objective = .MAXIMIZE := by
  unfold EnsureMaximization
  split_ifs with h
  · rfl
  · cases hO : lp.Objective
    · exact absurd hO h
    · rfl

/-- The objective coefficients after `EnsureMaximization`. -/
theorem ensureMax_objCoeff (lp : LinearProgram) :
    (EnsureMaximization lp).ObjCoeff =
      if lp.Objective = .MINIMIZE then lp.ObjCoeff.map (fun c => -c) else lp.ObjCoeff := by
  unfold EnsureMaximization
  split_ifs with h
  · show lp.ObjCoeff.map (fun c => c * (-1)) = _
    apply List.map_congr_left
    intro c _
    ring
  · rfl

/-! ## C9 -/

/-- C9: for every model in state `Undefined` (well-formed or not), after `ToCanonicalForm`
there is one comparison per constraint row and every one of them is `LE`, `Objective` is
`MAXIMIZE`, `ObjCoeff` is negated entry by entry if the direction was `MINIMIZE` and is
unchanged otherwise, `State` is `Canonical`, and `NbConstraints` is at least its previous
value. -/
theorem C9_ToCanonicalForm_post (lp : LinearProgram) (hS : lp.State = .Undefined) :
    (ToCanonicalForm lp).Comparisons.length = (ToCanonicalForm lp).NbConstraints ∧
    (∀ c ∈ (ToCanonicalForm lp).Comparisons, c = Comparison.LE) ∧
    (ToCanonicalForm lp).Objective = .MAXIMIZE ∧
    (ToCanonicalForm lp).ObjCoeff =
      (if lp.Objective = .MINIMIZE then lp.ObjCoeff.map (fun c => -c) else lp.ObjCoeff) ∧
    (ToCanonicalForm lp).State = .Canonical ∧
    lp.NbConstraints ≤ (ToCanonicalForm lp).NbConstraints := by
  obtain ⟨e1, _, _, _, e5, _, e7, _⟩ := ensure_frame (EnsureMaximization lp)
  obtain ⟨m1, _⟩ := ensureMax_frame lp
  unfold ToCanonicalForm
  rw [if_neg (by simp [hS]), convertLe_spec]
  refine ⟨by simp, ?_, ?_, ?_, rfl, ?_⟩
  · intro c hc
    exact List.eq_of_mem_replicate hc
  · show (EnsureNonNegativeRhs (EnsureMaximization lp)).Objective = .MAXIMIZE
    rw [e5, ensureMax_objective]
  · show (EnsureNonNegativeRhs (EnsureMaximization lp)).ObjCoeff = _
    rw [e7, ensureMax_objCoeff]
  · show lp.NbConstraints ≤ ((List.range (EnsureNonNegativeRhs (EnsureMaximization lp)).NbConstraints).flatMap
      (leRowsAt (EnsureNonNegativeRhs (EnsureMaximization lp)))).length
    rw [e1, m1]
    exact le_length_flatMap_leRowsAt _ _

/-- C9 on the model of `TestToCanonicalForm`. -/
theorem C9_ToCanonicalForm_post_witness :
    testCanonicalModel.State = .Undefined ∧
    (ToCanonicalForm testCanonicalModel).Comparisons.length
      = (ToCanonicalForm testCanonicalModel).NbConstraints ∧
    (∀ c ∈ (ToCanonicalForm testCanonicalModel).Comparisons, c = Comparison.LE) ∧
    (ToCanonicalForm testCanonicalModel).Objective = .MAXIMIZE ∧
    (ToCanonicalForm testCanonicalModel).ObjCoeff =
      (if testCanonicalModel.Objective = .MINIMIZE
       then testCanonicalModel.ObjCoeff.map (fun c => -c) else testCanonicalModel.ObjCoeff) ∧
    (ToCanonicalForm testCanonicalModel).State = .Canonical ∧
    testCanonicalModel.NbConstraints ≤ (ToCanonicalForm testCanonicalModel).NbConstraints :=
  ⟨rfl, C9_ToCanonicalForm_post testCanonicalModel rfl⟩

/-! ## The loop of `Solve` and its fuel -/

/-- More fuel does not change what the loop returns. -/
theorem solveLoop_fuel_mono (o : Objectiv) (lp : LinearProgram) (k : Nat) :
    ∀ (fuel : Nat) (table : SimplexTable) (pivots : Nat) (r : SolveRun),
      solveLoop o lp fuel table pivots = some r →
      solveLoop o lp (fuel + k) table pivots = some r := by
  intro fuel
  induction fuel with
  | zero => intro table pivots r h; simp [solveLoop] at h
  | succ n ih =>
    intro table pivots r h
    rw [Nat.add_right_comm]
    simp only [solveLoop] at h ⊢
    by_cases h1 : FindEnteringVariable table = -1
    · simpa [h1] using h
    · by_cases h2 : FindLeavingVariable table (FindEnteringVariable table) = -1
      · simpa [h1, h2] using h
      · simp only [h1, h2, if_false] at h ⊢
        exact ih _ _ _ h

/-- More fuel does not change what `Solve` returns. -/
theorem SolveRunOf_fuel_mono (fuel k : Nat) (lp : LinearProgram) (r : SolveRun)
    (h : SolveRunOf fuel lp = some r) : SolveRunOf (fuel + k) lp = some r := by
  simp only [SolveRunOf] at h ⊢
  split_ifs at h ⊢ with h1
  · exact h
  · exact solveLoop_fuel_mono _ _ k _ _ _ _ h

/-- The loop of `Solve` follows `pivotStep`. -/
theorem solveLoop_pivotStep (o : Objectiv) (lp : LinearProgram) (fuel : Nat)
    (table table1 : SimplexTable) (pivots : Nat) (h : pivotStep table = some table1) :
    solveLoop o lp (fuel + 1) table pivots = solveLoop o lp fuel table1 (pivots + 1) := by
  simp only [pivotStep] at h
  simp only [solveLoop]
  by_cases h1 : FindEnteringVariable table = -1
  · simp [h1] at h
  · by_cases h2 : FindLeavingVariable table (FindEnteringVariable table) = -1
    · simp [h1, h2] at h
    · simp only [h1, h2, if_false, Option.some.injEq] at h ⊢
      rw [h]

/-- The loop of `Solve` follows `tableAfter`. -/
theorem solveLoop_tableAfter (o : Objectiv) (lp : LinearProgram) (k : Nat) :
    ∀ (fuel : Nat) (table table1 : SimplexTable) (pivots : Nat),
      tableAfter k table = some table1 →
      solveLoop o lp (fuel + k) table pivots = solveLoop o lp fuel table1 (pivots + k) := by
  induction k with
  | zero =>
    intro fuel table table1 pivots h
    simp only [tableAfter, Option.some.injEq] at h
    simp [h]
  | succ k ih =>
    intro fuel table table1 pivots h
    simp only [tableAfter] at h
    cases hp : pivotStep table with
    | none => simp [hp] at h
    | some t2 =>
      simp only [hp] at h
      rw [← Nat.add_assoc, solveLoop_pivotStep o lp (fuel + k) table t2 pivots hp,
        ih fuel t2 table1 (pivots + 1) h, Nat.add_assoc, Nat.add_comm 1 k]

/-- What the loop of `Solve` can return: `Unbounded` with the model untouched, or `nil` with
`ObjVar` written and `State` reset. -/
theorem solveLoop_result (o : Objectiv) (lp : LinearProgram) :
    ∀ (fuel : Nat) (table : SimplexTable) (pivots : Nat) (r : SolveRun),
      solveLoop o lp fuel table pivots = some r →
      (r.err = some "Unbounded" ∧ r.lp = lp) ∨
      (r.err = none ∧ FindEnteringVariable r.table = -1 ∧
        r.lp = { lp with
                 ObjVar := some (if o = .MINIMIZE then negateLast (ExtractSolution r.table lp)
                                 else ExtractSolution r.table lp)
                 State := .Undefined }) := by
  intro fuel
  induction fuel with
  | zero => intro table pivots r h; simp [solveLoop] at h
  | succ n ih =>
    intro table pivots r h
    simp only [solveLoop] at h
    by_cases h1 : FindEnteringVariable table = -1
    · simp only [h1, if_true, Option.some.injEq] at h
      subst h
      exact Or.inr ⟨rfl, h1, rfl⟩
    · by_cases h2 : FindLeavingVariable table (FindEnteringVariable table) = -1
      · simp only [h1, h2, if_true, if_false, Option.some.injEq] at h
        subst h
        exact Or.inl ⟨rfl, rfl⟩
      · simp only [h1, h2, if_false] at h
        exact ih _ _ _ h

/-! ## Frames of the slack transformation -/

/-- `ConvertToLeConstraints` leaves the fields it does not rebuild alone. -/
theorem convertLe_frame (lp : LinearProgram) :
    (ConvertToLeConstraints lp).NbVariables = lp.NbVariables ∧
    (ConvertToLeConstraints lp).VariableNames = lp.VariableNames ∧
    (ConvertToLeConstraints lp).SlackVariablesNames = lp.SlackVariablesNames ∧
    (ConvertToLeConstraints lp).Objective = lp.Objective ∧
    (ConvertToLeConstraints lp).ObjVar = lp.ObjVar ∧
    (ConvertToLeConstraints lp).ObjCoeff = lp.ObjCoeff ∧
    (ConvertToLeConstraints lp).State = lp.State := by
  simp [ConvertToLeConstraints]

/-- `ToCanonicalForm` does not touch `ObjVar` or the variable names. -/
theorem toCanonical_frame (lp : LinearProgram) :
    (ToCanonicalForm lp).ObjVar = lp.ObjVar ∧
    (ToCanonicalForm lp).VariableNames = lp.VariableNames ∧
    (ToCanonicalForm lp).SlackVariablesNames = lp.SlackVariablesNames ∧
    (ToCanonicalForm lp).NbVariables = lp.NbVariables := by
  unfold ToCanonicalForm
  split_ifs with h
  · exact ⟨rfl, rfl, rfl, rfl⟩
  · obtain ⟨c1, c2, c3, _, c5, _, _⟩ :=
      convertLe_frame (EnsureNonNegativeRhs (EnsureMaximization lp))
    obtain ⟨_, e2, e3, e4, _, e6, _, _⟩ := ensure_frame (EnsureMaximization lp)
    obtain ⟨_, m2, m3, m4, m5, _⟩ := ensureMax_frame lp
    refine ⟨?_, ?_, ?_, ?_⟩
    · show (ConvertToLeConstraints (EnsureNonNegativeRhs (EnsureMaximization lp))).ObjVar = _
      rw [c5, e6, m5]
    · show (ConvertToLeConstraints (EnsureNonNegativeRhs (EnsureMaximization lp))).VariableNames
        = _
      rw [c2, e3, m3]
    · show (ConvertToLeConstraints
        (EnsureNonNegativeRhs (EnsureMaximization lp))).SlackVariablesNames = _
      rw [c3, e4, m4]
    · show (ConvertToLeConstraints (EnsureNonNegativeRhs (EnsureMaximization lp))).NbVariables
        = _
      rw [c1, e2, m2]

/-- One iteration of `ConvertToEqualities` leaves these fields alone. -/
theorem convertEqStep_frame (lp : LinearProgram) (i : Nat) :
    (ConvertToEqualitiesStep lp i).NbConstraints = lp.NbConstraints ∧
    (ConvertToEqualitiesStep lp i).VariableNames = lp.VariableNames ∧
    (ConvertToEqualitiesStep lp i).Objective = lp.Objective ∧
    (ConvertToEqualitiesStep lp i).ObjVar = lp.ObjVar ∧
    (ConvertToEqualitiesStep lp i).Rhs = lp.Rhs ∧
    (ConvertToEqualitiesStep lp i).State = lp.State := by
  unfold ConvertToEqualitiesStep
  cases lp.Comparisons.getD i .EQ <;> simp [AddSlackVariable, AddSurplusVariable]

/-- The loop of `ConvertToEqualities` leaves these fields alone. -/
theorem convertEq_loop_frame (lp : LinearProgram) (k : Nat) :
    ((List.range k).foldl ConvertToEqualitiesStep lp).NbConstraints = lp.NbConstraints ∧
    ((List.range k).foldl ConvertToEqualitiesStep lp).VariableNames = lp.VariableNames ∧
    ((List.range k).foldl ConvertToEqualitiesStep lp).Objective = lp.Objective ∧
    ((List.range k).foldl ConvertToEqualitiesStep lp).ObjVar = lp.ObjVar ∧
    ((List.range k).foldl ConvertToEqualitiesStep lp).Rhs = lp.Rhs ∧
    ((List.range k).foldl ConvertToEqualitiesStep lp).State = lp.State := by
  induction k with
  | zero => simp
  | succ k ih =>
    rw [foldl_range_succ]
    generalize (List.range k).foldl ConvertToEqualitiesStep lp = q at ih ⊢
    obtain ⟨a1, a2, a3, a4, a5, a6⟩ := convertEqStep_frame q k
    obtain ⟨b1, b2, b3, b4, b5, b6⟩ := ih
    exact ⟨a1.trans b1, a2.trans b2, a3.trans b3, a4.trans b4, a5.trans b5, a6.trans b6⟩

/-- `ToSlackForm` always leaves the state `Slack`. -/
theorem toSlack_state (lp : LinearProgram) : (ToSlackForm lp).State = .Slack := by
  unfold ToSlackForm
  split_ifs with h
  · exact h
  · rfl
  · rfl

/-- `ToSlackForm` does not touch `ObjVar`. -/
theorem toSlack_objVar (lp : LinearProgram) : (ToSlackForm lp).ObjVar = lp.ObjVar := by
  unfold ToSlackForm
  split_ifs with h h2
  · rfl
  · show (ConvertToEqualities (ToCanonicalForm lp)).ObjVar = _
    unfold ConvertToEqualities
    rw [(convertEq_loop_frame _ _).2.2.2.1, (toCanonical_frame lp).1]
  · show (ConvertToEqualities lp).ObjVar = _
    unfold ConvertToEqualities
    rw [(convertEq_loop_frame _ _).2.2.2.1]

/-- On a model in state `Slack`, `InitializeTableau` does not normalise again. -/
theorem initializeTableau_problem (lp : LinearProgram) (h : lp.State = .Slack) :
    (InitializeTableau lp).2 = lp := by
  simp [InitializeTableau, h]

/-! ## The table built by `InitializeTableau` -/

/-- Reading a slice built as `make` of `m` computed elements followed by one more. -/
theorem getD_map_range_append {α : Type} (f : Nat → α) (m : Nat) (o d : α) (i : Nat) :
    ((List.range m).map f ++ [o]).getD i d = if i < m then f i else if i = m then o else d := by
  by_cases h1 : i < m
  · rw [List.getD_append _ _ _ _ (by simpa using h1), if_pos h1, List.getD_eq_getElem?_getD,
      List.getElem?_map, List.getElem?_range h1]
    rfl
  · rw [List.getD_append_right _ _ _ _ (by simpa using h1), if_neg h1]
    simp only [List.length_map, List.length_range]
    by_cases h2 : i = m
    · simp [h2]
    · rw [if_neg h2, List.getD_eq_default]
      simp only [List.length_singleton]
      omega

/-- The data of the table built from a model in state `Slack`. -/
theorem initializeTableau_data (lp : LinearProgram) (h : lp.State = .Slack) :
    (InitializeTableau lp).1.data =
      (List.range lp.NbConstraints).map (fun i =>
        (List.range lp.NbVariables).map (fun j => entry lp.ConstraintCoeff i j)
          ++ [lp.Rhs.getD i 0])
      ++ [(List.range lp.NbVariables).map (fun j => -(lp.ObjCoeff.getD j 0)) ++ [0]] := by
  simp [InitializeTableau, h]

/-- The table built from a model in state `Slack` has `NbConstraints + 1` rows. -/
theorem initializeTableau_length (lp : LinearProgram) (h : lp.State = .Slack) :
    (InitializeTableau lp).1.data.length = lp.NbConstraints + 1 := by
  simp [initializeTableau_data lp h]

/-- Every row of the table built from a model in state `Slack` has `NbVariables + 1`
entries. -/
theorem initializeTableau_row_length (lp : LinearProgram) (h : lp.State = .Slack) (i : Nat)
    (hi : i ≤ lp.NbConstraints) :
    ((InitializeTableau lp).1.data.getD i []).length = lp.NbVariables + 1 := by
  rw [initializeTableau_data lp h, getD_map_range_append]
  by_cases h1 : i < lp.NbConstraints
  · simp [h1]
  · have h2 : i = lp.NbConstraints := by omega
    simp [h2]

/-- The entries of the table built from a model in state `Slack`. -/
theorem initializeTableau_entry (lp : LinearProgram) (h : lp.State = .Slack) (i j : Nat) :
    entry (InitializeTableau lp).1.data i j =
      if i < lp.NbConstraints then
        (if j < lp.NbVariables then entry lp.ConstraintCoeff i j
         else if j = lp.NbVariables then lp.Rhs.getD i 0 else 0)
      else if i = lp.NbConstraints then
        (if j < lp.NbVariables then -(lp.ObjCoeff.getD j 0) else 0)
      else 0 := by
  unfold entry
  rw [initializeTableau_data lp h, getD_map_range_append]
  by_cases h1 : i < lp.NbConstraints
  · simp only [h1, if_true]
    rw [getD_map_range_append]
    rfl
  · simp only [h1, if_false]
    by_cases h2 : i = lp.NbConstraints
    · simp only [h2, if_true]
      rw [getD_map_range_append]
      by_cases h3 : j < lp.NbVariables
      · simp [h3]
      · by_cases h4 : j = lp.NbVariables <;> simp [h3, h4]
    · simp [h2]

/-- `IsInitiallyFeasible` is true exactly when no constraint row has a negative entry in
the right-hand-side column. -/
theorem isInitiallyFeasible_iff (table : SimplexTable) :
    IsInitiallyFeasible table = true ↔
      ∀ i, i < table.data.length - 1 →
        0 ≤ entry table.data i ((table.data.getD 0 []).length - 1) := by
  simp [IsInitiallyFeasible, List.all_eq_true]

/-! ## C1 -/

/-- C1: on the model of `TestSolve` (maximize `3*x1 + 5*x2` subject to `x1 <= 4`,
`2*x2 <= 12`, `3*x1 + 2*x2 <= 18`, state `Undefined`, no slack names) `Solve` returns, with
any fuel of at least four loop iterations (three pivots), the error `nil`, and leaves `ObjVar = [2, 6, 36]`
exactly. -/
theorem C1_testSolve (k : Nat) :
    (Solve (4 + k) testSolveModel).map (fun r => (r.1, r.2.ObjVar))
      = some (none, some [2, 6, 36]) := by
  have h : SolveRunOf 4 testSolveModel = some
      { err := none, lp := testSolveSolved, table := testSolveFinalTable, pivots := 3 } := by
    decide!
  simp [Solve, SolveRunOf_fuel_mono 4 k _ _ h, testSolveSolved]

/-! ## C5 -/

/-- C5: if the first table is feasible and the loop of `Solve`, after `k` pivots, stands on
a table `t` for which `FindEnteringVariable` selects a column and `FindLeavingVariable`
returns no row (`-1`) for that column, then `Solve` (with any fuel of more than `k` loop
passes) stops there and returns the error `"Unbounded"`; the model it leaves is the
slack form of the input, whose `ObjVar` is the `ObjVar` of the input: nothing is written. -/
theorem C5_unbounded (lp : LinearProgram) (k fuel : Nat) (t : SimplexTable)
    (hfeas : IsInitiallyFeasible (InitializeTableau (ToSlackForm lp)).1 = true)
    (hreach : tableAfter k (InitializeTableau (ToSlackForm lp)).1 = some t)
    (henter : FindEnteringVariable t ≠ -1)
    (hleave : FindLeavingVariable t (FindEnteringVariable t) = -1) :
    SolveRunOf (fuel + 1 + k) lp =
      some { err := some "Unbounded", lp := ToSlackForm lp, table := t, pivots := k } ∧
    Solve (fuel + 1 + k) lp = some (some "Unbounded", ToSlackForm lp) ∧
    (ToSlackForm lp).ObjVar = lp.ObjVar := by
  have hrun : SolveRunOf (fuel + 1 + k) lp =
      some { err := some "Unbounded", lp := ToSlackForm lp, table := t, pivots := k } := by
    simp only [SolveRunOf, hfeas, Bool.not_true, Bool.false_eq_true, if_false]
    rw [solveLoop_tableAfter _ _ k (fuel + 1) _ t 0 hreach, initializeTableau_problem _
      (toSlack_state lp)]
    simp only [solveLoop, henter, hleave, if_true, if_false, Nat.zero_add]
  refine ⟨hrun, ?_, toSlack_objVar lp⟩
  simp [Solve, hrun]

/-- C5 on the model of `TestSolve_Unbounded`: after one pivot the entering column `x2` has
no leaving row, and `Solve` returns `"Unbounded"`. -/
theorem C5_unbounded_witness :
    SolveRunOf (0 + 1 + 1) testUnboundedModel =
      some { err := some "Unbounded", lp := ToSlackForm testUnboundedModel,
             table := { data := [[1, -1, 1, 0, 1], [0, 0, 1, 1, 2], [0, -2, 1, 0, 1]],
                        basicVariables := [0, 3] },
             pivots := 1 } ∧
    Solve (0 + 1 + 1) testUnboundedModel
      = some (some "Unbounded", ToSlackForm testUnboundedModel) ∧
    (ToSlackForm testUnboundedModel).ObjVar = testUnboundedModel.ObjVar :=
  C5_unbounded testUnboundedModel 1 0
    { data := [[1, -1, 1, 0, 1], [0, 0, 1, 1, 2], [0, -2, 1, 0, 1]], basicVariables := [0, 3] }
    (by decide!) (by decide!) (by decide!) (by decide!)

/-! ## C6 -/

/-- C7: whenever `Solve` returns an error, the error is `"infeasible problem"` or
`"Unbounded"`, the model it leaves is exactly the model `ToSlackForm` alone produces from the
input, and `ObjVar` is what it was before the call. -/
theorem C7_failure_leaves_no_solution (fuel : Nat) (lp lp1 : LinearProgram) (e : String)
    (h : Solve fuel lp = some (some e, lp1)) :
    lp1 = ToSlackForm lp ∧ lp1.ObjVar = lp.ObjVar ∧
    (e = "infeasible problem" ∨ e = "Unbounded") := by
  have hS := toSlack_state lp
  simp only [Solve, Option.map_eq_some', Prod.mk.injEq] at h
  obtain ⟨r, hr, he, hlp⟩ := h
  simp only [SolveRunOf, initializeTableau_problem _ hS] at hr
  by_cases hf : IsInitiallyFeasible (InitializeTableau (ToSlackForm lp)).1 = true
  · simp only [hf, Bool.not_true, Bool.false_eq_true, if_false] at hr
    rcases solveLoop_result _ _ _ _ _ _ hr with ⟨h1, h2⟩ | ⟨h1, _, _⟩
    · rw [he] at h1
      rw [← hlp, h2]
      refine ⟨rfl, toSlack_objVar lp, Or.inr ?_⟩
      simpa using h1
    · rw [he] at h1
      simp at h1
  · simp only [hf, Bool.not_false, if_true, Option.some.injEq] at hr
    subst hr
    simp only [Option.some.injEq] at he
    subst hlp
    exact ⟨rfl, toSlack_objVar lp, Or.inl he.symm⟩

/-- C7 on the model of `TestSolve_Unbounded`. -/
theorem C7_failure_leaves_no_solution_witness :
    ToSlackForm testUnboundedModel = ToSlackForm testUnboundedModel ∧
    (ToSlackForm testUnboundedModel).ObjVar = testUnboundedModel.ObjVar ∧
    ("Unbounded" = "infeasible problem" ∨ "Unbounded" = "Unbounded") :=
  C7_failure_leaves_no_solution 2 testUnboundedModel (ToSlackForm testUnboundedModel)
    "Unbounded" (by decide!)

/-! ## `PerformPivot`, entry by entry -/

/-- A write `data[i][j] = v` keeps the number of rows. -/
theorem setEntry_length (d : List (List ℚ)) (i j : Nat) (v : ℚ) :
    (setEntry d i j v).length = d.length := by
  simp [setEntry]

/-- A write `data[i][j] = v` keeps the length of every row. -/
theorem setEntry_row_length (d : List (List ℚ)) (i j k : Nat) (v : ℚ) :
    ((setEntry d i j v).getD k []).length = (d.getD k []).length := by
  unfold setEntry
  rw [getD_set_ite]
  split_ifs with h
  · rw [List.length_set, h.1]
  · rfl

/-- A write `data[i][j] = v` keeps the shape of the table. -/
theorem setEntry_rect {d : List (List ℚ)} {R C : Nat} (h : Rect d R C) (i j : Nat) (v : ℚ) :
    Rect (setEntry d i j v) R C := by
  refine ⟨by rw [setEntry_length]; exact h.1, ?_⟩
  intro k hk
  rw [setEntry_row_length]
  exact h.2 k hk

/-- Reading the table after a write `data[i][j] = v` that is in range. -/
theorem entry_setEntry {d : List (List ℚ)} {R C : Nat} (h : Rect d R C) (i j : Nat) (v : ℚ)
    (hi : i < R) (hj : j < C) (k l : Nat) :
    entry (setEntry d i j v) k l = if k = i ∧ l = j then v else entry d k l := by
  unfold entry setEntry
  rw [getD_set_ite]
  by_cases hk : i = k
  · subst hk
    have hlen : i < d.length := by rw [h.1]; exact hi
    simp only [hlen, and_self, if_true, true_and]
    rw [getD_set_ite]
    have hrow : j < (d.getD i []).length := by rw [h.2 i hi]; exact hj
    by_cases hl : j = l
    · subst hl
      rw [if_pos ⟨rfl, hrow⟩]
      simp
    · have hl2 : ¬ l = j := fun e => hl e.symm
      simp [hl, hl2]
  · have hk2 : ¬ k = i := fun e => hk e.symm
    simp [hk, hk2]

/-- Step 1 of `PerformPivot` after `k` columns. -/
theorem normalizePivotRow_loop {d : List (List ℚ)} {R C : Nat} (h : Rect d R C) (r : Nat)
    (hr : r < R) (p : ℚ) (k : Nat) (hk : k ≤ C) :
    Rect (normalizePivotRow d r k p) R C ∧
    ∀ a b, entry (normalizePivotRow d r k p) a b =
      if a = r ∧ b < k then entry d r b / p else entry d a b := by
  induction k with
  | zero => exact ⟨h, by intro a b; simp [normalizePivotRow]⟩
  | succ k ih =>
    obtain ⟨hrect, hent⟩ := ih (by omega)
    have hstep : normalizePivotRow d r (k + 1) p =
        setEntry (normalizePivotRow d r k p) r k (entry (normalizePivotRow d r k p) r k / p) := by
      unfold normalizePivotRow
      rw [foldl_range_succ]
    rw [hstep]
    refine ⟨setEntry_rect hrect _ _ _, ?_⟩
    intro a b
    rw [entry_setEntry hrect r k _ hr (by omega)]
    simp only [hent]
    by_cases ha : a = r
    · by_cases hb : b = k
      · simp [ha, hb]
      · have h1 : (b < k + 1) ↔ (b < k) := by omega
        simp [ha, hb, h1]
    · simp [ha]

/-- Inner loop of step 2 of `PerformPivot` after `k` columns. -/
theorem eliminateRow_loop {d : List (List ℚ)} {R C : Nat} (h : Rect d R C) (r i : Nat)
    (hi : i < R) (hir : i ≠ r) (f : ℚ) (k : Nat) (hk : k ≤ C) :
    Rect (eliminateRow d r i k f) R C ∧
    ∀ a b, entry (eliminateRow d r i k f) a b =
      if a = i ∧ b < k then entry d i b - f * entry d r b else entry d a b := by
  induction k with
  | zero => exact ⟨h, by intro a b; simp [eliminateRow]⟩
  | succ k ih =>
    obtain ⟨hrect, hent⟩ := ih (by omega)
    have hstep : eliminateRow d r i (k + 1) f =
        setEntry (eliminateRow d r i k f) i k
          (entry (eliminateRow d r i k f) i k - f * entry (eliminateRow d r i k f) r k) := by
      unfold eliminateRow
      rw [foldl_range_succ]
    rw [hstep]
    refine ⟨setEntry_rect hrect _ _ _, ?_⟩
    intro a b
    rw [entry_setEntry hrect i k _ hi (by omega)]
    simp only [hent]
    have hri : ¬ r = i := fun e => hir e.symm
    by_cases ha : a = i
    · by_cases hb : b = k
      · simp [ha, hb, hri]
      · have h1 : (b < k + 1) ↔ (b < k) := by omega
        simp [ha, hb, h1]
    · simp [ha]

/-- Step 2 of `PerformPivot` after `t` rows. -/
theorem eliminate_loop {d1 : List (List ℚ)} {R C : Nat} (h : Rect d1 R C) (r c : Nat)
    (t : Nat) (ht : t ≤ R) :
    Rect ((List.range t).foldl
      (fun d i => if i ≠ r then eliminateRow d r i C (entry d i c) else d) d1) R C ∧
    ∀ a b, entry ((List.range t).foldl
      (fun d i => if i ≠ r then eliminateRow d r i C (entry d i c) else d) d1) a b =
      if a < t ∧ a ≠ r ∧ b < C then entry d1 a b - entry d1 a c * entry d1 r b
      else entry d1 a b := by
  induction t with
  | zero => exact ⟨h, by intro a b; simp⟩
  | succ t ih =>
    obtain ⟨hrect, hent⟩ := ih (by omega)
    rw [foldl_range_succ]
    generalize (List.range t).foldl
      (fun d i => if i ≠ r then eliminateRow d r i C (entry d i c) else d) d1 = D at hrect hent ⊢
    by_cases htr : t = r
    · simp only [htr, ne_eq, not_true_eq_false, if_false]
      refine ⟨hrect, ?_⟩
      intro a b
      rw [hent]
      by_cases har : a = r
      · simp [har]
      · have h1 : (a < r + 1) ↔ (a < t) := by omega
        simp only [h1]
    · simp only [ne_eq, htr, not_false_eq_true, if_true]
      obtain ⟨hrect2, hent2⟩ := eliminateRow_loop hrect r t (by omega) htr (entry D t c) C
        (le_refl C)
      refine ⟨hrect2, ?_⟩
      intro a b
      rw [hent2]
      simp only [hent]
      have hrr : ¬ (r < t ∧ r ≠ r ∧ b < C) := by simp
      have htt : ∀ x, ¬ (t < t ∧ t ≠ r ∧ x < C) := by intro x; simp
      simp only [hrr, htt, if_false]
      by_cases hat : a = t
      · subst hat
        by_cases hb : b < C
        · simp [hb, htr]
        · simp [hb]
      · have h1 : (a < t + 1) ↔ (a < t) := by omega
        simp only [hat, false_and, if_false, h1]

/-- `PerformPivot` on a rectangular table: the pivot row is divided by the pivot element,
and every other row `a` loses `data[a][col]` times the normalised pivot row. -/
theorem performPivot_entry {t : SimplexTable} {R C : Nat} (h : Rect t.data R C) (hR : 0 < R)
    (r c : Int) (hr : r.toNat < R) :
    Rect (PerformPivot t r c).data R C ∧
    (PerformPivot t r c).basicVariables = t.basicVariables ∧
    ∀ a b, a < R → b < C → entry (PerformPivot t r c).data a b =
      if a = r.toNat then entry t.data r.toNat b / entry t.data r.toNat c.toNat
      else entry t.data a b
        - entry t.data a c.toNat * (entry t.data r.toNat b / entry t.data r.toNat c.toNat) := by
  have hC : (t.data.getD 0 []).length = C := h.2 0 hR
  obtain ⟨hrect1, hent1⟩ := normalizePivotRow_loop h r.toNat hr
    (entry t.data r.toNat c.toNat) C (le_refl C)
  obtain ⟨hrect2, hent2⟩ := eliminate_loop hrect1 r.toNat c.toNat R (le_refl R)
  unfold PerformPivot
  simp only [hC, h.1]
  refine ⟨hrect2, trivial, ?_⟩
  intro a b ha hb
  rw [hent2]
  simp only [hent1]
  by_cases har : a = r.toNat
  · simp [har, hb]
  · simp only [ha, har, hb, ne_eq, not_false_eq_true, and_self, if_true, false_and, if_false,
      true_and]

/-! ## `FindEnteringVariable` and `FindLeavingVariable` -/

/-- What `FindEnteringVariable` returns: `-1` when no entry of the objective row (the
right-hand side apart) is below `-epsilon`, and otherwise a column whose entry is. -/
theorem findEntering_spec (table : SimplexTable) :
    (FindEnteringVariable table = -1 ∧
      ∀ j, j < (table.data.getD (table.data.length - 1) []).length - 1 →
        ¬ entry table.data (table.data.length - 1) j < -epsilon) ∨
    (∃ j : Nat, FindEnteringVariable table = (j : Int) ∧
      j < (table.data.getD (table.data.length - 1) []).length - 1 ∧
      entry table.data (table.data.length - 1) j < -epsilon) := by
  unfold FindEnteringVariable
  simp only []
  cases hf : (List.range ((table.data.getD (table.data.length - 1) []).length - 1)).find?
      (fun j => decide ((table.data.getD (table.data.length - 1) []).getD j 0 < -epsilon)) with
  | none =>
    left
    refine ⟨rfl, ?_⟩
    intro j hj
    rw [List.find?_eq_none] at hf
    have := hf j (List.mem_range.mpr hj)
    simpa [entry] using this
  | some j =>
    right
    refine ⟨j, rfl, ?_, ?_⟩
    · exact List.mem_range.mp (List.mem_of_find?_eq_some hf)
    · have := List.find?_some hf
      simpa [entry] using this

/-- The loop of `FindLeavingVariable` after `k` rows: the row held is `-1` or a row below
`k` whose pivot-column entry is above `epsilon`. -/
theorem findLeaving_loop (table : SimplexTable) (pivotCol : Int) (rhsCol k : Nat) :
    ((List.range k).foldl (FindLeavingVariableStep table pivotCol rhsCol) (none, -1)).2 = -1 ∨
    ∃ i : Nat, ((List.range k).foldl (FindLeavingVariableStep table pivotCol rhsCol) (none, -1)).2
        = (i : Int) ∧ i < k ∧ epsilon < entry table.data i pivotCol.toNat := by
  induction k with
  | zero => left; rfl
  | succ k ih =>
    rw [foldl_range_succ]
    generalize (List.range k).foldl (FindLeavingVariableStep table pivotCol rhsCol) (none, -1)
      = st at ih ⊢
    have keep : st.2 = -1 ∨ ∃ i : Nat, st.2 = (i : Int) ∧ i < k + 1 ∧
        epsilon < entry table.data i pivotCol.toNat := by
      rcases ih with h | ⟨i, h1, h2, h3⟩
      · exact Or.inl h
      · exact Or.inr ⟨i, h1, by omega, h3⟩
    unfold FindLeavingVariableStep
    simp only []
    by_cases hp : entry table.data k pivotCol.toNat > epsilon
    · rw [if_pos hp]
      by_cases hr : entry table.data k rhsCol / entry table.data k pivotCol.toNat ≥ -epsilon
      · rw [if_pos hr]
        cases hs : st.1 with
        | none => exact Or.inr ⟨k, rfl, by omega, hp⟩
        | some sm =>
          simp only []
          split_ifs
          · exact Or.inr ⟨k, rfl, by omega, hp⟩
          · exact keep
      · rw [if_neg hr]
        exact keep
    · rw [if_neg hp]
      exact keep

/-- What `FindLeavingVariable` returns: `-1` or a constraint row whose pivot-column entry is
above `epsilon`. -/
theorem findLeaving_spec (table : SimplexTable) (pivotCol : Int) :
    FindLeavingVariable table pivotCol = -1 ∨
    ∃ i : Nat, FindLeavingVariable table pivotCol = (i : Int) ∧ i < table.data.length - 1 ∧
      epsilon < entry table.data i pivotCol.toNat := by
  unfold FindLeavingVariable
  exact findLeaving_loop table pivotCol _ _

/-! ## The invariant of the loop of `Solve` -/

/-- The left-hand sides of the rows after a pivot. -/
theorem rowEval_pivot {d d1 : List (List ℚ)} {R N : Nat} (r c : Nat) (w : Nat → ℚ)
    (hent : ∀ a b, a < R → b < N + 1 → entry d1 a b =
      if a = r then entry d r b / entry d r c
      else entry d a b - entry d a c * (entry d r b / entry d r c))
    (a : Nat) (ha : a < R) :
    rowEval d1 N a w =
      if a = r then rowEval d N r w / entry d r c
      else rowEval d N a w - entry d a c * (rowEval d N r w / entry d r c) := by
  unfold rowEval
  have h1 : ∀ j ∈ Finset.range N, entry d1 a j * w j =
      (if a = r then entry d r j / entry d r c
       else entry d a j - entry d a c * (entry d r j / entry d r c)) * w j := by
    intro j hj
    rw [hent a j ha (by have := Finset.mem_range.mp hj; omega)]
  rw [Finset.sum_congr rfl h1]
  by_cases har : a = r
  · simp only [har, if_true]
    rw [Finset.sum_div]
    apply Finset.sum_congr rfl
    intro j _
    ring
  · simp only [har, if_false]
    rw [Finset.sum_div, Finset.mul_sum, ← Finset.sum_sub_distrib]
    apply Finset.sum_congr rfl
    intro j _
    ring

/-- A pivot on a non-zero element of a constraint row keeps the invariant. -/
theorem tableInv_pivot {d0 : List (List ℚ)} {m N : Nat} {t : SimplexTable}
    (hinv : TableInv d0 m N t) (r c : Nat) (hr : r < m) (hc : c < N)
    (hp : entry t.data r c ≠ 0) :
    TableInv d0 m N
      { PerformPivot t (r : Int) (c : Int) with
        basicVariables := (PerformPivot t (r : Int) (c : Int)).basicVariables.set
          (Int.toNat (r : Int)) (c : Int) } := by
  obtain ⟨hrect, hsol, hobj, hlen, hbasis⟩ := hinv
  obtain ⟨hrect1, hbv, hent⟩ := performPivot_entry hrect (Nat.succ_pos m) (r : Int) (c : Int)
    (by simpa using Nat.lt_succ_of_lt hr)
  simp only [Int.toNat_ofNat] at hent hbv ⊢
  have hev := fun w a ha => rowEval_pivot (R := m + 1) (N := N) r c w hent a ha
  have hrhs : ∀ a, a < m + 1 → entry (PerformPivot t (r : Int) (c : Int)).data a N =
      if a = r then entry t.data r N / entry t.data r c
      else entry t.data a N - entry t.data a c * (entry t.data r N / entry t.data r c) :=
    fun a ha => hent a N ha (Nat.lt_succ_self N)
  have hsol1 : ∀ w, SolvesRows t.data m N w ↔
      SolvesRows (PerformPivot t (r : Int) (c : Int)).data m N w := by
    intro w
    constructor
    · intro hs i hi
      rw [hev w i (by omega), hrhs i (by omega), hs r hr, hs i hi]
    · intro hs
      have hrow : rowEval t.data N r w = entry t.data r N := by
        have := hs r hr
        rw [hev w r (by omega), hrhs r (by omega)] at this
        simp only [if_true] at this
        field_simp at this
        exact this
      intro i hi
      by_cases hir : i = r
      · rw [hir]; exact hrow
      · have := hs i hi
        rw [hev w i (by omega), hrhs i (by omega)] at this
        simp only [hir, if_false, hrow] at this
        linarith
  refine ⟨hrect1, ?_, ?_, ?_, ?_⟩
  · intro w
    exact (hsol w).trans (hsol1 w)
  · intro w hw
    have hs := (hsol w).mp hw
    have hmr : ¬ m = r := by omega
    rw [hev w m (by omega), hrhs m (by omega)]
    simp only [hmr, if_false, hs r hr]
    rw [← hobj w hw]
    ring
  · simp only [List.length_set]
    rw [hbv]
    exact hlen
  · intro i hi
    by_cases hir : i = r
    · refine ⟨c, hc, ?_, ?_⟩
      · rw [getD_set_ite]
        have : r < (PerformPivot t (r : Int) (c : Int)).basicVariables.length := by
          rw [hbv, hlen]; exact hr
        simp [hir, this]
      · intro k hk
        rw [hent k c (by omega) (by omega)]
        by_cases hkr : k = r
        · simp [hkr, hir, hp]
        · have hki : ¬ k = i := by rw [hir]; exact hkr
          simp only [hkr, hki, if_false]
          field_simp
    · obtain ⟨c1, hc1, hb1, hcol⟩ := hbasis i hi
      refine ⟨c1, hc1, ?_, ?_⟩
      · rw [getD_set_ite]
        have hri : ¬ r = i := fun e => hir e.symm
        simp only [hri, false_and, if_false]
        rw [hbv]
        exact hb1
      · intro k hk
        have hri : ¬ r = i := fun e => hir e.symm
        have hrc1 : entry t.data r c1 = 0 := by
          rw [hcol r (by omega), if_neg hri]
        rw [hent k c1 (by omega) (by omega), hrc1]
        by_cases hkr : k = r
        · have hki : ¬ k = i := by rw [hkr]; exact hri
          simp [hkr, hri]
        · simp only [hkr, if_false]
          rw [hcol k hk]
          ring

/-- The tolerance is positive. -/
theorem epsilon_pos : 0 < epsilon := by
  unfold epsilon
  norm_num

/-- A pivoting pass of the loop of `Solve` keeps the invariant. -/
theorem tableInv_pivotStep {d0 : List (List ℚ)} {m N : Nat} {t t1 : SimplexTable}
    (hinv : TableInv d0 m N t) (h : pivotStep t = some t1) : TableInv d0 m N t1 := by
  have hrect := hinv.1
  have hlen : t.data.length - 1 = m := by rw [hrect.1]; rfl
  have hrow : (t.data.getD m []).length - 1 = N := by rw [hrect.2 m (by omega)]; rfl
  simp only [pivotStep] at h
  rcases findEntering_spec t with ⟨he, _⟩ | ⟨j, he, hj, _⟩
  · simp [he] at h
  · rw [hlen, hrow] at hj
    have hne : ¬ ((j : Int) = -1) := by omega
    rw [he] at h
    simp only [hne, if_false] at h
    rcases findLeaving_spec t (j : Int) with hl | ⟨i, hl, hi, hpos⟩
    · simp [hl] at h
    · rw [hlen] at hi
      have hne2 : ¬ ((i : Int) = -1) := by omega
      rw [hl] at h
      simp only [hne2, if_false, Option.some.injEq] at h
      rw [← h]
      simp only [Int.toNat_ofNat] at hpos
      exact tableInv_pivot hinv i j hi hj (ne_of_gt (lt_trans epsilon_pos hpos))

/-- The table on which the loop of `Solve` returns satisfies the invariant. -/
theorem tableInv_solveLoop {d0 : List (List ℚ)} {m N : Nat} (o : Objectiv)
    (lp : LinearProgram) :
    ∀ (fuel : Nat) (t : SimplexTable) (pivots : Nat) (r : SolveRun),
      TableInv d0 m N t → solveLoop o lp fuel t pivots = some r → TableInv d0 m N r.table := by
  intro fuel
  induction fuel with
  | zero => intro t pivots r _ h; simp [solveLoop] at h
  | succ n ih =>
    intro t pivots r hinv h
    cases hp : pivotStep t with
    | some t1 =>
      rw [solveLoop_pivotStep o lp n t t1 pivots hp] at h
      exact ih t1 (pivots + 1) r (tableInv_pivotStep hinv hp) h
    | none =>
      simp only [pivotStep] at hp
      simp only [solveLoop] at h
      by_cases h1 : FindEnteringVariable t = -1
      · simp only [h1, if_true, Option.some.injEq] at h
        rw [← h]
        exact hinv
      · by_cases h2 : FindLeavingVariable t (FindEnteringVariable t) = -1
        · simp only [h1, h2, if_true, if_false, Option.some.injEq] at h
          rw [← h]
          exact hinv
        · simp [h1, h2] at hp

/-- Under the invariant no variable is basic in two rows. -/
theorem tableInv_basic_inj {d0 : List (List ℚ)} {m N : Nat} {t : SimplexTable}
    (hinv : TableInv d0 m N t) (i k : Nat) (hi : i < m) (hk : k < m)
    (h : t.basicVariables.getD i 0 = t.basicVariables.getD k 0) : i = k := by
  obtain ⟨_, _, _, _, hbasis⟩ := hinv
  obtain ⟨c, _, hb, hcol⟩ := hbasis i hi
  obtain ⟨c1, _, hb1, hcol1⟩ := hbasis k hk
  have hcc : c = c1 := by
    have : (c : Int) = (c1 : Int) := by rw [← hb, ← hb1, h]
    exact_mod_cast this
  subst hcc
  have h1 := hcol i (by omega)
  have h2 := hcol1 i (by omega)
  rw [h1] at h2
  by_contra hne
  simp [hne] at h2

/-- Under the invariant the basic solution solves the constraint rows of the table, and
the left-hand side of the objective row vanishes on it. -/
theorem rowEval_basicValue {d0 : List (List ℚ)} {m N : Nat} {t : SimplexTable}
    (hinv : TableInv d0 m N t) (k : Nat) (hk : k ≤ m) :
    rowEval t.data N k (basicValue t m N) = if k < m then entry t.data k N else 0 := by
  obtain ⟨_, _, _, _, hbasis⟩ := hinv
  unfold rowEval basicValue
  simp only [Finset.mul_sum]
  rw [Finset.sum_comm]
  have hinner : ∀ i ∈ Finset.range m,
      (∑ j ∈ Finset.range N, entry t.data k j *
        (if t.basicVariables.getD i 0 = (j : Int) then entry t.data i N else 0))
      = if k = i then entry t.data i N else 0 := by
    intro i hi
    obtain ⟨c, hc, hb, hcol⟩ := hbasis i (Finset.mem_range.mp hi)
    have hterm : ∀ j ∈ Finset.range N, entry t.data k j *
        (if t.basicVariables.getD i 0 = (j : Int) then entry t.data i N else 0)
        = if c = j then entry t.data k j * entry t.data i N else 0 := by
      intro j _
      rw [hb]
      by_cases hcj : c = j
      · simp [hcj]
      · have : ¬ ((c : Int) = (j : Int)) := by exact_mod_cast hcj
        simp [hcj, this]
    rw [Finset.sum_congr rfl hterm, Finset.sum_ite_eq, if_pos (Finset.mem_range.mpr hc),
      hcol k hk]
    by_cases hki : k = i <;> simp [hki]
  rw [Finset.sum_congr rfl hinner, Finset.sum_ite_eq]
  simp [Finset.mem_range]

/-! ## `ExtractSolution` -/

/-- The loop of `ExtractSolution` after `k` rows: for every original variable, the value held
is the right-hand side of the row below `k` in which it is basic, `0` if there is none. -/
theorem extract_loop {d0 : List (List ℚ)} {m N : Nat} {t : SimplexTable}
    (hinv : TableInv d0 m N t) (n0 : Nat) (k : Nat) (hk : k ≤ m) :
    ((List.range k).foldl
      (fun sol i =>
        if t.basicVariables.getD i 0 < (n0 : Int)
        then sol.set (t.basicVariables.getD i 0).toNat (entry t.data i N)
        else sol) (List.replicate n0 (0 : ℚ))).length = n0 ∧
    ∀ v, v < n0 →
      ((List.range k).foldl
        (fun sol i =>
          if t.basicVariables.getD i 0 < (n0 : Int)
          then sol.set (t.basicVariables.getD i 0).toNat (entry t.data i N)
          else sol) (List.replicate n0 (0 : ℚ))).getD v 0
      = ∑ i ∈ Finset.range k,
          if t.basicVariables.getD i 0 = (v : Int) then entry t.data i N else 0 := by
  induction k with
  | zero =>
    refine ⟨by simp, ?_⟩
    intro v hv
    simp [List.getD_eq_getElem?_getD, List.getElem?_replicate, hv]
  | succ k ih =>
    obtain ⟨hlen, hval⟩ := ih (by omega)
    rw [foldl_range_succ]
    generalize (List.range k).foldl
      (fun sol i =>
        if t.basicVariables.getD i 0 < (n0 : Int)
        then sol.set (t.basicVariables.getD i 0).toNat (entry t.data i N)
        else sol) (List.replicate n0 (0 : ℚ)) = sol at hlen hval ⊢
    obtain ⟨c, _, hb, _⟩ := hinv.2.2.2.2 k (by omega)
    have hprev : ∀ i ∈ Finset.range k,
        (if t.basicVariables.getD i 0 = (c : Int) then entry t.data i N else 0) = 0 := by
      intro i hi
      have hik : i < k := Finset.mem_range.mp hi
      have hne : ¬ t.basicVariables.getD i 0 = (c : Int) := by
        intro e
        have := tableInv_basic_inj hinv i k (by omega) (by omega) (by rw [e, hb])
        omega
      rw [if_neg hne]
    simp only [hb, Int.toNat_ofNat, Nat.cast_lt]
    by_cases hcn : c < n0
    · rw [if_pos hcn]
      refine ⟨by rw [List.length_set]; exact hlen, ?_⟩
      intro v hv
      rw [getD_set_ite, Finset.sum_range_succ, hb]
      by_cases hcv : c = v
      · subst hcv
        have hz : (∑ i ∈ Finset.range k,
            if t.basicVariables.getD i 0 = (c : Int) then entry t.data i N else 0) = 0 :=
          Finset.sum_eq_zero hprev
        rw [hz]
        simp [hlen, hcn]
      · have hcv2 : ¬ ((c : Int) = (v : Int)) := by exact_mod_cast hcv
        simp only [hcv, false_and, if_false, hcv2, add_zero]
        exact hval v hv
    · rw [if_neg hcn]
      refine ⟨hlen, ?_⟩
      intro v hv
      rw [Finset.sum_range_succ, hb]
      have hcv2 : ¬ ((c : Int) = (v : Int)) := by
        intro e
        have : c = v := by exact_mod_cast e
        omega
      simp only [hcv2, if_false, add_zero]
      exact hval v hv

/-- Under the invariant, `ExtractSolution` returns the basic solution restricted to the
original variables, followed by the right-hand side of the objective row. -/
theorem extract_spec {d0 : List (List ℚ)} {m N : Nat} {t : SimplexTable}
    (hinv : TableInv d0 m N t) (lp : LinearProgram) (hn : lp.NbVariables = N)
    (hm : lp.NbConstraints = m) (hmN : m ≤ N) :
    ExtractSolution t lp =
      (List.range (N - m)).map (basicValue t m N) ++ [entry t.data m N] := by
  have hrect := hinv.1
  have hC : (t.data.getD 0 []).length - 1 = N := by rw [hrect.2 0 (by omega)]; rfl
  have hR : t.data.length - 1 = m := by rw [hrect.1]; rfl
  have hbl : t.basicVariables.length = m := hinv.2.2.2.1
  have hnum : ((lp.NbVariables : Int) - (lp.NbConstraints : Int)) = ((N - m : Nat) : Int) := by
    rw [hn, hm]; omega
  unfold ExtractSolution
  simp only [hC, hR, hbl, hnum, Int.toNat_ofNat]
  obtain ⟨hlen, hval⟩ := extract_loop hinv (N - m) m (le_refl m)
  congr 1
  apply List.ext_getElem?
  intro v
  by_cases hv : v < N - m
  · have h1 := hval v hv
    rw [List.getD_eq_getElem?_getD] at h1
    rw [List.getElem?_map, List.getElem?_range hv]
    rw [List.getElem?_eq_getElem (by rw [hlen]; exact hv)] at h1 ⊢
    simp only [Option.getD_some] at h1
    rw [h1]
    rfl
  · rw [List.getElem?_eq_none_iff.mpr (by rw [hlen]; omega),
      List.getElem?_eq_none_iff.mpr (by simp; omega)]

/-! ## The slack transformation on a canonical model -/

/-- The loop of `appendColumn` after `k` rows. -/
theorem appendColumn_loop (rows : List (List ℚ)) (idx : Nat) (u : ℚ) (k : Nat) :
    ((List.range k).foldl
      (fun acc i => acc.set i (acc.getD i [] ++ [if i = idx then u else 0])) rows).length
      = rows.length ∧
    ∀ i, ((List.range k).foldl
      (fun acc i => acc.set i (acc.getD i [] ++ [if i = idx then u else 0])) rows).getD i []
      = if i < k ∧ i < rows.length then rows.getD i [] ++ [if i = idx then u else 0]
        else rows.getD i [] := by
  induction k with
  | zero => exact ⟨rfl, by intro i; simp⟩
  | succ k ih =>
    obtain ⟨hlen, hval⟩ := ih
    rw [foldl_range_succ]
    generalize (List.range k).foldl
      (fun acc i => acc.set i (acc.getD i [] ++ [if i = idx then u else 0])) rows = acc
      at hlen hval ⊢
    refine ⟨by rw [List.length_set]; exact hlen, ?_⟩
    intro i
    rw [getD_set_ite, hlen]
    by_cases hki : k = i
    · subst hki
      by_cases hk : k < rows.length
      · have := hval k
        simp only [lt_irrefl, false_and, if_false] at this
        simp only [this, hk, and_self, if_true, Nat.lt_succ_self, true_and]
      · have := hval k
        simp only [lt_irrefl, false_and, if_false] at this
        simp only [hk, and_false, if_false]
        exact this
    · have h1 : (i < k + 1) ↔ (i < k) := by omega
      simp only [hki, false_and, if_false, h1]
      exact hval i

/-- The rows after `appendColumn`: every row has one more entry, `unit` in row
`constraintIndex` and `0` elsewhere. -/
theorem appendColumn_spec (rows : List (List ℚ)) (idx : Nat) (u : ℚ) :
    (appendColumn rows idx u).length = rows.length ∧
    ∀ i, i < rows.length →
      (appendColumn rows idx u).getD i [] = rows.getD i [] ++ [if i = idx then u else 0] := by
  obtain ⟨hlen, hval⟩ := appendColumn_loop rows idx u rows.length
  refine ⟨hlen, ?_⟩
  intro i hi
  have := hval i
  simp only [hi, and_self, if_true] at this
  exact this

/-- The loop of `ConvertToEqualities` after `k` rows, on a model all of whose comparisons are
`LE`: one slack column per row below `k`. -/
theorem convertEq_loop (lp : LinearProgram)
    (hcmp : ∀ i, i < lp.NbConstraints → lp.Comparisons.getD i .EQ = .LE)
    (hcl : lp.Comparisons.length = lp.NbConstraints) (k : Nat) (hk : k ≤ lp.NbConstraints) :
    ((List.range k).foldl ConvertToEqualitiesStep lp).NbVariables = lp.NbVariables + k ∧
    ((List.range k).foldl ConvertToEqualitiesStep lp).ObjCoeff
      = lp.ObjCoeff ++ List.replicate k 0 ∧
    ((List.range k).foldl ConvertToEqualitiesStep lp).SlackVariablesNames.length
      = lp.SlackVariablesNames.length + k ∧
    ((List.range k).foldl ConvertToEqualitiesStep lp).Comparisons.length
      = lp.NbConstraints ∧
    (∀ i, ((List.range k).foldl ConvertToEqualitiesStep lp).Comparisons.getD i .EQ
      = if i < k then .EQ else lp.Comparisons.getD i .EQ) ∧
    ((List.range k).foldl ConvertToEqualitiesStep lp).ConstraintCoeff.length
      = lp.ConstraintCoeff.length ∧
    (∀ i, i < lp.ConstraintCoeff.length →
      ((List.range k).foldl ConvertToEqualitiesStep lp).ConstraintCoeff.getD i []
        = lp.ConstraintCoeff.getD i []
          ++ (List.range k).map (fun t => if i = t then (1 : ℚ) else 0)) := by
  induction k with
  | zero =>
    refine ⟨rfl, by simp, rfl, hcl, by intro i; simp, rfl, by intro i _; simp⟩
  | succ k ih =>
    obtain ⟨h1, h2, h3, h4, h5, h6, h7⟩ := ih (by omega)
    rw [foldl_range_succ]
    generalize (List.range k).foldl ConvertToEqualitiesStep lp = q at h1 h2 h3 h4 h5 h6 h7 ⊢
    have hq : q.Comparisons.getD k .EQ = .LE := by
      rw [h5 k]
      simp only [lt_irrefl, if_false]
      exact hcmp k (by omega)
    have hstep : ConvertToEqualitiesStep q k = AddSlackVariable q k := by
      unfold ConvertToEqualitiesStep
      rw [hq]
    rw [hstep]
    obtain ⟨a1, a2⟩ := appendColumn_spec q.ConstraintCoeff k 1
    unfold AddSlackVariable
    refine ⟨?_, ?_, ?_, ?_, ?_, ?_, ?_⟩
    · show q.NbVariables + 1 = _
      rw [h1]; omega
    · show q.ObjCoeff ++ [0] = _
      rw [h2, List.replicate_succ', List.append_assoc]
    · show (q.SlackVariablesNames ++ [_]).length = _
      rw [List.length_append, h3]; rfl
    · show (q.Comparisons.set k .EQ).length = _
      rw [List.length_set, h4]
    · intro i
      show (q.Comparisons.set k .EQ).getD i .EQ = _
      rw [getD_set_ite, h5 i]
      by_cases hki : k = i
      · subst hki
        have hk4 : k < q.Comparisons.length := by rw [h4]; omega
        simp only [hk4, and_self, if_true, Nat.lt_succ_self]
      · have hlt : (i < k + 1) ↔ (i < k) := by omega
        simp only [hki, false_and, if_false, hlt]
    · show (appendColumn q.ConstraintCoeff k 1).length = _
      rw [a1, h6]
    · intro i hi
      show (appendColumn q.ConstraintCoeff k 1).getD i [] = _
      rw [a2 i (by rw [h6]; exact hi), h7 i hi, List.range_succ, List.map_append,
        List.append_assoc]
      rfl

/-! ## Scalar products as sums over column indices -/

/-- The scalar product as a sum over the first `n` indices. -/
theorem dot_eq_sum (a x : List ℚ) :
    ∀ n, x.length ≤ n → dot a x = ∑ j ∈ Finset.range n, a.getD j 0 * x.getD j 0 := by
  unfold dot
  induction a generalizing x with
  | nil =>
    intro n _
    simp
  | cons u a ih =>
    intro n hn
    cases x with
    | nil => simp
    | cons v x =>
      cases n with
      | zero => simp at hn
      | succ n =>
        rw [Finset.sum_range_succ']
        simp only [List.zipWith_cons_cons, List.sum_cons, List.getD_cons_succ,
          List.getD_cons_zero]
        rw [ih x n (by simpa using hn)]
        ring

/-- The sum of a list as a sum over the first `n` indices. -/
theorem sum_eq_sum (x : List ℚ) :
    ∀ n, x.length ≤ n → x.sum = ∑ j ∈ Finset.range n, x.getD j 0 := by
  induction x with
  | nil => intro n _; simp
  | cons v x ih =>
    intro n hn
    cases n with
    | zero => simp at hn
    | succ n =>
      rw [Finset.sum_range_succ']
      simp only [List.sum_cons, List.getD_cons_succ, List.getD_cons_zero]
      rw [ih n (by simpa using hn)]
      ring

/-- Negating a row negates the scalar product. -/
theorem dot_multiplyRow_neg (a x : List ℚ) : dot (MultiplyRow a (-1)) x = -dot a x := by
  unfold dot MultiplyRow
  induction a generalizing x with
  | nil => simp
  | cons u a ih =>
    cases x with
    | nil => simp
    | cons v x =>
      simp only [List.map_cons, List.zipWith_cons_cons, List.sum_cons]
      rw [ih x]
      ring

/-- `MultiplyRow` keeps the length of the row. -/
theorem multiplyRow_length (a : List ℚ) (s : ℚ) : (MultiplyRow a s).length = a.length := by
  simp [MultiplyRow]

/-! ## The canonical form of a well-formed model -/

/-- The fields of the canonical form of a model in state `Undefined`, in terms of the
rewriting `leRowsAt` of the rows left by `EnsureNonNegativeRhs`. -/
theorem toCanonical_fields (lp : LinearProgram) (hS : lp.State = .Undefined) :
    (ToCanonicalForm lp).ConstraintCoeff =
      ((List.range lp.NbConstraints).flatMap
        (leRowsAt (EnsureNonNegativeRhs (EnsureMaximization lp)))).map Prod.fst ∧
    (ToCanonicalForm lp).Rhs =
      ((List.range lp.NbConstraints).flatMap
        (leRowsAt (EnsureNonNegativeRhs (EnsureMaximization lp)))).map Prod.snd ∧
    (ToCanonicalForm lp).Comparisons =
      List.replicate ((List.range lp.NbConstraints).flatMap
        (leRowsAt (EnsureNonNegativeRhs (EnsureMaximization lp)))).length .LE ∧
    (ToCanonicalForm lp).NbConstraints =
      ((List.range lp.NbConstraints).flatMap
        (leRowsAt (EnsureNonNegativeRhs (EnsureMaximization lp)))).length ∧
    (ToCanonicalForm lp).NbVariables = lp.NbVariables ∧
    (ToCanonicalForm lp).ObjCoeff = (EnsureMaximization lp).ObjCoeff ∧
    (ToCanonicalForm lp).State = .Canonical := by
  obtain ⟨e1, e2, _, _, _, _, e7, _⟩ := ensure_frame (EnsureMaximization lp)
  obtain ⟨m1, m2, _⟩ := ensureMax_frame lp
  unfold ToCanonicalForm
  rw [if_neg (by simp [hS]), convertLe_spec]
  simp [e1, m1, e2, m2, e7]

/-- Reading a row and its right-hand side in a list of `(row, rhs)` pairs. -/
theorem getD_map_pairs (ps : List (List ℚ × ℚ)) (k : Nat) (hk : k < ps.length) :
    (ps.map Prod.fst).getD k [] = (ps.get ⟨k, hk⟩).1 ∧
    (ps.map Prod.snd).getD k 0 = (ps.get ⟨k, hk⟩).2 := by
  constructor
  · rw [List.getD_eq_getElem _ _ (by simpa using hk)]
    simp
  · rw [List.getD_eq_getElem _ _ (by simpa using hk)]
    simp

/-- A property of all rows of a list of `(row, rhs)` pairs, by index and by membership. -/
theorem forall_pairs_iff (ps : List (List ℚ × ℚ)) (P : List ℚ → ℚ → Prop) :
    (∀ k, k < ps.length → P ((ps.map Prod.fst).getD k []) ((ps.map Prod.snd).getD k 0)) ↔
    (∀ p ∈ ps, P p.1 p.2) := by
  constructor
  · intro h p hp
    obtain ⟨k, hk, rfl⟩ := List.getElem_of_mem hp
    have := h k hk
    rw [(getD_map_pairs ps k hk).1, (getD_map_pairs ps k hk).2] at this
    exact this
  · intro h k hk
    rw [(getD_map_pairs ps k hk).1, (getD_map_pairs ps k hk).2]
    exact h _ (List.get_mem ps k hk)

/-- The rewriting of one row into `<=` rows keeps its meaning. -/
theorem leRows_holds (comp : Comparison) (a : List ℚ) (b : ℚ) (x : List ℚ) :
    (∀ p ∈ leRows comp a b, dot p.1 x ≤ p.2) ↔ rowHolds comp a b x := by
  cases comp with
  | EQ =>
    simp only [leRows, rowHolds, List.mem_cons, List.mem_singleton, List.not_mem_nil, or_false,
      forall_eq_or_imp, forall_eq, dot_multiplyRow_neg]
    constructor
    · rintro ⟨h1, h2⟩
      exact le_antisymm h1 (by linarith)
    · intro h
      constructor <;> linarith
  | LO => simp [leRows, rowHolds]
  | LE => simp [leRows, rowHolds]
  | BI => simp [leRows, rowHolds, dot_multiplyRow_neg]
  | BE => simp [leRows, rowHolds, dot_multiplyRow_neg]

/-- The rewriting of one row into `<=` rows keeps its length. -/
theorem leRows_length (comp : Comparison) (a : List ℚ) (b : ℚ) :
    ∀ p ∈ leRows comp a b, p.1.length = a.length := by
  cases comp <;> simp [leRows, multiplyRow_length]

/-- Negating a row with its right-hand side and flipping its comparison keeps its meaning. -/
theorem flip_holds (comp : Comparison) (a : List ℚ) (b : ℚ) (x : List ℚ) :
    rowHolds (FlipComparison comp) (MultiplyRow a (-1)) (b * (-1)) x ↔ rowHolds comp a b x := by
  cases comp <;> simp [FlipComparison, rowHolds, dot_multiplyRow_neg]

/-- A point satisfies the constraints of a well-formed model exactly when it satisfies every
row `a . x <= b` of the canonical form. -/
theorem canonical_holds_iff (lp : LinearProgram) (hS : lp.State = .Undefined)
    (hw : WellFormed lp) (x : List ℚ) :
    (∀ k, k < (ToCanonicalForm lp).NbConstraints →
      dot ((ToCanonicalForm lp).ConstraintCoeff.getD k []) x ≤ (ToCanonicalForm lp).Rhs.getD k 0)
    ↔ SatisfiesConstraints lp x := by
  obtain ⟨c1, c2, _, c4, _⟩ := toCanonical_fields lp hS
  obtain ⟨_, w2, w3, w4, _⟩ := hw
  obtain ⟨m1, _, _, _, _, m6, m7, m8, _⟩ := ensureMax_frame lp
  obtain ⟨_, _, hrow⟩ := ensure_spec (EnsureMaximization lp) (by rw [m7, m8, w4, w2])
    (by rw [m6, m8, w3, w2])
  rw [c1, c2, c4]
  rw [forall_pairs_iff _ (fun a b => dot a x ≤ b)]
  unfold SatisfiesConstraints
  constructor
  · intro h i hi
    have h1 : ∀ p ∈ leRowsAt (EnsureNonNegativeRhs (EnsureMaximization lp)) i,
        dot p.1 x ≤ p.2 := by
      intro p hp
      exact h p (List.mem_flatMap.mpr ⟨i, List.mem_range.mpr hi, hp⟩)
    unfold leRowsAt at h1
    rw [leRows_holds] at h1
    obtain ⟨r1, r2, r3⟩ := hrow i
    rw [r1, r2, r3, m6, m7, m8] at h1
    by_cases hneg : lp.Rhs.getD i 0 < 0
    · simp only [hneg, if_true] at h1
      exact (flip_holds _ _ _ _).mp h1
    · simp only [hneg, if_false] at h1
      exact h1
  · intro h p hp
    obtain ⟨i, hi, hp⟩ := List.mem_flatMap.mp hp
    have hi := List.mem_range.mp hi
    have key : ∀ p ∈ leRowsAt (EnsureNonNegativeRhs (EnsureMaximization lp)) i,
        dot p.1 x ≤ p.2 := by
      unfold leRowsAt
      rw [leRows_holds]
      obtain ⟨r1, r2, r3⟩ := hrow i
      rw [r1, r2, r3, m6, m7, m8]
      by_cases hneg : lp.Rhs.getD i 0 < 0
      · simp only [hneg, if_true]
        exact (flip_holds _ _ _ _).mpr (h i hi)
      · simp only [hneg, if_false]
        exact h i hi
    exact key p hp

/-- Every row of the canonical form of a well-formed model has one entry per variable, and
there is one right-hand side per row. -/
theorem canonical_wellFormed (lp : LinearProgram) (hS : lp.State = .Undefined)
    (hw : WellFormed lp) :
    (ToCanonicalForm lp).ConstraintCoeff.length = (ToCanonicalForm lp).NbConstraints ∧
    (ToCanonicalForm lp).Rhs.length = (ToCanonicalForm lp).NbConstraints ∧
    (ToCanonicalForm lp).Comparisons.length = (ToCanonicalForm lp).NbConstraints ∧
    (ToCanonicalForm lp).ObjCoeff.length = lp.NbVariables ∧
    (∀ k, k < (ToCanonicalForm lp).NbConstraints →
      ((ToCanonicalForm lp).ConstraintCoeff.getD k []).length = lp.NbVariables) ∧
    (∀ k, k < (ToCanonicalForm lp).NbConstraints →
      (ToCanonicalForm lp).Comparisons.getD k .EQ = .LE) := by
  obtain ⟨c1, c2, c3, c4, _, c6, _⟩ := toCanonical_fields lp hS
  obtain ⟨w1, w2, w3, w4, w5⟩ := hw
  obtain ⟨m1, _, _, _, _, m6, m7, m8, _⟩ := ensureMax_frame lp
  obtain ⟨_, _, hrow⟩ := ensure_spec (EnsureMaximization lp) (by rw [m7, m8, w4, w2])
    (by rw [m6, m8, w3, w2])
  refine ⟨by rw [c1, c4]; simp, by rw [c2, c4]; simp, by rw [c3, c4]; simp, ?_, ?_, ?_⟩
  · rw [c6, ensureMax_objCoeff]
    split_ifs <;> simp [w1]
  · rw [c1, c4]
    have := (forall_pairs_iff ((List.range lp.NbConstraints).flatMap
      (leRowsAt (EnsureNonNegativeRhs (EnsureMaximization lp))))
      (fun a _ => a.length = lp.NbVariables)).mpr
    apply this
    intro p hp
    obtain ⟨i, hi, hp⟩ := List.mem_flatMap.mp hp
    have hi := List.mem_range.mp hi
    have hlen : ((EnsureNonNegativeRhs (EnsureMaximization lp)).ConstraintCoeff.getD i []).length
        = lp.NbVariables := by
      rw [(hrow i).2.1, m7]
      have hrowlen : (lp.ConstraintCoeff.getD i []).length = lp.NbVariables := by
        rw [List.getD_eq_getElem _ _ (by rw [w4]; exact hi)]
        exact w5 _ (List.getElem_mem _)
      split_ifs
      · rw [multiplyRow_length, hrowlen]
      · exact hrowlen
    rw [leRows_length _ _ _ p hp, hlen]
  · intro k hk
    rw [c3, List.getD_eq_getElem?_getD, List.getElem?_replicate]
    rw [c4] at hk
    rw [if_pos hk]
    rfl

/-! ## The slack form of a well-formed model and its first table -/

/-- The canonical form of a model in state `Undefined` maximizes. -/
theorem toCanonical_objective (lp : LinearProgram) (hS : lp.State = .Undefined) :
    (ToCanonicalForm lp).Objective = .MAXIMIZE := by
  obtain ⟨_, _, _, _, e5, _⟩ := ensure_frame (EnsureMaximization lp)
  unfold ToCanonicalForm
  rw [if_neg (by simp [hS])]
  show (ConvertToLeConstraints (EnsureNonNegativeRhs (EnsureMaximization lp))).Objective = _
  rw [(convertLe_frame _).2.2.2.1, e5, ensureMax_objective]

/-- The fields of the slack form of a well-formed model in state `Undefined`, in terms of
its canonical form: one slack column per canonical row, forming an identity block. -/
theorem toSlack_fields (lp : LinearProgram) (hS : lp.State = .Undefined) (hw : WellFormed lp) :
    (ToSlackForm lp).NbConstraints = (ToCanonicalForm lp).NbConstraints ∧
    (ToSlackForm lp).NbVariables = lp.NbVariables + (ToCanonicalForm lp).NbConstraints ∧
    (ToSlackForm lp).Rhs = (ToCanonicalForm lp).Rhs ∧
    (ToSlackForm lp).ObjCoeff =
      (ToCanonicalForm lp).ObjCoeff ++ List.replicate (ToCanonicalForm lp).NbConstraints 0 ∧
    (ToSlackForm lp).Objective = .MAXIMIZE ∧
    (∀ i, i < (ToCanonicalForm lp).NbConstraints →
      (ToSlackForm lp).ConstraintCoeff.getD i [] =
        (ToCanonicalForm lp).ConstraintCoeff.getD i []
          ++ (List.range (ToCanonicalForm lp).NbConstraints).map
              (fun t => if i = t then (1 : ℚ) else 0)) := by
  obtain ⟨k1, k2, k3, _, k5, k6⟩ := canonical_wellFormed lp hS hw
  obtain ⟨_, _, _, _, c5, _, _⟩ := toCanonical_fields lp hS
  obtain ⟨h1, h2, _, _, _, _, h7⟩ := convertEq_loop (ToCanonicalForm lp) k6 k3
    (ToCanonicalForm lp).NbConstraints (le_refl _)
  obtain ⟨f1, _, f3, _, f5, _⟩ := convertEq_loop_frame (ToCanonicalForm lp)
    (ToCanonicalForm lp).NbConstraints
  have hform : ToSlackForm lp =
      { ConvertToEqualities (ToCanonicalForm lp) with State := .Slack } := by
    unfold ToSlackForm
    simp [hS]
  rw [hform]
  unfold ConvertToEqualities
  refine ⟨f1, ?_, f5, h2, ?_, ?_⟩
  · show ((List.range (ToCanonicalForm lp).NbConstraints).foldl ConvertToEqualitiesStep
      (ToCanonicalForm lp)).NbVariables = _
    rw [h1, c5]
  · show ((List.range (ToCanonicalForm lp).NbConstraints).foldl ConvertToEqualitiesStep
      (ToCanonicalForm lp)).Objective = _
    rw [f3]
    exact toCanonical_objective lp hS
  · intro i hi
    exact h7 i (by rw [k1]; exact hi)

/-- The first table of a well-formed model in state `Undefined`, entry by entry: the
canonical rows, the identity block of the slack columns, the right-hand sides, and the
negated objective. -/
theorem firstTable_entry (lp : LinearProgram) (hS : lp.State = .Undefined)
    (hw : WellFormed lp) (i j : Nat) :
    entry (InitializeTableau (ToSlackForm lp)).1.data i j =
      if i < (ToCanonicalForm lp).NbConstraints then
        (if j < lp.NbVariables then entry (ToCanonicalForm lp).ConstraintCoeff i j
         else if j < lp.NbVariables + (ToCanonicalForm lp).NbConstraints then
           (if i = j - lp.NbVariables then 1 else 0)
         else if j = lp.NbVariables + (ToCanonicalForm lp).NbConstraints then
           (ToCanonicalForm lp).Rhs.getD i 0
         else 0)
      else if i = (ToCanonicalForm lp).NbConstraints then
        (if j < lp.NbVariables then -((ToCanonicalForm lp).ObjCoeff.getD j 0) else 0)
      else 0 := by
  obtain ⟨s1, s2, s3, s4, _, s6⟩ := toSlack_fields lp hS hw
  obtain ⟨_, _, _, k4, k5, _⟩ := canonical_wellFormed lp hS hw
  rw [initializeTableau_entry _ (toSlack_state lp), s1, s2, s3, s4]
  by_cases hi : i < (ToCanonicalForm lp).NbConstraints
  · simp only [hi, if_true]
    by_cases hj : j < lp.NbVariables
    · have hj2 : j < lp.NbVariables + (ToCanonicalForm lp).NbConstraints := by omega
      simp only [hj, hj2, if_true]
      unfold entry
      rw [s6 i hi, List.getD_append _ _ _ _ (by rw [k5 i hi]; exact hj)]
    · simp only [hj, if_false]
      by_cases hj2 : j < lp.NbVariables + (ToCanonicalForm lp).NbConstraints
      · simp only [hj2, if_true]
        unfold entry
        rw [s6 i hi, List.getD_append_right _ _ _ _ (by rw [k5 i hi]; omega), k5 i hi,
          List.getD_eq_getElem?_getD, List.getElem?_map,
          List.getElem?_range (by omega)]
        rfl
      · simp only [hj2, if_false]
  · simp only [hi, if_false]
    by_cases hi2 : i = (ToCanonicalForm lp).NbConstraints
    · simp only [hi2, if_true]
      by_cases hj : j < lp.NbVariables
      · have hj2 : j < lp.NbVariables + (ToCanonicalForm lp).NbConstraints := by omega
        simp only [hj, hj2, if_true]
        rw [List.getD_append _ _ _ _ (by rw [k4]; exact hj)]
      · simp only [hj, if_false]
        by_cases hj2 : j < lp.NbVariables + (ToCanonicalForm lp).NbConstraints
        · simp only [hj2, if_true]
          rw [List.getD_append_right _ _ _ _ (by rw [k4]; omega), List.getD_eq_getElem?_getD,
            List.getElem?_replicate]
          rw [if_pos (by rw [k4]; omega)]
          simp
        · simp only [hj2, if_false]
    · simp only [hi2, if_false]

/-- The left-hand side of a constraint row of the first table: the canonical row applied to
the original variables plus the slack variable of the row. -/
theorem firstTable_rowEval (lp : LinearProgram) (hS : lp.State = .Undefined)
    (hw : WellFormed lp) (w : Nat → ℚ) (i : Nat) (hi : i < (ToCanonicalForm lp).NbConstraints) :
    rowEval (InitializeTableau (ToSlackForm lp)).1.data
      (lp.NbVariables + (ToCanonicalForm lp).NbConstraints) i w =
      (∑ j ∈ Finset.range lp.NbVariables, entry (ToCanonicalForm lp).ConstraintCoeff i j * w j)
        + w (lp.NbVariables + i) := by
  unfold rowEval
  rw [Finset.sum_range_add]
  congr 1
  · apply Finset.sum_congr rfl
    intro j hj
    have hj := Finset.mem_range.mp hj
    rw [firstTable_entry lp hS hw]
    simp only [hi, hj, if_true]
  · have hterm : ∀ t ∈ Finset.range (ToCanonicalForm lp).NbConstraints,
        entry (InitializeTableau (ToSlackForm lp)).1.data i (lp.NbVariables + t)
          * w (lp.NbVariables + t)
        = if i = t then w (lp.NbVariables + t) else 0 := by
      intro t ht
      have ht := Finset.mem_range.mp ht
      rw [firstTable_entry lp hS hw]
      have h1 : ¬ (lp.NbVariables + t < lp.NbVariables) := by omega
      have h2 : lp.NbVariables + t < lp.NbVariables + (ToCanonicalForm lp).NbConstraints := by
        omega
      simp only [hi, h1, h2, if_true, if_false, Nat.add_sub_cancel_left]
      split_ifs <;> simp
    rw [Finset.sum_congr rfl hterm, Finset.sum_ite_eq, if_pos (Finset.mem_range.mpr hi)]

/-- The left-hand side of the objective row of the first table: minus the canonical
objective of the original variables. -/
theorem firstTable_objEval (lp : LinearProgram) (hS : lp.State = .Undefined)
    (hw : WellFormed lp) (w : Nat → ℚ) :
    rowEval (InitializeTableau (ToSlackForm lp)).1.data
      (lp.NbVariables + (ToCanonicalForm lp).NbConstraints)
      (ToCanonicalForm lp).NbConstraints w =
      -(∑ j ∈ Finset.range lp.NbVariables, (ToCanonicalForm lp).ObjCoeff.getD j 0 * w j) := by
  unfold rowEval
  rw [Finset.sum_range_add, ← Finset.sum_neg_distrib]
  have hz : (∑ t ∈ Finset.range (ToCanonicalForm lp).NbConstraints,
      entry (InitializeTableau (ToSlackForm lp)).1.data (ToCanonicalForm lp).NbConstraints
        (lp.NbVariables + t) * w (lp.NbVariables + t)) = 0 := by
    apply Finset.sum_eq_zero
    intro t _
    rw [firstTable_entry lp hS hw]
    have h1 : ¬ (lp.NbVariables + t < lp.NbVariables) := by omega
    simp [h1]
  rw [hz, add_zero]
  apply Finset.sum_congr rfl
  intro j hj
  have hj := Finset.mem_range.mp hj
  rw [firstTable_entry lp hS hw]
  simp [hj]

/-- The first table of a well-formed model in state `Undefined` satisfies the invariant of
the loop: the slack columns are the unit vectors of their rows. -/
theorem firstTable_inv (lp : LinearProgram) (hS : lp.State = .Undefined) (hw : WellFormed lp) :
    TableInv (InitializeTableau (ToSlackForm lp)).1.data (ToCanonicalForm lp).NbConstraints
      (lp.NbVariables + (ToCanonicalForm lp).NbConstraints)
      (InitializeTableau (ToSlackForm lp)).1 := by
  obtain ⟨s1, s2, _⟩ := toSlack_fields lp hS hw
  have hSl := toSlack_state lp
  refine ⟨⟨?_, ?_⟩, fun _ => Iff.rfl, fun _ _ => rfl, ?_, ?_⟩
  · rw [initializeTableau_length _ hSl, s1]
  · intro i hi
    rw [initializeTableau_row_length _ hSl i (by rw [s1]; omega), s2]
  · simp [InitializeTableau, hSl, s1]
  · intro i hi
    refine ⟨lp.NbVariables + i, by omega, ?_, ?_⟩
    · simp only [InitializeTableau, hSl, ne_eq, not_true_eq_false, if_false, s1, s2]
      rw [List.getD_eq_getElem?_getD, List.getElem?_map, List.getElem?_range hi]
      simp only [Option.map_some', Option.getD_some]
      omega
    · intro k hk
      rw [firstTable_entry lp hS hw]
      have h1 : ¬ (lp.NbVariables + i < lp.NbVariables) := by omega
      have h2 : lp.NbVariables + i < lp.NbVariables + (ToCanonicalForm lp).NbConstraints := by
        omega
      simp only [h1, h2, if_true, if_false, Nat.add_sub_cancel_left]
      by_cases hk2 : k < (ToCanonicalForm lp).NbConstraints
      · simp only [hk2, if_true]
      · have hk3 : k = (ToCanonicalForm lp).NbConstraints := by omega
        have hne : ¬ k = i := by omega
        have hne2 : ¬ (ToCanonicalForm lp).NbConstraints = i := by omega
        simp only [hk3, lt_irrefl, if_false, if_true, hne2]

/-! ## A successful `Solve` on a well-formed model -/

/-- Negating the last element of a non-empty solution. -/
theorem negateLast_append (xs : List ℚ) (z : ℚ) : negateLast (xs ++ [z]) = xs ++ [z * (-1)] := by
  unfold negateLast
  have h1 : (xs ++ [z]).length - 1 = xs.length := by simp
  rw [h1, List.getD_append_right _ _ _ _ (le_refl _)]
  simp

/-- What a successful `Solve` leaves, for a well-formed model in state `Undefined`: the last
table satisfies the loop invariant with respect to the first table, no entry of its objective
row is below `-epsilon`, and `ObjVar` holds the basic values of the original variables
followed by the right-hand side of the objective row, negated when minimizing. -/
theorem solve_success (lp : LinearProgram) (hS : lp.State = .Undefined) (hw : WellFormed lp)
    (fuel : Nat) (r : SolveRun) (h : SolveRunOf fuel lp = some r) (he : r.err = none) :
    TableInv (InitializeTableau (ToSlackForm lp)).1.data (ToCanonicalForm lp).NbConstraints
      (lp.NbVariables + (ToCanonicalForm lp).NbConstraints) r.table ∧
    (∀ j, j < lp.NbVariables + (ToCanonicalForm lp).NbConstraints →
      -epsilon ≤ entry r.table.data (ToCanonicalForm lp).NbConstraints j) ∧
    r.lp.ObjVar = some
      ((List.range lp.NbVariables).map
        (basicValue r.table (ToCanonicalForm lp).NbConstraints
          (lp.NbVariables + (ToCanonicalForm lp).NbConstraints))
        ++ [if lp.Objective = .MINIMIZE
            then entry r.table.data (ToCanonicalForm lp).NbConstraints
              (lp.NbVariables + (ToCanonicalForm lp).NbConstraints) * (-1)
            else entry r.table.data (ToCanonicalForm lp).NbConstraints
              (lp.NbVariables + (ToCanonicalForm lp).NbConstraints)]) := by
  obtain ⟨s1, s2, _⟩ := toSlack_fields lp hS hw
  have hSl := toSlack_state lp
  simp only [SolveRunOf, initializeTableau_problem _ hSl] at h
  by_cases hf : IsInitiallyFeasible (InitializeTableau (ToSlackForm lp)).1 = true
  · simp only [hf, Bool.not_true, Bool.false_eq_true, if_false] at h
    have hinv := tableInv_solveLoop lp.Objective (ToSlackForm lp) fuel _ 0 r
      (firstTable_inv lp hS hw) h
    rcases solveLoop_result _ _ _ _ _ _ h with ⟨h1, _⟩ | ⟨_, h2, h3⟩
    · rw [he] at h1
      simp at h1
    · refine ⟨hinv, ?_, ?_⟩
      · intro j hj
        rcases findEntering_spec r.table with ⟨_, hall⟩ | ⟨j1, hj1, _⟩
        · have hlen : r.table.data.length - 1 = (ToCanonicalForm lp).NbConstraints := by
            rw [hinv.1.1]; rfl
          have hrow : (r.table.data.getD (ToCanonicalForm lp).NbConstraints []).length - 1
              = lp.NbVariables + (ToCanonicalForm lp).NbConstraints := by
            rw [hinv.1.2 _ (by omega)]; rfl
          rw [hlen, hrow] at hall
          exact not_lt.mp (hall j hj)
        · rw [h2] at hj1
          omega
      · have hext := extract_spec hinv (ToSlackForm lp) s2 s1 (by omega)
        rw [Nat.add_sub_cancel] at hext
        rw [h3, hext]
        simp only [Option.some.injEq]
        split_ifs
        · rw [negateLast_append]
        · rfl
  · simp only [hf, Bool.not_false, if_true, Option.some.injEq] at h
    rw [← h] at he
    simp at he

/-- On a successful `Solve`, the basic solution of the last table solves the equations of
the canonical rows with their slack variables, and the right-hand side of the last objective
row is the canonical objective at the basic solution. -/
theorem solve_success_basic (lp : LinearProgram) (hS : lp.State = .Undefined)
    (hw : WellFormed lp) (fuel : Nat) (r : SolveRun) (h : SolveRunOf fuel lp = some r)
    (he : r.err = none) :
    (∀ i, i < (ToCanonicalForm lp).NbConstraints →
      (∑ j ∈ Finset.range lp.NbVariables, entry (ToCanonicalForm lp).ConstraintCoeff i j *
        basicValue r.table (ToCanonicalForm lp).NbConstraints
          (lp.NbVariables + (ToCanonicalForm lp).NbConstraints) j)
      + basicValue r.table (ToCanonicalForm lp).NbConstraints
          (lp.NbVariables + (ToCanonicalForm lp).NbConstraints) (lp.NbVariables + i)
      = (ToCanonicalForm lp).Rhs.getD i 0) ∧
    entry r.table.data (ToCanonicalForm lp).NbConstraints
        (lp.NbVariables + (ToCanonicalForm lp).NbConstraints)
      = ∑ j ∈ Finset.range lp.NbVariables, (ToCanonicalForm lp).ObjCoeff.getD j 0 *
          basicValue r.table (ToCanonicalForm lp).NbConstraints
            (lp.NbVariables + (ToCanonicalForm lp).NbConstraints) j := by
  obtain ⟨hinv, _, _⟩ := solve_success lp hS hw fuel r h he
  have hsolT : SolvesRows r.table.data (ToCanonicalForm lp).NbConstraints
      (lp.NbVariables + (ToCanonicalForm lp).NbConstraints)
      (basicValue r.table (ToCanonicalForm lp).NbConstraints
        (lp.NbVariables + (ToCanonicalForm lp).NbConstraints)) := by
    intro i hi
    rw [rowEval_basicValue hinv i (by omega), if_pos hi]
  have hsol0 := (hinv.2.1 _).mpr hsolT
  constructor
  · intro i hi
    have := hsol0 i hi
    rw [firstTable_rowEval lp hS hw _ i hi, firstTable_entry lp hS hw] at this
    simp only [hi, if_true, lt_irrefl, if_false] at this
    rw [this]
    have h1 : ¬ (lp.NbVariables + (ToCanonicalForm lp).NbConstraints < lp.NbVariables) := by
      omega
    simp only [h1, if_false]
  · have := hinv.2.2.1 _ hsol0
    rw [rowEval_basicValue hinv _ (le_refl _), firstTable_objEval lp hS hw,
      firstTable_entry lp hS hw] at this
    have h1 : ¬ (lp.NbVariables + (ToCanonicalForm lp).NbConstraints < lp.NbVariables) := by
      omega
    simp only [lt_irrefl, if_false, if_true, h1] at this
    linarith

/-- Reading a slice built as `make` of `n` computed values. -/
theorem getD_map_range (f : Nat → ℚ) (n j : Nat) :
    ((List.range n).map f).getD j 0 = if j < n then f j else 0 := by
  rw [List.getD_eq_getElem?_getD, List.getElem?_map]
  by_cases h : j < n
  · rw [List.getElem?_range h, if_pos h]
    rfl
  · rw [List.getElem?_eq_none_iff.mpr (by simpa using h), if_neg h]
    rfl

/-- The canonical objective coefficients are the original ones, negated when minimizing. -/
theorem toCanonical_objCoeff_getD (lp : LinearProgram) (hS : lp.State = .Undefined) (j : Nat) :
    (ToCanonicalForm lp).ObjCoeff.getD j 0 =
      if lp.Objective = .MINIMIZE then -(lp.ObjCoeff.getD j 0) else lp.ObjCoeff.getD j 0 := by
  rw [(toCanonical_fields lp hS).2.2.2.2.2.1, ensureMax_objCoeff]
  split_ifs
  · rw [List.getD_eq_getElem?_getD, List.getElem?_map, List.getD_eq_getElem?_getD]
    cases lp.ObjCoeff[j]? <;> simp
  · rfl

/-- A run of `Solve` that returns `nil` is a run of the instrumented `Solve`. -/
theorem solve_some_none (fuel : Nat) (lp lp1 : LinearProgram)
    (h : Solve fuel lp = some (none, lp1)) :
    ∃ r, SolveRunOf fuel lp = some r ∧ r.err = none ∧ r.lp = lp1 := by
  simp only [Solve, Option.map_eq_some', Prod.mk.injEq] at h
  obtain ⟨r, hr, he, hlp⟩ := h
  exact ⟨r, hr, he, hlp⟩

/-! ## Rounding to `float64` is monotone and idempotent -/

/-- The rounded value is the floor or the floor plus one. -/
theorem roundHalfEven_floor (t : ℚ) :
    roundHalfEven t = ⌊t⌋ ∨ roundHalfEven t = ⌊t⌋ + 1 := by
  unfold roundHalfEven
  split_ifs <;> simp

/-- Rounding leaves an integer alone. -/
theorem roundHalfEven_intCast (n : ℤ) : roundHalfEven (n : ℚ) = n := by
  unfold roundHalfEven
  simp

/-- Rounding to the nearest integer is monotone. -/
theorem roundHalfEven_mono {a b : ℚ} (h : a ≤ b) : roundHalfEven a ≤ roundHalfEven b := by
  have hf : ⌊a⌋ ≤ ⌊b⌋ := Int.floor_mono h
  rcases lt_or_eq_of_le hf with hlt | heq
  · have h1 : roundHalfEven a ≤ ⌊a⌋ + 1 := by
      rcases roundHalfEven_floor a with e | e <;> omega
    have h2 : ⌊b⌋ ≤ roundHalfEven b := by
      rcases roundHalfEven_floor b with e | e <;> omega
    omega
  · unfold roundHalfEven
    rw [← heq]
    have hab : a - ⌊a⌋ ≤ b - ⌊a⌋ := by linarith
    by_cases h1 : a - ⌊a⌋ < 1 / 2
    · rw [if_pos h1]
      split_ifs <;> omega
    · rw [if_neg h1]
      have h1b : ¬ b - ⌊a⌋ < 1 / 2 := by
        intro hb
        exact h1 (lt_of_le_of_lt hab hb)
      rw [if_neg h1b]
      by_cases h2 : 1 / 2 < a - ⌊a⌋
      · have h2b : 1 / 2 < b - ⌊a⌋ := lt_of_lt_of_le h2 hab
        rw [if_pos h2, if_pos h2b]
      · rw [if_neg h2]
        by_cases h2b : 1 / 2 < b - ⌊a⌋
        · rw [if_pos h2b]
          split_ifs <;> omega
        · rw [if_neg h2b]

/-- The halvings of a positive number with enough fuel give its binary logarithm. -/
theorem halvings_spec : ∀ (fuel n : Nat), n ≤ fuel → 0 < n →
    2 ^ halvings fuel n ≤ n ∧ n < 2 ^ (halvings fuel n + 1) := by
  intro fuel
  induction fuel with
  | zero => intro n h1 h2; omega
  | succ f ih =>
    intro n h1 h2
    unfold halvings
    by_cases hn : n < 2
    · rw [if_pos hn]
      simp
      omega
    · rw [if_neg hn]
      obtain ⟨a, b⟩ := ih (n / 2) (by omega) (by omega)
      constructor
      · rw [pow_succ]
        omega
      · rw [pow_succ]
        omega

/-- The binary logarithm of a positive natural number. -/
theorem ilog2_spec (n : Nat) (h : 0 < n) : 2 ^ ilog2 n ≤ n ∧ n < 2 ^ (ilog2 n + 1) :=
  halvings_spec n n (le_refl n) h

/-- The binade of a positive rational. -/
theorem binade_spec (q : ℚ) (hq : 0 < q) :
    (2 : ℚ) ^ binade q ≤ q ∧ q < (2 : ℚ) ^ (binade q + 1) := by
  have hnum : 0 < q.num := Rat.num_pos.mpr hq
  have hn : 0 < q.num.natAbs := Int.natAbs_pos.mpr (ne_of_gt hnum)
  have hd : 0 < q.den := q.den_pos
  obtain ⟨a1, a2⟩ := ilog2_spec _ hn
  obtain ⟨b1, b2⟩ := ilog2_spec _ hd
  have hqeq : q = (q.num.natAbs : ℚ) / (q.den : ℚ) := by
    have h1 : ((q.num.natAbs : ℕ) : ℤ) = q.num := Int.natAbs_of_nonneg (le_of_lt hnum)
    have h2 : ((q.num.natAbs : ℕ) : ℚ) = (q.num : ℚ) := by
      rw [← Int.cast_natCast, h1]
    rw [h2]
    exact (Rat.num_div_den q).symm
  have hdq : (0 : ℚ) < (q.den : ℚ) := by exact_mod_cast hd
  have a1q : (2 : ℚ) ^ (ilog2 q.num.natAbs : ℤ) ≤ (q.num.natAbs : ℚ) := by
    rw [zpow_natCast]; exact_mod_cast a1
  have a2q : (q.num.natAbs : ℚ) < (2 : ℚ) ^ ((ilog2 q.num.natAbs : ℤ) + 1) := by
    have : (q.num.natAbs : ℚ) < (2 : ℚ) ^ (ilog2 q.num.natAbs + 1) := by exact_mod_cast a2
    rw [show ((ilog2 q.num.natAbs : ℤ) + 1) = ((ilog2 q.num.natAbs + 1 : ℕ) : ℤ) by norm_cast,
      zpow_natCast]
    exact this
  have b1q : (2 : ℚ) ^ (ilog2 q.den : ℤ) ≤ (q.den : ℚ) := by
    rw [zpow_natCast]; exact_mod_cast b1
  have b2q : (q.den : ℚ) < (2 : ℚ) ^ ((ilog2 q.den : ℤ) + 1) := by
    have : (q.den : ℚ) < (2 : ℚ) ^ (ilog2 q.den + 1) := by exact_mod_cast b2
    rw [show ((ilog2 q.den : ℤ) + 1) = ((ilog2 q.den + 1 : ℕ) : ℤ) by norm_cast, zpow_natCast]
    exact this
  have h2 : (2 : ℚ) ≠ 0 := by norm_num
  -- lower: 2^(a-b-1) < q ; upper: q < 2^(a-b+1)
  have hlow : (2 : ℚ) ^ ((ilog2 q.num.natAbs : ℤ) - (ilog2 q.den : ℤ) - 1) < q := by
    conv_rhs => rw [hqeq]
    rw [lt_div_iff₀ hdq]
    calc (2 : ℚ) ^ ((ilog2 q.num.natAbs : ℤ) - (ilog2 q.den : ℤ) - 1) * (q.den : ℚ)
        < (2 : ℚ) ^ ((ilog2 q.num.natAbs : ℤ) - (ilog2 q.den : ℤ) - 1)
            * (2 : ℚ) ^ ((ilog2 q.den : ℤ) + 1) :=
          mul_lt_mul_of_pos_left b2q (zpow_pos (by norm_num) _)
      _ = (2 : ℚ) ^ (ilog2 q.num.natAbs : ℤ) := by
          rw [← zpow_add₀ h2]; congr 1; ring
      _ ≤ (q.num.natAbs : ℚ) := a1q
  have hupp : q < (2 : ℚ) ^ ((ilog2 q.num.natAbs : ℤ) - (ilog2 q.den : ℤ) + 1) := by
    conv_lhs => rw [hqeq]
    rw [div_lt_iff₀ hdq]
    calc (q.num.natAbs : ℚ) < (2 : ℚ) ^ ((ilog2 q.num.natAbs : ℤ) + 1) := a2q
      _ = (2 : ℚ) ^ ((ilog2 q.num.natAbs : ℤ) - (ilog2 q.den : ℤ) + 1)
            * (2 : ℚ) ^ (ilog2 q.den : ℤ) := by
          rw [← zpow_add₀ h2]; congr 1; ring
      _ ≤ (2 : ℚ) ^ ((ilog2 q.num.natAbs : ℤ) - (ilog2 q.den : ℤ) + 1) * (q.den : ℚ) :=
          mul_le_mul_of_nonneg_left b1q (le_of_lt (zpow_pos (by norm_num) _))
  unfold binade
  simp only []
  by_cases hc : (2 : ℚ) ^ ((ilog2 q.num.natAbs : ℤ) - (ilog2 q.den : ℤ)) ≤ q
  · rw [if_pos hc]
    exact ⟨hc, hupp⟩
  · rw [if_neg hc]
    refine ⟨le_of_lt hlow, ?_⟩
    rw [sub_add_cancel]
    exact not_le.mp hc

/-- The binade is the only exponent `e` with `2 ^ e <= q < 2 ^ (e + 1)`. -/
theorem binade_unique (q : ℚ) (hq : 0 < q) (e : ℤ) (h1 : (2 : ℚ) ^ e ≤ q)
    (h2 : q < (2 : ℚ) ^ (e + 1)) : binade q = e := by
  obtain ⟨s1, s2⟩ := binade_spec q hq
  have two : (1 : ℚ) < 2 := by norm_num
  have a : e < binade q + 1 := (zpow_lt_zpow_iff_right₀ two).mp (lt_of_le_of_lt h1 s2)
  have b : binade q < e + 1 := (zpow_lt_zpow_iff_right₀ two).mp (lt_of_le_of_lt s1 h2)
  omega

/-- The binade is monotone. -/
theorem binade_mono {x y : ℚ} (hx : 0 < x) (hxy : x ≤ y) : binade x ≤ binade y := by
  obtain ⟨s1, _⟩ := binade_spec x hx
  obtain ⟨_, t2⟩ := binade_spec y (lt_of_lt_of_le hx hxy)
  have two : (1 : ℚ) < 2 := by norm_num
  have : binade x < binade y + 1 :=
    (zpow_lt_zpow_iff_right₀ two).mp (lt_of_le_of_lt (le_trans s1 hxy) t2)
  omega

/-- Rounding a positive rational gives a non-negative one. -/
theorem round64Pos_nonneg (q : ℚ) (hq : 0 < q) : 0 ≤ round64Pos q := by
  unfold round64Pos
  have hp : (0 : ℚ) < 2 ^ (max (binade q) (-1022) - 52) := zpow_pos (by norm_num) _
  have h0 : (0 : ℤ) ≤ roundHalfEven (q / 2 ^ (max (binade q) (-1022) - 52)) := by
    have := roundHalfEven_mono (le_of_lt (div_pos hq hp))
    rw [show (0 : ℚ) = ((0 : ℤ) : ℚ) by norm_num, roundHalfEven_intCast] at this
    exact this
  exact mul_nonneg (by exact_mod_cast h0) (le_of_lt hp)

/-- Rounding a positive rational does not leave its binade upwards. -/
theorem round64Pos_le_pow (q : ℚ) (hq : 0 < q) :
    round64Pos q ≤ 2 ^ (max (binade q) (-1022) + 1) := by
  obtain ⟨_, s2⟩ := binade_spec q hq
  have two : (1 : ℚ) ≤ 2 := by norm_num
  have h2 : (2 : ℚ) ≠ 0 := by norm_num
  have hp : (0 : ℚ) < 2 ^ (max (binade q) (-1022) - 52) := zpow_pos (by norm_num) _
  have hq2 : q ≤ 2 ^ (max (binade q) (-1022) + 1) :=
    le_trans (le_of_lt s2) (zpow_le_zpow_right₀ two (by omega))
  have hsplit : (2 : ℚ) ^ (max (binade q) (-1022) + 1)
      = (2 : ℚ) ^ (53 : ℕ) * 2 ^ (max (binade q) (-1022) - 52) := by
    rw [← zpow_natCast, ← zpow_add₀ h2]
    congr 1
    push_cast
    ring
  have hdiv : q / 2 ^ (max (binade q) (-1022) - 52) ≤ (((2 : ℤ) ^ (53 : ℕ) : ℤ) : ℚ) := by
    have hcast : (((2 : ℤ) ^ (53 : ℕ) : ℤ) : ℚ) = (2 : ℚ) ^ (53 : ℕ) := by
      simp only [Int.cast_pow, Int.cast_ofNat]
    rw [div_le_iff₀ hp, hcast, ← hsplit]
    exact hq2
  have hr := roundHalfEven_mono hdiv
  rw [roundHalfEven_intCast] at hr
  unfold round64Pos
  rw [hsplit]
  apply mul_le_mul_of_nonneg_right _ (le_of_lt hp)
  exact_mod_cast hr

/-- Rounding a positive rational of a normal binade does not leave its binade downwards. -/
theorem round64Pos_ge_pow (q : ℚ) (hq : 0 < q) (hb : -1022 ≤ binade q) :
    (2 : ℚ) ^ binade q ≤ round64Pos q := by
  obtain ⟨s1, _⟩ := binade_spec q hq
  have h2 : (2 : ℚ) ≠ 0 := by norm_num
  have hmax : max (binade q) (-1022) = binade q := max_eq_left hb
  have hp : (0 : ℚ) < 2 ^ (binade q - 52) := zpow_pos (by norm_num) _
  have hsplit : (2 : ℚ) ^ binade q = (2 : ℚ) ^ (52 : ℕ) * 2 ^ (binade q - 52) := by
    rw [← zpow_natCast, ← zpow_add₀ h2]
    congr 1
    push_cast
    ring
  have hdiv : (((2 : ℤ) ^ (52 : ℕ) : ℤ) : ℚ) ≤ q / 2 ^ (binade q - 52) := by
    have hcast : (((2 : ℤ) ^ (52 : ℕ) : ℤ) : ℚ) = (2 : ℚ) ^ (52 : ℕ) := by
      simp only [Int.cast_pow, Int.cast_ofNat]
    rw [le_div_iff₀ hp, hcast, ← hsplit]
    exact s1
  have hr := roundHalfEven_mono hdiv
  rw [roundHalfEven_intCast] at hr
  unfold round64Pos
  rw [hmax]
  conv_lhs => rw [hsplit]
  apply mul_le_mul_of_nonneg_right _ (le_of_lt hp)
  exact_mod_cast hr

/-- Rounding is monotone on the positive rationals. -/
theorem round64Pos_mono {x y : ℚ} (hx : 0 < x) (hxy : x ≤ y) :
    round64Pos x ≤ round64Pos y := by
  have hy : 0 < y := lt_of_lt_of_le hx hxy
  have hb := binade_mono hx hxy
  have two : (1 : ℚ) ≤ 2 := by norm_num
  by_cases he : max (binade x) (-1022) = max (binade y) (-1022)
  · unfold round64Pos
    rw [he]
    have hp : (0 : ℚ) < 2 ^ (max (binade y) (-1022) - 52) := zpow_pos (by norm_num) _
    apply mul_le_mul_of_nonneg_right _ (le_of_lt hp)
    have := roundHalfEven_mono (div_le_div_of_nonneg_right hxy (le_of_lt hp))
    exact_mod_cast this
  · have hlt : max (binade x) (-1022) < max (binade y) (-1022) := by
      have : max (binade x) (-1022) ≤ max (binade y) (-1022) := max_le_max hb (le_refl _)
      omega
    have hby : -1022 ≤ binade y := by
      by_contra hc
      have : max (binade y) (-1022) = -1022 := max_eq_right (by omega)
      have : -1022 ≤ max (binade x) (-1022) := le_max_right _ _
      omega
    have hmy : max (binade y) (-1022) = binade y := max_eq_left hby
    calc round64Pos x ≤ 2 ^ (max (binade x) (-1022) + 1) := round64Pos_le_pow x hx
      _ ≤ 2 ^ binade y := zpow_le_zpow_right₀ two (by omega)
      _ ≤ round64Pos y := round64Pos_ge_pow y hy hby

/-- Rounding leaves alone a positive multiple of a power of two that is at least the unit
of its binade. -/
theorem round64Pos_fixed (f : ℚ) (M P : ℤ) (hf : f = (M : ℚ) * 2 ^ P)
    (hP : max (binade f) (-1022) - 52 ≤ P) : round64Pos f = f := by
  have h2 : (2 : ℚ) ≠ 0 := by norm_num
  have hp : (0 : ℚ) < 2 ^ (max (binade f) (-1022) - 52) := zpow_pos (by norm_num) _
  obtain ⟨k, hk⟩ := Int.eq_ofNat_of_zero_le (sub_nonneg.mpr hP)
  have hPk : P = (k : ℤ) + (max (binade f) (-1022) - 52) := by omega
  have hdiv : f / 2 ^ (max (binade f) (-1022) - 52) = ((M * 2 ^ k : ℤ) : ℚ) := by
    rw [div_eq_iff (ne_of_gt hp)]
    conv_lhs => rw [hf, hPk, zpow_add₀ h2, zpow_natCast]
    push_cast
    ring
  unfold round64Pos
  rw [hdiv, roundHalfEven_intCast, ← hdiv]
  exact div_mul_cancel₀ _ (ne_of_gt hp)

/-- Rounding is idempotent on the positive rationals. -/
theorem round64Pos_idem (x : ℚ) (hx : 0 < x) (hpos : 0 < round64Pos x) :
    round64Pos (round64Pos x) = round64Pos x := by
  have two : (1 : ℚ) < 2 := by norm_num
  have h2 : (2 : ℚ) ≠ 0 := by norm_num
  have hle := round64Pos_le_pow x hx
  obtain ⟨t1, t2⟩ := binade_spec (round64Pos x) hpos
  rcases lt_or_eq_of_le hle with hlt | heq
  · have hb : binade (round64Pos x) < max (binade x) (-1022) + 1 :=
      (zpow_lt_zpow_iff_right₀ two).mp (lt_of_le_of_lt t1 hlt)
    apply round64Pos_fixed (round64Pos x)
      (roundHalfEven (x / 2 ^ (max (binade x) (-1022) - 52))) (max (binade x) (-1022) - 52)
    · rfl
    · have h1 : -1022 ≤ max (binade x) (-1022) := le_max_right _ _
      have h3 : max (binade (round64Pos x)) (-1022) ≤ max (binade x) (-1022) :=
        max_le (by omega) h1
      omega
  · have hb : binade (round64Pos x) = max (binade x) (-1022) + 1 := by
      apply binade_unique _ hpos
      · rw [heq]
      · rw [heq]
        exact zpow_lt_zpow_right₀ two (by omega)
    apply round64Pos_fixed (round64Pos x) ((2 : ℤ) ^ (52 : ℕ))
      (max (binade x) (-1022) + 1 - 52)
    · have hcast : (((2 : ℤ) ^ (52 : ℕ) : ℤ) : ℚ) = (2 : ℚ) ^ (52 : ℕ) := by
        simp only [Int.cast_pow, Int.cast_ofNat]
      rw [heq, hcast, ← zpow_natCast, ← zpow_add₀ h2]
      congr 1
      push_cast
      ring
    · rw [hb]
      have h1 : -1022 ≤ max (binade x) (-1022) := le_max_right _ _
      have : max (max (binade x) (-1022) + 1) (-1022) = max (binade x) (-1022) + 1 :=
        max_eq_left (by omega)
      omega

/-- Rounding gives a value of the sign of its argument, or zero. -/
theorem round64_sign (q : ℚ) : (0 ≤ q → 0 ≤ round64 q) ∧ (q ≤ 0 → round64 q ≤ 0) := by
  unfold round64
  constructor
  · intro h
    by_cases h0 : q = 0
    · rw [if_pos h0]
    · have hpos : 0 < q := lt_of_le_of_ne h (Ne.symm h0)
      rw [if_neg h0, if_pos hpos]
      exact round64Pos_nonneg q hpos
  · intro h
    by_cases h0 : q = 0
    · rw [if_pos h0]
    · have hneg : q < 0 := lt_of_le_of_ne h h0
      rw [if_neg h0, if_neg (not_lt.mpr h)]
      have := round64Pos_nonneg (-q) (by linarith)
      linarith

/-- Rounding to `float64` is monotone. -/
theorem round64_mono {x y : ℚ} (hxy : x ≤ y) : round64 x ≤ round64 y := by
  rcases lt_trichotomy x 0 with hx | hx | hx
  · rcases lt_or_le y 0 with hy | hy
    · have h1 : round64 x = -round64Pos (-x) := by
        unfold round64
        rw [if_neg (ne_of_lt hx), if_neg (not_lt.mpr (le_of_lt hx))]
      have h2 : round64 y = -round64Pos (-y) := by
        unfold round64
        rw [if_neg (ne_of_lt hy), if_neg (not_lt.mpr (le_of_lt hy))]
      rw [h1, h2]
      have := round64Pos_mono (x := -y) (y := -x) (by linarith) (by linarith)
      linarith
    · exact le_trans ((round64_sign x).2 (le_of_lt hx)) ((round64_sign y).1 hy)
  · rw [hx]
    have h0 : round64 0 = 0 := by unfold round64; rw [if_pos rfl]
    rw [h0]
    exact (round64_sign y).1 (by rw [← hx]; exact hxy)
  · have hy : 0 < y := lt_of_lt_of_le hx hxy
    have h1 : round64 x = round64Pos x := by
      unfold round64
      rw [if_neg (ne_of_gt hx), if_pos hx]
    have h2 : round64 y = round64Pos y := by
      unfold round64
      rw [if_neg (ne_of_gt hy), if_pos hy]
    rw [h1, h2]
    exact round64Pos_mono hx hxy

/-- Rounding to `float64` is idempotent: a `float64` value is rounded to itself. -/
theorem round64_idem (x : ℚ) : round64 (round64 x) = round64 x := by
  have h0 : round64 0 = 0 := by unfold round64; rw [if_pos rfl]
  rcases lt_trichotomy x 0 with hx | hx | hx
  · have h1 : round64 x = -round64Pos (-x) := by
      unfold round64
      rw [if_neg (ne_of_lt hx), if_neg (not_lt.mpr (le_of_lt hx))]
    have hnn := round64Pos_nonneg (-x) (by linarith)
    rcases lt_or_eq_of_le hnn with hpos | hz
    · rw [h1]
      have hneg : -round64Pos (-x) < 0 := by linarith
      have h3 : round64 (-round64Pos (-x)) = -round64Pos (- -round64Pos (-x)) := by
        conv_lhs => unfold round64
        rw [if_neg (ne_of_lt hneg), if_neg (not_lt.mpr (le_of_lt hneg))]
      rw [h3, neg_neg, round64Pos_idem (-x) (by linarith) hpos]
    · rw [h1, ← hz, neg_zero, h0]
  · rw [hx, h0, h0]
  · have h1 : round64 x = round64Pos x := by
      unfold round64
      rw [if_neg (ne_of_gt hx), if_pos hx]
    have hnn := round64Pos_nonneg x hx
    rcases lt_or_eq_of_le hnn with hpos | hz
    · rw [h1]
      have h3 : round64 (round64Pos x) = round64Pos (round64Pos x) := by
        conv_lhs => unfold round64
        rw [if_neg (ne_of_gt hpos), if_pos hpos]
      rw [h3, round64Pos_idem x hx hpos]
    · rw [h1, ← hz, h0]

/-! ## `Solve` in `float64` arithmetic on the models of the tests -/

/-- The expectations of `TestSolve`, `TestSolve_Unbounded` and `TestSolve_Infeasible` in
`float64` arithmetic: on these models no operation rounds, and `Solve64` returns what `Solve`
returns. -/
theorem tests_in_float64 :
    Solve64 4 testSolveModel = some (none, testSolveSolved) ∧
    Solve64 4 testSolveModel = Solve 4 testSolveModel ∧
    Solve64 2 testUnboundedModel = some (some "Unbounded", ToSlackForm testUnboundedModel) ∧
    Solve64 0 testInfeasibleModel
      = some (some "infeasible problem", ToSlackForm testInfeasibleModel) := by
  refine ⟨by decide!, by decide!, by decide!, by decide!⟩

/-! ## C4 -/

/-- C4 as stated fails, by the rounding of `float64`: `decimalModel` (maximize `x + y`
subject to `0.1*x + 0.2*y <= 0.3`, `x <= 1`) is well-formed, in state `Undefined`, and all its
numbers are `float64` values; `Solve` in `float64` arithmetic returns no error after two
pivots and writes `ObjVar = [1, 1 - 2^-53, 2]` (printed `[1 0.9999999999999999 2]`), whose
last element `2` is not `1 * 1 + 1 * (1 - 2^-53)`. -/
theorem C4_counterexample :
    WellFormed decimalModel ∧ decimalModel.State = .Undefined ∧
    (∀ row ∈ decimalModel.ConstraintCoeff, ∀ v ∈ row, round64 v = v) ∧
    (∀ v ∈ decimalModel.Rhs ++ decimalModel.ObjCoeff, round64 v = v) ∧
    SolveRunOf64 3 decimalModel =
      some { err := none
             lp := { ToSlackForm decimalModel with
                     ObjVar := some [1, 1 - 1 / 2 ^ 53, 2], State := .Undefined }
             table := { data := [[0, 1, 5, -1 / 2, 1 - 1 / 2 ^ 53], [1, 0, 0, 1, 1],
                                 [0, 0, 5, 1 / 2, 2]]
                        basicVariables := [1, 0] }
             pivots := 2 } ∧
    Solve64 3 decimalModel =
      some (none, { ToSlackForm decimalModel with
                    ObjVar := some [1, 1 - 1 / 2 ^ 53, 2], State := .Undefined }) ∧
    (2 : ℚ) ≠ dot decimalModel.ObjCoeff [1, 1 - 1 / 2 ^ 53] := by
  refine ⟨by decide, rfl, by decide!, by decide!, by decide!, by decide!, by decide!⟩

/-- C4, amended: in exact arithmetic (every quotient, product and difference of the solver
computed exactly, not rounded to `float64`), for every well-formed model in state `Undefined`
on which `Solve` returns no error, `ObjVar` is one value per original variable followed by a
last element, and the last element equals the sum over the original variables of the original
objective coefficient times the reported value, whether the original direction is `MAXIMIZE`
or `MINIMIZE`. -/
theorem C4_objective_consistent (lp : LinearProgram) (hS : lp.State = .Undefined)
    (hw : WellFormed lp) (fuel : Nat) (lp1 : LinearProgram)
    (h : Solve fuel lp = some (none, lp1)) :
    ∃ xs z, lp1.ObjVar = some (xs ++ [z]) ∧ xs.length = lp.NbVariables ∧
      z = dot lp.ObjCoeff xs := by
  obtain ⟨r, hr, he, hlp⟩ := solve_some_none fuel lp lp1 h
  obtain ⟨_, _, hobj⟩ := solve_success lp hS hw fuel r hr he
  obtain ⟨_, hz⟩ := solve_success_basic lp hS hw fuel r hr he
  rw [hlp] at hobj
  refine ⟨_, _, hobj, by simp, ?_⟩
  rw [dot_eq_sum _ _ lp.NbVariables (by simp), hz]
  have hterm : ∀ j ∈ Finset.range lp.NbVariables,
      (ToCanonicalForm lp).ObjCoeff.getD j 0 *
        basicValue r.table (ToCanonicalForm lp).NbConstraints
          (lp.NbVariables + (ToCanonicalForm lp).NbConstraints) j
      = (if lp.Objective = .MINIMIZE then (-1 : ℚ) else 1) *
        (lp.ObjCoeff.getD j 0 *
          ((List.range lp.NbVariables).map
            (basicValue r.table (ToCanonicalForm lp).NbConstraints
              (lp.NbVariables + (ToCanonicalForm lp).NbConstraints))).getD j 0) := by
    intro j hj
    rw [getD_map_range, if_pos (Finset.mem_range.mp hj), toCanonical_objCoeff_getD lp hS]
    split_ifs <;> ring
  rw [Finset.sum_congr rfl hterm, ← Finset.mul_sum]
  split_ifs <;> ring

/-- C4, amended, on the model of `TestSolve`: `36 = 3 * 2 + 5 * 6`. -/
theorem C4_objective_consistent_witness :
    ∃ xs z, testSolveSolved.ObjVar = some (xs ++ [z]) ∧
      xs.length = testSolveModel.NbVariables ∧ z = dot testSolveModel.ObjCoeff xs :=
  C4_objective_consistent testSolveModel rfl (by decide) 4 testSolveSolved (by decide!)

/-! ## C2 -/

/-- C2 as stated fails: `tinyObjectiveModel` (maximize `x / 10^11` subject to `x <= 10^12`)
is well-formed and in state `Undefined`, `Solve` returns no error and reports `x = 0` with
objective value `0`, because the only entry `-1 / 10^11` of the objective row is not below
`-epsilon`; but the point `x = 10^12` is feasible and has objective value `10 > 0`. -/
theorem C2_counterexample :
    WellFormed tinyObjectiveModel ∧ tinyObjectiveModel.State = .Undefined ∧
    Solve 1 tinyObjectiveModel =
      some (none, { ToSlackForm tinyObjectiveModel with
                    ObjVar := some [0, 0], State := .Undefined }) ∧
    Feasible tinyObjectiveModel [1000000000000] ∧
    dot tinyObjectiveModel.ObjCoeff [1000000000000] = 10 ∧
    ¬ (dot tinyObjectiveModel.ObjCoeff [1000000000000] ≤ 0) := by
  refine ⟨by decide, rfl, by decide!, by decide!, by decide!, by decide!⟩

/-- For a feasible point of a well-formed model, the point extended by the slacks of the
canonical rows solves the constraint rows of the first table, and all its values are
non-negative. -/
theorem feasible_solvesRows (lp : LinearProgram) (hS : lp.State = .Undefined)
    (hw : WellFormed lp) (x : List ℚ) (hx : Feasible lp x) :
    SolvesRows (InitializeTableau (ToSlackForm lp)).1.data (ToCanonicalForm lp).NbConstraints
      (lp.NbVariables + (ToCanonicalForm lp).NbConstraints)
      (fun j => if j < lp.NbVariables then x.getD j 0
        else (ToCanonicalForm lp).Rhs.getD (j - lp.NbVariables) 0
          - dot ((ToCanonicalForm lp).ConstraintCoeff.getD (j - lp.NbVariables) []) x) ∧
    (∀ j, j < lp.NbVariables + (ToCanonicalForm lp).NbConstraints →
      0 ≤ (fun j => if j < lp.NbVariables then x.getD j 0
        else (ToCanonicalForm lp).Rhs.getD (j - lp.NbVariables) 0
          - dot ((ToCanonicalForm lp).ConstraintCoeff.getD (j - lp.NbVariables) []) x) j) := by
  obtain ⟨hlen, hpos, hsat⟩ := hx
  have hcan := (canonical_holds_iff lp hS hw x).mpr hsat
  constructor
  · intro i hi
    rw [firstTable_rowEval lp hS hw _ i hi, firstTable_entry lp hS hw]
    have h1 : ¬ (lp.NbVariables + (ToCanonicalForm lp).NbConstraints < lp.NbVariables) := by
      omega
    have h2 : ¬ (lp.NbVariables + i < lp.NbVariables) := by omega
    simp only [hi, if_true, lt_irrefl, if_false, h1, h2, Nat.add_sub_cancel_left]
    rw [dot_eq_sum _ _ lp.NbVariables (le_of_eq hlen)]
    have hterm2 : ∀ j ∈ Finset.range lp.NbVariables,
        entry (ToCanonicalForm lp).ConstraintCoeff i j *
          (if j < lp.NbVariables then x.getD j 0
           else (ToCanonicalForm lp).Rhs.getD (j - lp.NbVariables) 0
             - dot ((ToCanonicalForm lp).ConstraintCoeff.getD (j - lp.NbVariables) []) x)
        = ((ToCanonicalForm lp).ConstraintCoeff.getD i []).getD j 0 * x.getD j 0 := by
      intro j hj
      rw [if_pos (Finset.mem_range.mp hj)]
      rfl
    rw [Finset.sum_congr rfl hterm2]
    ring
  · intro j hj
    show 0 ≤ (if j < lp.NbVariables then x.getD j 0
        else (ToCanonicalForm lp).Rhs.getD (j - lp.NbVariables) 0
          - dot ((ToCanonicalForm lp).ConstraintCoeff.getD (j - lp.NbVariables) []) x)
    by_cases hj1 : j < lp.NbVariables
    · rw [if_pos hj1, List.getD_eq_getElem _ _ (by rw [hlen]; exact hj1)]
      exact hpos _ (List.getElem_mem _)
    · rw [if_neg hj1]
      have := hcan (j - lp.NbVariables) (by omega)
      linarith

/-- The objective of a feasible point against the objective row of the last table: the
canonical objective of the point is at most the right-hand side of the last objective row
plus `epsilon` times the sum of the values and slacks of the point. -/
theorem canonical_objective_bound (lp : LinearProgram) (hS : lp.State = .Undefined)
    (hw : WellFormed lp) (fuel : Nat) (r : SolveRun) (h : SolveRunOf fuel lp = some r)
    (he : r.err = none) (x : List ℚ) (hx : Feasible lp x) :
    (∑ j ∈ Finset.range lp.NbVariables, (ToCanonicalForm lp).ObjCoeff.getD j 0 * x.getD j 0)
      ≤ entry r.table.data (ToCanonicalForm lp).NbConstraints
          (lp.NbVariables + (ToCanonicalForm lp).NbConstraints)
        + epsilon * slackSum lp x ∧
    0 ≤ slackSum lp x := by
  obtain ⟨hinv, hopt, _⟩ := solve_success lp hS hw fuel r h he
  obtain ⟨hsol, hnn⟩ := feasible_solvesRows lp hS hw x hx
  generalize hwdef : (fun j => if j < lp.NbVariables then x.getD j 0
        else (ToCanonicalForm lp).Rhs.getD (j - lp.NbVariables) 0
          - dot ((ToCanonicalForm lp).ConstraintCoeff.getD (j - lp.NbVariables) []) x) = w
    at hsol hnn
  have hobj := hinv.2.2.1 w hsol
  rw [firstTable_objEval lp hS hw, firstTable_entry lp hS hw] at hobj
  have h1 : ¬ (lp.NbVariables + (ToCanonicalForm lp).NbConstraints < lp.NbVariables) := by
    omega
  simp only [lt_irrefl, if_false, if_true, h1, sub_zero] at hobj
  have hsum : (∑ j ∈ Finset.range (lp.NbVariables + (ToCanonicalForm lp).NbConstraints), w j)
      = slackSum lp x := by
    unfold slackSum
    rw [Finset.sum_range_add, sum_eq_sum x lp.NbVariables (le_of_eq hx.1)]
    congr 1
    · apply Finset.sum_congr rfl
      intro j hj
      rw [← hwdef]
      simp only [Finset.mem_range.mp hj, if_true]
    · apply Finset.sum_congr rfl
      intro t _
      rw [← hwdef]
      have h2 : ¬ (lp.NbVariables + t < lp.NbVariables) := by omega
      simp only [h2, if_false, Nat.add_sub_cancel_left]
  have hlow : -epsilon * (∑ j ∈ Finset.range
      (lp.NbVariables + (ToCanonicalForm lp).NbConstraints), w j)
      ≤ rowEval r.table.data (lp.NbVariables + (ToCanonicalForm lp).NbConstraints)
          (ToCanonicalForm lp).NbConstraints w := by
    unfold rowEval
    rw [Finset.mul_sum]
    apply Finset.sum_le_sum
    intro j hj
    have hj := Finset.mem_range.mp hj
    exact mul_le_mul_of_nonneg_right (hopt j hj) (hnn j hj)
  have hwx : (∑ j ∈ Finset.range lp.NbVariables, (ToCanonicalForm lp).ObjCoeff.getD j 0 * w j)
      = ∑ j ∈ Finset.range lp.NbVariables,
          (ToCanonicalForm lp).ObjCoeff.getD j 0 * x.getD j 0 := by
    apply Finset.sum_congr rfl
    intro j hj
    rw [← hwdef]
    simp only [Finset.mem_range.mp hj, if_true]
  rw [hwx] at hobj
  rw [hsum] at hlow
  constructor
  · linarith
  · rw [← hsum]
    exact Finset.sum_nonneg (fun j hj => hnn j (Finset.mem_range.mp hj))

/-- The bound of the amended C2 needs exact arithmetic: on `thirdModel` (maximize `1e9*x`
subject to `3*x <= 1`) `Solve` in `float64` arithmetic reports the objective value
`z = 5592405333333333 / 2^24`, the rounded product of `1e9` and the rounded quotient `1 / 3`;
the feasible point `x = 1/3` has `c . x = 1e9 / 3`, above `z + epsilon * S`. -/
theorem tolerance_bound_fails_in_float64 :
    WellFormed thirdModel ∧ thirdModel.State = .Undefined ∧
    Solve64 2 thirdModel =
      some (none, { ToSlackForm thirdModel with
                    ObjVar := some [6004799503160661 / 2 ^ 54, 5592405333333333 / 2 ^ 24],
                    State := .Undefined }) ∧
    Feasible thirdModel [1 / 3] ∧
    ¬ (dot thirdModel.ObjCoeff [1 / 3]
        ≤ 5592405333333333 / 2 ^ 24 + epsilon * slackSum thirdModel [1 / 3]) := by
  refine ⟨by decide, rfl, by decide!, by decide!, by decide!⟩

/-- C2, amended: in exact arithmetic (every quotient, product and difference of the solver
computed exactly, not rounded to `float64`), for every well-formed model in state `Undefined`
on which `Solve` returns no error, the reported objective value `z` (the last element of
`ObjVar`) is optimal up to the tolerance of the entering rule: every feasible point `x`
(non-negative, satisfying every original constraint) has `c . x <= z + epsilon * S` when
maximizing and `z - epsilon * S <= c . x` when minimizing, where `c` is the original
objective, `epsilon` is the `float64` constant `1e-10` and `S = slackSum lp x >= 0` is the sum
of the values of `x` and of its slacks in the rows of the canonical form. -/
theorem C2_optimal_up_to_tolerance (lp : LinearProgram) (hS : lp.State = .Undefined)
    (hw : WellFormed lp) (fuel : Nat) (lp1 : LinearProgram)
    (h : Solve fuel lp = some (none, lp1)) (x : List ℚ) (hx : Feasible lp x) :
    ∃ xs z, lp1.ObjVar = some (xs ++ [z]) ∧ xs.length = lp.NbVariables ∧
      0 ≤ slackSum lp x ∧
      (lp.Objective = .MAXIMIZE → dot lp.ObjCoeff x ≤ z + epsilon * slackSum lp x) ∧
      (lp.Objective = .MINIMIZE → z - epsilon * slackSum lp x ≤ dot lp.ObjCoeff x) := by
  obtain ⟨r, hr, he, hlp⟩ := solve_some_none fuel lp lp1 h
  obtain ⟨_, _, hobj⟩ := solve_success lp hS hw fuel r hr he
  obtain ⟨hbound, hS0⟩ := canonical_objective_bound lp hS hw fuel r hr he x hx
  rw [hlp] at hobj
  refine ⟨_, _, hobj, by simp, hS0, ?_, ?_⟩
  · intro hmax
    have hne : ¬ lp.Objective = .MINIMIZE := by rw [hmax]; decide
    have hc : ∀ j ∈ Finset.range lp.NbVariables,
        (ToCanonicalForm lp).ObjCoeff.getD j 0 * x.getD j 0
        = lp.ObjCoeff.getD j 0 * x.getD j 0 := by
      intro j _
      rw [toCanonical_objCoeff_getD lp hS, if_neg hne]
    rw [Finset.sum_congr rfl hc, ← dot_eq_sum _ _ _ (le_of_eq hx.1)] at hbound
    rw [if_neg hne]
    exact hbound
  · intro hmin
    have hc : ∀ j ∈ Finset.range lp.NbVariables,
        (ToCanonicalForm lp).ObjCoeff.getD j 0 * x.getD j 0
        = -(lp.ObjCoeff.getD j 0 * x.getD j 0) := by
      intro j _
      rw [toCanonical_objCoeff_getD lp hS, if_pos hmin]
      ring
    rw [Finset.sum_congr rfl hc, Finset.sum_neg_distrib,
      ← dot_eq_sum _ _ _ (le_of_eq hx.1)] at hbound
    rw [if_pos hmin]
    linarith

/-- C2, amended, on the model of `TestSolve` and the feasible point `(4, 3)`:
`3 * 4 + 5 * 3 = 27 <= 36 + epsilon * S`. -/
theorem C2_optimal_up_to_tolerance_witness :
    ∃ xs z, testSolveSolved.ObjVar = some (xs ++ [z]) ∧
      xs.length = testSolveModel.NbVariables ∧
      0 ≤ slackSum testSolveModel [4, 3] ∧
      (testSolveModel.Objective = .MAXIMIZE →
        dot testSolveModel.ObjCoeff [4, 3] ≤ z + epsilon * slackSum testSolveModel [4, 3]) ∧
      (testSolveModel.Objective = .MINIMIZE →
        z - epsilon * slackSum testSolveModel [4, 3] ≤ dot testSolveModel.ObjCoeff [4, 3]) :=
  C2_optimal_up_to_tolerance testSolveModel rfl (by decide) 4 testSolveSolved (by decide!)
    [4, 3] (by decide!)

/-! ## C3 -/

/-- The equations of the amended C3 need exact arithmetic: on `tenthModel` (maximize `x`
subject to `10*x <= 1`) `Solve` in `float64` arithmetic reports `x = 0.1`, the `float64`
nearest to `1 / 10`, which is above `1 / 10`: the slack of the row is `0` in the last table,
whose right-hand side is not negative, and yet `10 * x > 1`. -/
theorem basic_equations_fail_in_float64 :
    WellFormed tenthModel ∧ tenthModel.State = .Undefined ∧
    SolveRunOf64 2 tenthModel =
      some { err := none
             lp := { ToSlackForm tenthModel with
                     ObjVar := some [round64 (1 / 10), round64 (1 / 10)]
                     State := .Undefined }
             table := { data := [[1, round64 (1 / 10), round64 (1 / 10)],
                                 [0, round64 (1 / 10), round64 (1 / 10)]]
                        basicVariables := [0] }
             pivots := 1 } ∧
    (1 : ℚ) < dot (tenthModel.ConstraintCoeff.getD 0 []) [round64 (1 / 10)] ∧
    ¬ SatisfiesConstraints tenthModel [round64 (1 / 10)] := by
  refine ⟨by decide, rfl, by decide!, by decide!, by decide!⟩

/-- Pivoting passes compose. -/
theorem tableAfter_add (a b : Nat) :
    ∀ t : SimplexTable, tableAfter (a + b) t = (tableAfter a t).bind (tableAfter b) := by
  induction a with
  | zero => intro t; simp [tableAfter]
  | succ a ih =>
    intro t
    rw [Nat.add_right_comm]
    simp only [tableAfter]
    cases pivotStep t with
    | none => rfl
    | some t1 => exact ih t1

/-- While the loop is still pivoting it has not returned. -/
theorem solveLoop_none_of_tableAfter (o : Objectiv) (lp : LinearProgram) (k : Nat)
    (t t1 : SimplexTable) (pivots : Nat) (h : tableAfter k t = some t1) :
    solveLoop o lp k t pivots = none := by
  have := solveLoop_tableAfter o lp k 0 t t1 pivots h
  rw [Nat.zero_add] at this
  rw [this]
  rfl

/-- The table of `cyclingModel` after two pivots comes back every six pivots. -/
theorem cyclingTable_recurs (n : Nat) : tableAfter (6 * n) cyclingTable = some cyclingTable := by
  induction n with
  | zero => rfl
  | succ n ih =>
    have h6 : tableAfter 6 cyclingTable = some cyclingTable := by decide!
    rw [Nat.mul_succ, tableAfter_add, ih]
    exact h6

/-- The loop of `Solve` on `cyclingModel` performs any number of pivots. -/
theorem cycling_pivots_forever (k : Nat) :
    ∃ t, tableAfter k (InitializeTableau (ToSlackForm cyclingModel)).1 = some t := by
  have h2 : tableAfter 2 (InitializeTableau (ToSlackForm cyclingModel)).1 = some cyclingTable := by
    decide!
  have hbig : tableAfter (k + (2 + 5 * k)) (InitializeTableau (ToSlackForm cyclingModel)).1
      = some cyclingTable := by
    have e : k + (2 + 5 * k) = 2 + 6 * k := by omega
    rw [e, tableAfter_add, h2]
    exact cyclingTable_recurs k
  rw [tableAfter_add] at hbig
  cases hk : tableAfter k (InitializeTableau (ToSlackForm cyclingModel)).1 with
  | none => rw [hk] at hbig; simp at hbig
  | some t => exact ⟨t, rfl⟩

/-- C8 fails on the code: `cyclingModel` is well-formed and in state `Undefined`, its first
table is feasible, and the loop of `Solve` never returns on it: it performs any number of
pivots (the table reached after two pivots is reached again after every further six), so
`Solve` runs out of every fuel. -/
theorem C8_cycling :
    WellFormed cyclingModel ∧ cyclingModel.State = .Undefined ∧
    tableAfter 2 (InitializeTableau (ToSlackForm cyclingModel)).1 = some cyclingTable ∧
    tableAfter 6 cyclingTable = some cyclingTable ∧
    (∀ k, ∃ t, tableAfter k (InitializeTableau (ToSlackForm cyclingModel)).1 = some t) ∧
    (∀ fuel, Solve fuel cyclingModel = none) := by
  refine ⟨by decide, rfl, by decide!, by decide!, cycling_pivots_forever, ?_⟩
  intro fuel
  have hf : IsInitiallyFeasible (InitializeTableau (ToSlackForm cyclingModel)).1 = true := by
    decide!
  obtain ⟨t, ht⟩ := cycling_pivots_forever fuel
  simp only [Solve, SolveRunOf, hf, Bool.not_true, Bool.false_eq_true, if_false,
    Option.map_eq_none']
  exact solveLoop_none_of_tableAfter _ _ fuel _ t 0 ht

/-! ## C15 -/

/-- `ToCanonicalForm` does nothing on a model that is not in state `Undefined`. -/
theorem toCanonical_noop (lp : LinearProgram) (h : lp.State ≠ .Undefined) :
    ToCanonicalForm lp = lp := by
  unfold ToCanonicalForm
  rw [if_pos h]

/-- After `ToCanonicalForm` the state is not `Undefined`. -/
theorem toCanonical_state_ne (lp : LinearProgram) : (ToCanonicalForm lp).State ≠ .Undefined := by
  by_cases h : lp.State = .Undefined
  · rw [(toCanonical_fields lp h).2.2.2.2.2.2]
    decide
  · rw [toCanonical_noop lp h]
    exact h

/-- C15: for every model, in any state, applying `ToCanonicalForm` twice gives in every field
the model that applying it once gives, and applying `ToSlackForm` twice gives in every field
the model that applying it once gives. -/
theorem C15_idempotent (lp : LinearProgram) :
    ToCanonicalForm (ToCanonicalForm lp) = ToCanonicalForm lp ∧
    ToSlackForm (ToSlackForm lp) = ToSlackForm lp := by
  constructor
  · exact toCanonical_noop _ (toCanonical_state_ne lp)
  · have h1 := toSlack_state lp
    generalize ToSlackForm lp = q at h1 ⊢
    unfold ToSlackForm
    rw [if_pos h1]

/-! ## C17 -/

/-- C17 as stated fails: the slack form of `testSolveModel` is a model in state `Slack`;
`Solve` succeeds on it and leaves it in state `Undefined`, which is smaller. -/
theorem C17_counterexample :
    (ToSlackForm testSolveModel).State = .Slack ∧
    Solve 4 (ToSlackForm testSolveModel) = some (none, testSolveSolved) ∧
    testSolveSolved.State = .Undefined ∧
    stateRank testSolveSolved.State < stateRank (ToSlackForm testSolveModel).State := by
  refine ⟨by decide!, by decide!, by decide!, by decide!⟩

/-- The state in which `Solve` leaves the model: `Slack` when it returns an error,
`Undefined` when it returns `nil`. -/
theorem solve_state (fuel : Nat) (lp lp1 : LinearProgram) (e : Option String)
    (h : Solve fuel lp = some (e, lp1)) :
    lp1.State = if e = none then .Undefined else .Slack := by
  have hS := toSlack_state lp
  simp only [Solve, Option.map_eq_some', Prod.mk.injEq] at h
  obtain ⟨r, hr, he, hlp⟩ := h
  simp only [SolveRunOf, initializeTableau_problem _ hS] at hr
  by_cases hf : IsInitiallyFeasible (InitializeTableau (ToSlackForm lp)).1 = true
  · simp only [hf, Bool.not_true, Bool.false_eq_true, if_false] at hr
    rcases solveLoop_result _ _ _ _ _ _ hr with ⟨h1, h2⟩ | ⟨h1, _, h3⟩
    · rw [← he, h1, ← hlp, h2, hS]
      simp
    · rw [← he, h1, ← hlp, h3]
      simp
  · simp only [hf, Bool.not_false, if_true, Option.some.injEq] at hr
    rw [← he, ← hlp, ← hr]
    simp [hS]

/-- C17, amended: for every model, `ToCanonicalForm`, `ToSlackForm` and `InitializeTableau`
never leave the model in a state smaller than the one it had (in the order
`Undefined < Canonical < Slack`); and whenever `Solve` returns, it leaves the state `Slack`
when it returns an error and resets it to `Undefined` when it succeeds. -/
theorem C17_state_changes (lp : LinearProgram) :
    stateRank lp.State ≤ stateRank (ToCanonicalForm lp).State ∧
    stateRank lp.State ≤ stateRank (ToSlackForm lp).State ∧
    stateRank lp.State ≤ stateRank (InitializeTableau lp).2.State ∧
    ∀ (fuel : Nat) (e : Option String) (lp1 : LinearProgram),
      Solve fuel lp = some (e, lp1) →
      lp1.State = (if e = none then .Undefined else .Slack) := by
  have hslack : stateRank lp.State ≤ stateRank (ToSlackForm lp).State := by
    rw [toSlack_state]
    cases lp.State <;> decide
  refine ⟨?_, hslack, ?_, fun fuel e lp1 h => solve_state fuel lp lp1 e h⟩
  · by_cases hU : lp.State = .Undefined
    · rw [hU]
      exact Nat.zero_le _
    · rw [toCanonical_noop lp hU]
  · by_cases hSl : lp.State = .Slack
    · rw [initializeTableau_problem lp hSl]
    · have : (InitializeTableau lp).2 = ToSlackForm lp := by
        simp [InitializeTableau, hSl]
      rw [this]
      exact hslack

/-- C17, amended, on the model of `TestSolve_Unbounded`, on which `Solve` fails and leaves
the state `Slack`, and on the model of `TestSolve`, on which it succeeds and leaves the state
`Undefined`. -/
theorem C17_state_changes_witness :
    (stateRank testUnboundedModel.State
        ≤ stateRank (ToCanonicalForm testUnboundedModel).State ∧
      stateRank testUnboundedModel.State ≤ stateRank (ToSlackForm testUnboundedModel).State ∧
      stateRank testUnboundedModel.State
        ≤ stateRank (InitializeTableau testUnboundedModel).2.State) ∧
    Solve 2 testUnboundedModel = some (some "Unbounded", ToSlackForm testUnboundedModel) ∧
    (ToSlackForm testUnboundedModel).State
      = (if some "Unbounded" = none then .Undefined else .Slack) ∧
    Solve 4 testSolveModel = some (none, testSolveSolved) ∧
    testSolveSolved.State = (if (none : Option String) = none then .Undefined else .Slack) :=
  ⟨⟨(C17_state_changes testUnboundedModel).1, (C17_state_changes testUnboundedModel).2.1,
      (C17_state_changes testUnboundedModel).2.2.1⟩,
    by decide!,
    (C17_state_changes testUnboundedModel).2.2.2 2 (some "Unbounded")
      (ToSlackForm testUnboundedModel) (by decide!),
    by decide!,
    (C17_state_changes testSolveModel).2.2.2 4 none testSolveSolved (by decide!)⟩

/-! ## C18 -/

/-- The loop of `ExtractSolution` keeps the length of the solution. -/
theorem extract_fold_length (t : SimplexTable) (n0 : Int) (l : List Nat) :
    ∀ sol : List ℚ,
      (l.foldl (fun sol i =>
        if t.basicVariables.getD i 0 < n0
        then sol.set (t.basicVariables.getD i 0).toNat
          (entry t.data i ((t.data.getD 0 []).length - 1))
        else sol) sol).length = sol.length := by
  induction l with
  | nil => intro sol; rfl
  | cons a l ih =>
    intro sol
    rw [List.foldl_cons, ih]
    split_ifs
    · rw [List.length_set]
    · rfl

/-- `ExtractSolution` returns `NbVariables - NbConstraints` values and the objective value. -/
theorem extract_length (t : SimplexTable) (lp : LinearProgram) :
    (ExtractSolution t lp).length
      = ((lp.NbVariables : Int) - (lp.NbConstraints : Int)).toNat + 1 := by
  unfold ExtractSolution
  simp only [List.length_append, List.length_singleton]
  rw [extract_fold_length, List.length_replicate]

/-- `negateLast` keeps the length. -/
theorem negateLast_length (xs : List ℚ) : (negateLast xs).length = xs.length := by
  simp [negateLast]

/-- C18 as stated fails: after the successful `Solve` of `testSolveModel` the model has
`NbVariables = 5` (two original and three slack variables) and `ObjVar = [2, 6, 36]`, of
length `3`, not `5 + 1`. -/
theorem C18_counterexample :
    Solve 4 testSolveModel = some (none, testSolveSolved) ∧
    testSolveSolved.ObjVar = some [2, 6, 36] ∧
    testSolveSolved.NbVariables = 5 ∧
    ¬ (([2, 6, 36] : List ℚ).length = testSolveSolved.NbVariables + 1) := by
  refine ⟨by decide!, by decide!, by decide!, by decide!⟩

/-- C18, amended: after every successful `Solve`, `ObjVar` holds one value per original
variable followed by the objective value, and no value for the slack variables: its length
is `(NbVariables - NbConstraints) + 1` for the counts of the model `Solve` leaves (the
slack form), which for a well-formed model in state `Undefined` is the number of variables
before the call plus one. -/
theorem C18_solution_shape (lp : LinearProgram) (fuel : Nat) (lp1 : LinearProgram)
    (h : Solve fuel lp = some (none, lp1)) :
    ∃ sol, lp1.ObjVar = some sol ∧
      sol.length = ((lp1.NbVariables : Int) - (lp1.NbConstraints : Int)).toNat + 1 ∧
      (lp.State = .Undefined → WellFormed lp → sol.length = lp.NbVariables + 1) := by
  have hS := toSlack_state lp
  obtain ⟨r, hr, he, hlp⟩ := solve_some_none fuel lp lp1 h
  simp only [SolveRunOf, initializeTableau_problem _ hS] at hr
  by_cases hf : IsInitiallyFeasible (InitializeTableau (ToSlackForm lp)).1 = true
  · simp only [hf, Bool.not_true, Bool.false_eq_true, if_false] at hr
    rcases solveLoop_result _ _ _ _ _ _ hr with ⟨h1, _⟩ | ⟨_, _, h3⟩
    · rw [he] at h1
      simp at h1
    · rw [← hlp, h3]
      have hlen : (if lp.Objective = .MINIMIZE
          then negateLast (ExtractSolution r.table (ToSlackForm lp))
          else ExtractSolution r.table (ToSlackForm lp)).length
          = (((ToSlackForm lp).NbVariables : Int) - ((ToSlackForm lp).NbConstraints : Int)).toNat
            + 1 := by
        split_ifs
        · rw [negateLast_length, extract_length]
        · rw [extract_length]
      refine ⟨_, rfl, hlen, ?_⟩
      intro hU hw
      obtain ⟨s1, s2, _⟩ := toSlack_fields lp hU hw
      rw [hlen, s1, s2]
      congr 1
      omega
  · simp only [hf, Bool.not_false, if_true, Option.some.injEq] at hr
    rw [← hr] at he
    simp at he

/-- C18, amended, on the model of `TestSolve`: three values, for two original variables. -/
theorem C18_solution_shape_witness :
    ∃ sol, testSolveSolved.ObjVar = some sol ∧
      sol.length = ((testSolveSolved.NbVariables : Int)
        - (testSolveSolved.NbConstraints : Int)).toNat + 1 ∧
      (testSolveModel.State = .Undefined → WellFormed testSolveModel →
        sol.length = testSolveModel.NbVariables + 1) :=
  C18_solution_shape testSolveModel 4 testSolveSolved (by decide!)

/-! ## The ratio test in exact arithmetic -/

/-- The loop of `FindLeavingVariable` after `k` rows: either no row below `k` is a
candidate and nothing is held, or the row held is a candidate below `k` whose quotient is
within `epsilon` of every candidate's and which is the first among the candidates with its
own quotient. -/
theorem findLeaving_loop_spec (table : SimplexTable) (pivotCol : Nat) (k : Nat) :
    ((List.range k).foldl
        (FindLeavingVariableStep table (pivotCol : Int) ((table.data.getD 0 []).length - 1))
        (none, -1) = (none, -1) ∧
      ∀ i, i < k → ¬ leavingCandidate table pivotCol i) ∨
    (∃ r : Nat, r < k ∧
      (List.range k).foldl
        (FindLeavingVariableStep table (pivotCol : Int) ((table.data.getD 0 []).length - 1))
        (none, -1) = (some (rowRatio table pivotCol r), (r : Int)) ∧
      leavingCandidate table pivotCol r ∧
      (∀ i, i < k → leavingCandidate table pivotCol i →
        rowRatio table pivotCol r - epsilon ≤ rowRatio table pivotCol i) ∧
      (∀ i, i < k → leavingCandidate table pivotCol i →
        rowRatio table pivotCol i = rowRatio table pivotCol r → r ≤ i)) := by
  induction k with
  | zero => left; exact ⟨rfl, fun i hi => absurd hi (Nat.not_lt_zero i)⟩
  | succ k ih =>
    rw [foldl_range_succ]
    generalize (List.range k).foldl
      (FindLeavingVariableStep table (pivotCol : Int) ((table.data.getD 0 []).length - 1))
      (none, -1) = st at ih ⊢
    have heps := epsilon_pos
    by_cases hc : leavingCandidate table pivotCol k
    · obtain ⟨hc1, hc2⟩ := hc
      have hc2' : entry table.data k ((table.data.getD 0 []).length - 1)
          / entry table.data k pivotCol ≥ -epsilon := hc2
      rcases ih with ⟨hst, hnone⟩ | ⟨r, hr, hst, hcr, hmin, htie⟩
      · right
        refine ⟨k, Nat.lt_succ_self k, ?_, ⟨hc1, hc2⟩, ?_, ?_⟩
        · rw [hst]
          simp only [FindLeavingVariableStep, Int.toNat_ofNat, gt_iff_lt, hc1, if_true, hc2']
          rfl
        · intro i hi hci
          by_cases hik : i = k
          · rw [hik]; linarith
          · exact absurd hci (hnone i (by omega))
        · intro i hi hci _
          by_cases hik : i = k
          · omega
          · exact absurd hci (hnone i (by omega))
      · by_cases hlt : rowRatio table pivotCol k < rowRatio table pivotCol r - epsilon
        · right
          refine ⟨k, Nat.lt_succ_self k, ?_, ⟨hc1, hc2⟩, ?_, ?_⟩
          · rw [hst]
            have hlt' : entry table.data k ((table.data.getD 0 []).length - 1)
                / entry table.data k pivotCol < rowRatio table pivotCol r - epsilon := hlt
            simp only [FindLeavingVariableStep, Int.toNat_ofNat, gt_iff_lt, hc1, if_true, hc2',
              hlt']
            rfl
          · intro i hi hci
            by_cases hik : i = k
            · rw [hik]; linarith
            · have := hmin i (by omega) hci
              linarith
          · intro i hi hci heq
            by_cases hik : i = k
            · omega
            · have := hmin i (by omega) hci
              linarith
        · right
          refine ⟨r, by omega, ?_, hcr, ?_, ?_⟩
          · rw [hst]
            have hlt' : ¬ entry table.data k ((table.data.getD 0 []).length - 1)
                / entry table.data k pivotCol < rowRatio table pivotCol r - epsilon := hlt
            simp only [FindLeavingVariableStep, Int.toNat_ofNat, gt_iff_lt, hc1, if_true, hc2',
              hlt', if_false]
          · intro i hi hci
            by_cases hik : i = k
            · rw [hik]; exact not_lt.mp hlt
            · exact hmin i (by omega) hci
          · intro i hi hci heq
            by_cases hik : i = k
            · omega
            · exact htie i (by omega) hci heq
    · have hstep : FindLeavingVariableStep table (pivotCol : Int)
          ((table.data.getD 0 []).length - 1) st k = st := by
        simp only [FindLeavingVariableStep, Int.toNat_ofNat, gt_iff_lt]
        by_cases h1 : epsilon < entry table.data k pivotCol
        · have h2 : ¬ entry table.data k ((table.data.getD 0 []).length - 1)
              / entry table.data k pivotCol ≥ -epsilon := fun h => hc ⟨h1, h⟩
          simp only [h1, if_true, h2, if_false]
        · simp only [h1, if_false]
      rw [hstep]
      rcases ih with ⟨hst, hnone⟩ | ⟨r, hr, hst, hcr, hmin, htie⟩
      · left
        refine ⟨hst, ?_⟩
        intro i hi
        by_cases hik : i = k
        · rw [hik]; exact hc
        · exact hnone i (by omega)
      · right
        refine ⟨r, by omega, hst, hcr, ?_, ?_⟩
        · intro i hi hci
          by_cases hik : i = k
          · rw [hik] at hci; exact absurd hci hc
          · exact hmin i (by omega) hci
        · intro i hi hci heq
          by_cases hik : i = k
          · rw [hik] at hci; exact absurd hci hc
          · exact htie i (by omega) hci heq

/-- The ratio test in exact arithmetic: for every table and pivot column, the candidates of
`FindLeavingVariable` are the constraint rows whose pivot-column entry is above `epsilon` and
whose quotient `rhs / entry` is at least `-epsilon`; it returns `-1` exactly when there is no
candidate; otherwise it returns a candidate row such that no candidate has a quotient smaller
than the returned row's by more than `epsilon`, and which has the smallest index among the
candidates whose quotient equals its own. -/
theorem findLeaving_exact (table : SimplexTable) (pivotCol : Nat) :
    (FindLeavingVariable table (pivotCol : Int) = -1 ↔
      ∀ i, i < table.data.length - 1 → ¬ leavingCandidate table pivotCol i) ∧
    (FindLeavingVariable table (pivotCol : Int) = -1 ∨
      ∃ r : Nat, FindLeavingVariable table (pivotCol : Int) = (r : Int)) ∧
    (∀ r : Nat, FindLeavingVariable table (pivotCol : Int) = (r : Int) →
      r < table.data.length - 1 ∧ leavingCandidate table pivotCol r ∧
      (∀ i, i < table.data.length - 1 → leavingCandidate table pivotCol i →
        rowRatio table pivotCol r - epsilon ≤ rowRatio table pivotCol i) ∧
      (∀ i, i < table.data.length - 1 → leavingCandidate table pivotCol i →
        rowRatio table pivotCol i = rowRatio table pivotCol r → r ≤ i)) := by
  unfold FindLeavingVariable
  simp only []
  rcases findLeaving_loop_spec table pivotCol (table.data.length - 1) with
    ⟨hst, hnone⟩ | ⟨r, hr, hst, hcr, hmin, htie⟩
  · rw [hst]
    refine ⟨⟨fun _ => hnone, fun _ => rfl⟩, Or.inl rfl, ?_⟩
    intro r hr
    simp only at hr
    omega
  · rw [hst]
    refine ⟨⟨?_, ?_⟩, Or.inr ⟨r, rfl⟩, ?_⟩
    · intro h
      simp only at h
      omega
    · intro h
      exact absurd hcr (h r hr)
    · intro r1 hr1
      simp only [Nat.cast_inj] at hr1
      subst hr1
      exact ⟨hr, hcr, hmin, htie⟩

/-! ## C11 -/

/-- A slice is the list of its reads. -/
theorem map_getD_range {α : Type} (l : List α) (d : α) :
    (List.range l.length).map (fun i => l.getD i d) = l := by
  apply List.ext_getElem (by simp)
  intro n h1 h2
  simp only [List.getElem_map, List.getElem_range]
  exact List.getD_eq_getElem l d h2

/-- Two slices of the same length with the same reads are equal. -/
theorem ext_getD {α : Type} (l1 l2 : List α) (d : α) (hlen : l1.length = l2.length)
    (h : ∀ i, i < l1.length → l1.getD i d = l2.getD i d) : l1 = l2 := by
  apply List.ext_getElem hlen
  intro n h1 h2
  have := h n h1
  rw [List.getD_eq_getElem l1 d h1, List.getD_eq_getElem l2 d h2] at this
  exact this

/-- Multiplying a row by `-1` negates every entry. -/
theorem multiplyRow_neg_one (a : List ℚ) : MultiplyRow a (-1) = a.map (fun v => -v) := by
  unfold MultiplyRow
  apply List.map_congr_left
  intro v _
  ring

/-- The two descriptions of the rewriting of one row agree. -/
theorem leRows_eq_reference (comp : Comparison) (a : List ℚ) (b : ℚ) :
    leRows comp a b = referenceLeRow comp a b := by
  cases comp <;> simp [leRows, referenceLeRow, multiplyRow_neg_one]

/-- Reading the zipped constraint list. -/
theorem getD_zip3 (comps : List Comparison) (rows : List (List ℚ)) (rhs : List ℚ) (m i : Nat)
    (hk : comps.length = m) (hc : rows.length = m) (hr : rhs.length = m) (hi : i < m) :
    (List.zip comps (List.zip rows rhs)).getD i (.EQ, [], 0)
      = (comps.getD i .EQ, rows.getD i [], rhs.getD i 0) := by
  have h1 : i < (List.zip comps (List.zip rows rhs)).length := by
    simp only [List.length_zip]
    omega
  rw [List.getD_eq_getElem _ _ h1, List.getElem_zip, List.getElem_zip,
    List.getD_eq_getElem _ _ (by omega), List.getD_eq_getElem _ _ (by omega),
    List.getD_eq_getElem _ _ (by omega)]

/-- The rewriting computed by index is the reference rewriting of the zipped lists. -/
theorem flatMap_leRowsAt_eq_reference (lp : LinearProgram)
    (hk : lp.Comparisons.length = lp.NbConstraints)
    (hc : lp.ConstraintCoeff.length = lp.NbConstraints)
    (hr : lp.Rhs.length = lp.NbConstraints) :
    (List.range lp.NbConstraints).flatMap (leRowsAt lp)
      = referenceLe lp.Comparisons lp.ConstraintCoeff lp.Rhs := by
  have hz : (List.zip lp.Comparisons (List.zip lp.ConstraintCoeff lp.Rhs)).length
      = lp.NbConstraints := by
    simp only [List.length_zip]
    omega
  unfold referenceLe
  conv_rhs =>
    rw [← map_getD_range (List.zip lp.Comparisons (List.zip lp.ConstraintCoeff lp.Rhs))
      (.EQ, [], 0)]
  rw [List.flatMap_map, hz]
  apply List.flatMap_congr
  intro i hi
  rw [getD_zip3 _ _ _ lp.NbConstraints i hk hc hr (List.mem_range.mp hi)]
  exact leRows_eq_reference _ _ _

/-- The reference rewriting has one row per constraint and one more per `EQ` row. -/
theorem referenceLe_length (z : List (Comparison × List ℚ × ℚ)) :
    (z.flatMap (fun p => referenceLeRow p.1 p.2.1 p.2.2)).length
      = z.length + (z.map Prod.fst).count .EQ := by
  induction z with
  | nil => rfl
  | cons p z ih =>
    rw [List.flatMap_cons, List.length_append, ih]
    obtain ⟨c, a, b⟩ := p
    cases c <;> simp [referenceLeRow, List.count_cons] <;> omega

/-- C11: on a model whose three constraint lists have `NbConstraints` entries,
`ConvertToLeConstraints` produces the reference rewriting `referenceLe` of the old constraint
list: in order, `(a, b)` for an `LE` or `LO` row, `(-a, -b)` for a `BE` or `BI` row, and
`(a, b)` followed by `(-a, -b)` for an `EQ` row; every new row is labelled `LE`; and
`NbConstraints` grows by exactly the number of `EQ` rows. -/
theorem C11_convertToLe_reference (lp : LinearProgram)
    (hk : lp.Comparisons.length = lp.NbConstraints)
    (hc : lp.ConstraintCoeff.length = lp.NbConstraints)
    (hr : lp.Rhs.length = lp.NbConstraints) :
    (ConvertToLeConstraints lp).ConstraintCoeff
      = (referenceLe lp.Comparisons lp.ConstraintCoeff lp.Rhs).map Prod.fst ∧
    (ConvertToLeConstraints lp).Rhs
      = (referenceLe lp.Comparisons lp.ConstraintCoeff lp.Rhs).map Prod.snd ∧
    (ConvertToLeConstraints lp).Comparisons
      = List.replicate (referenceLe lp.Comparisons lp.ConstraintCoeff lp.Rhs).length .LE ∧
    (ConvertToLeConstraints lp).NbConstraints
      = (referenceLe lp.Comparisons lp.ConstraintCoeff lp.Rhs).length ∧
    (ConvertToLeConstraints lp).NbConstraints
      = lp.NbConstraints + lp.Comparisons.count .EQ ∧
    (∀ (a : List ℚ) (b : ℚ),
      referenceLe [.EQ] [a] [b] = [(a, b), (a.map (fun v => -v), -b)]) := by
  rw [convertLe_spec, flatMap_leRowsAt_eq_reference lp hk hc hr]
  refine ⟨rfl, rfl, rfl, rfl, ?_, fun a b => rfl⟩
  show (referenceLe lp.Comparisons lp.ConstraintCoeff lp.Rhs).length = _
  unfold referenceLe
  rw [referenceLe_length, List.map_fst_zip _ _ (by simp only [List.length_zip]; omega)]
  simp only [List.length_zip]
  congr 1
  omega

/-- C11 on `eqRowModel`: three rows, one of them `EQ`, become four `LE` rows. -/
theorem C11_convertToLe_reference_witness :
    (ConvertToLeConstraints eqRowModel).ConstraintCoeff
      = (referenceLe eqRowModel.Comparisons eqRowModel.ConstraintCoeff eqRowModel.Rhs).map
          Prod.fst ∧
    (ConvertToLeConstraints eqRowModel).Rhs
      = (referenceLe eqRowModel.Comparisons eqRowModel.ConstraintCoeff eqRowModel.Rhs).map
          Prod.snd ∧
    (ConvertToLeConstraints eqRowModel).Comparisons
      = List.replicate
          (referenceLe eqRowModel.Comparisons eqRowModel.ConstraintCoeff eqRowModel.Rhs).length
          .LE ∧
    (ConvertToLeConstraints eqRowModel).NbConstraints
      = (referenceLe eqRowModel.Comparisons eqRowModel.ConstraintCoeff eqRowModel.Rhs).length ∧
    (ConvertToLeConstraints eqRowModel).NbConstraints
      = eqRowModel.NbConstraints + eqRowModel.Comparisons.count .EQ ∧
    (∀ (a : List ℚ) (b : ℚ),
      referenceLe [.EQ] [a] [b] = [(a, b), (a.map (fun v => -v), -b)]) :=
  C11_convertToLe_reference eqRowModel (by decide) (by decide) (by decide)

/-! ## C12 -/

/-- Two models with the same eleven fields are equal. -/
theorem linearProgram_ext (p q : LinearProgram)
    (h1 : p.NbConstraints = q.NbConstraints) (h2 : p.NbVariables = q.NbVariables)
    (h3 : p.VariableNames = q.VariableNames)
    (h4 : p.SlackVariablesNames = q.SlackVariablesNames) (h5 : p.Objective = q.Objective)
    (h6 : p.ObjVar = q.ObjVar) (h7 : p.ObjCoeff = q.ObjCoeff)
    (h8 : p.Comparisons = q.Comparisons) (h9 : p.ConstraintCoeff = q.ConstraintCoeff)
    (h10 : p.Rhs = q.Rhs) (h11 : p.State = q.State) : p = q := by
  cases p
  cases q
  simp only at h1 h2 h3 h4 h5 h6 h7 h8 h9 h10 h11
  subst h1 h2 h3 h4 h5 h6 h7 h8 h9 h10 h11
  rfl

/-- Emitting one element per index is a `map`. -/
theorem flatMap_singleton_map {α β : Type} (f : α → β) (l : List α) :
    l.flatMap (fun x => [f x]) = l.map f := by
  induction l with
  | nil => rfl
  | cons a l ih => simp [List.flatMap_cons, ih]

/-- A read of a slice whose elements all satisfy `P` satisfies `P`, if the default does. -/
theorem getD_of_forall_mem {α : Type} (P : α → Prop) (l : List α) (d : α) (hd : P d)
    (h : ∀ a ∈ l, P a) (i : Nat) : P (l.getD i d) := by
  by_cases hi : i < l.length
  · rw [List.getD_eq_getElem l d hi]
    exact h _ (List.getElem_mem hi)
  · rw [List.getD_eq_default l d (by omega)]
    exact hd

/-- C12: for every well-formed model in state `Undefined` whose comparisons are all `LE`
and whose right-hand sides are all `>= 0`, `ToCanonicalForm` changes only the objective (the
direction becomes `MAXIMIZE`, the coefficients are negated when the direction was `MINIMIZE`
and untouched when it was `MAXIMIZE`) and the state tag, which becomes `Canonical`:
`NbConstraints`, `NbVariables`, `ConstraintCoeff`, `Rhs`, `Comparisons`, the variable and
slack names and `ObjVar` are unchanged. -/
theorem C12_canonical_noop (lp : LinearProgram) (hS : lp.State = .Undefined)
    (hw : WellFormed lp) (hle : ∀ c ∈ lp.Comparisons, c = Comparison.LE)
    (hrhs : ∀ b ∈ lp.Rhs, (0 : ℚ) ≤ b) :
    ToCanonicalForm lp =
      { lp with
        Objective := .MAXIMIZE
        ObjCoeff := if lp.Objective = .MINIMIZE then lp.ObjCoeff.map (fun c => -c)
                    else lp.ObjCoeff
        State := .Canonical } := by
  obtain ⟨c1, c2, c3, c4, c5, c6, c7⟩ := toCanonical_fields lp hS
  obtain ⟨f1, f2, f3, _⟩ := toCanonical_frame lp
  obtain ⟨_, w2, w3, w4, _⟩ := hw
  obtain ⟨_, _, _, _, _, m6, m7, m8, _⟩ := ensureMax_frame lp
  obtain ⟨_, _, hrow⟩ := ensure_spec (EnsureMaximization lp) (by rw [m7, m8, w4, w2])
    (by rw [m6, m8, w3, w2])
  have hnn : ∀ i, ¬ lp.Rhs.getD i 0 < 0 := fun i =>
    not_lt.mpr (getD_of_forall_mem (fun b => (0 : ℚ) ≤ b) lp.Rhs 0 (le_refl 0) hrhs i)
  have hrows : (List.range lp.NbConstraints).flatMap
      (leRowsAt (EnsureNonNegativeRhs (EnsureMaximization lp)))
      = (List.range lp.NbConstraints).map
          (fun i => (lp.ConstraintCoeff.getD i [], lp.Rhs.getD i 0)) := by
    rw [← flatMap_singleton_map]
    apply List.flatMap_congr
    intro i hi
    have hi := List.mem_range.mp hi
    obtain ⟨r1, r2, r3⟩ := hrow i
    unfold leRowsAt
    rw [r1, r2, r3, m6, m7, m8]
    simp only [hnn i, if_false]
    have hcmp : lp.Comparisons.getD i .EQ = .LE := by
      rw [List.getD_eq_getElem _ _ (by rw [w3]; exact hi)]
      exact hle _ (List.getElem_mem _)
    rw [hcmp]
    rfl
  rw [hrows] at c1 c2 c3 c4
  apply linearProgram_ext
  · rw [c4]; simp
  · exact c5
  · exact f2
  · exact f3
  · exact toCanonical_objective lp hS
  · exact f1
  · rw [c6, ensureMax_objCoeff]
  · rw [c3]
    simp only [List.length_map, List.length_range]
    apply ext_getD _ _ .EQ (by simp [w3])
    intro i hi
    simp only [List.length_replicate] at hi
    rw [List.getD_eq_getElem _ _ (by simpa using hi), List.getElem_replicate,
      List.getD_eq_getElem _ _ (by rw [w3]; exact hi)]
    exact (hle _ (List.getElem_mem _)).symm
  · rw [c1, List.map_map]
    have := map_getD_range lp.ConstraintCoeff []
    rw [w4] at this
    exact this
  · rw [c2, List.map_map]
    have := map_getD_range lp.Rhs 0
    rw [w2] at this
    exact this
  · exact c7

/-- C12 on the model of `TestSolve`. -/
theorem C12_canonical_noop_witness :
    ToCanonicalForm testSolveModel =
      { testSolveModel with
        Objective := .MAXIMIZE
        ObjCoeff := if testSolveModel.Objective = .MINIMIZE
                    then testSolveModel.ObjCoeff.map (fun c => -c)
                    else testSolveModel.ObjCoeff
        State := .Canonical } :=
  C12_canonical_noop testSolveModel rfl (by decide) (by decide) (by decide!)

/-! ## More on the slack form of a well-formed model -/

/-- The slack names after `k` iterations of the loop of `ConvertToEqualities` on a model all
of whose comparisons are `LE`: one new name per row, numbered on from the names present. -/
theorem convertEq_loop_names (lp : LinearProgram)
    (hcmp : ∀ i, i < lp.NbConstraints → lp.Comparisons.getD i .EQ = .LE)
    (hcl : lp.Comparisons.length = lp.NbConstraints) (k : Nat) (hk : k ≤ lp.NbConstraints) :
    ((List.range k).foldl ConvertToEqualitiesStep lp).SlackVariablesNames
      = lp.SlackVariablesNames
        ++ (List.range k).map (fun t => slackName (lp.SlackVariablesNames.length + t + 1)) ∧
    ((List.range k).foldl ConvertToEqualitiesStep lp).VariableNames = lp.VariableNames := by
  induction k with
  | zero => simp
  | succ k ih =>
    obtain ⟨h1, h2⟩ := ih (by omega)
    obtain ⟨_, _, _, _, h5, _⟩ := convertEq_loop lp hcmp hcl k (by omega)
    rw [foldl_range_succ]
    generalize (List.range k).foldl ConvertToEqualitiesStep lp = q at h1 h2 h5 ⊢
    have hq : q.Comparisons.getD k .EQ = .LE := by
      rw [h5 k]
      simp only [lt_irrefl, if_false]
      exact hcmp k (by omega)
    have hstep : ConvertToEqualitiesStep q k = AddSlackVariable q k := by
      unfold ConvertToEqualitiesStep
      rw [hq]
    rw [hstep]
    unfold AddSlackVariable
    refine ⟨?_, h2⟩
    show q.SlackVariablesNames ++ [slackName (q.SlackVariablesNames.length + 1)] = _
    rw [h1, List.range_succ, List.map_append, List.append_assoc]
    simp

/-- A property of every row of a matrix, from its reads by index. -/
theorem forall_mem_of_getD {α : Type} (P : α → Prop) (l : List α) (d : α)
    (h : ∀ i, i < l.length → P (l.getD i d)) : ∀ a ∈ l, P a := by
  intro a ha
  obtain ⟨n, hn, rfl⟩ := List.mem_iff_getElem.mp ha
  have := h n hn
  rw [List.getD_eq_getElem l d hn] at this
  exact this

/-- The comparisons, names and dimensions of the slack form of a well-formed model in state
`Undefined`. -/
theorem toSlack_fields_more (lp : LinearProgram) (hS : lp.State = .Undefined)
    (hw : WellFormed lp) :
    (ToSlackForm lp).Comparisons.length = (ToCanonicalForm lp).NbConstraints ∧
    (∀ c ∈ (ToSlackForm lp).Comparisons, c = Comparison.EQ) ∧
    (ToSlackForm lp).SlackVariablesNames
      = lp.SlackVariablesNames
        ++ (List.range (ToCanonicalForm lp).NbConstraints).map
            (fun t => slackName (lp.SlackVariablesNames.length + t + 1)) ∧
    (ToSlackForm lp).VariableNames = lp.VariableNames ∧
    (ToSlackForm lp).ConstraintCoeff.length = (ToCanonicalForm lp).NbConstraints ∧
    (ToSlackForm lp).Rhs.length = (ToCanonicalForm lp).NbConstraints ∧
    (ToSlackForm lp).ObjCoeff.length = lp.NbVariables + (ToCanonicalForm lp).NbConstraints ∧
    (∀ row ∈ (ToSlackForm lp).ConstraintCoeff,
      row.length = lp.NbVariables + (ToCanonicalForm lp).NbConstraints) := by
  obtain ⟨k1, k2, k3, k4, k5, k6⟩ := canonical_wellFormed lp hS hw
  obtain ⟨_, f2, f3, _⟩ := toCanonical_frame lp
  obtain ⟨s1, s2, s3, s4, _, s6⟩ := toSlack_fields lp hS hw
  obtain ⟨_, _, _, h4, h5, h6, _⟩ := convertEq_loop (ToCanonicalForm lp) k6 k3
    (ToCanonicalForm lp).NbConstraints (le_refl _)
  obtain ⟨n1, n2⟩ := convertEq_loop_names (ToCanonicalForm lp) k6 k3
    (ToCanonicalForm lp).NbConstraints (le_refl _)
  have hform : ToSlackForm lp =
      { ConvertToEqualities (ToCanonicalForm lp) with State := .Slack } := by
    unfold ToSlackForm
    simp [hS]
  have hcl : (ToSlackForm lp).Comparisons.length = (ToCanonicalForm lp).NbConstraints := by
    rw [hform]; exact h4
  have hccl : (ToSlackForm lp).ConstraintCoeff.length = (ToCanonicalForm lp).NbConstraints := by
    rw [hform]
    show ((List.range (ToCanonicalForm lp).NbConstraints).foldl ConvertToEqualitiesStep
      (ToCanonicalForm lp)).ConstraintCoeff.length = _
    rw [h6, k1]
  refine ⟨hcl, ?_, ?_, ?_, hccl, by rw [s3, k2], ?_, ?_⟩
  · apply forall_mem_of_getD (fun c => c = Comparison.EQ) _ .EQ
    intro i hi
    rw [hcl] at hi
    have := h5 i
    rw [if_pos hi] at this
    rw [hform]
    exact this
  · rw [hform]
    show ((List.range (ToCanonicalForm lp).NbConstraints).foldl ConvertToEqualitiesStep
      (ToCanonicalForm lp)).SlackVariablesNames = _
    rw [n1, f3]
  · rw [hform]
    show ((List.range (ToCanonicalForm lp).NbConstraints).foldl ConvertToEqualitiesStep
      (ToCanonicalForm lp)).VariableNames = _
    rw [n2, f2]
  · rw [s4, List.length_append, k4, List.length_replicate]
  · apply forall_mem_of_getD (fun row => row.length
      = lp.NbVariables + (ToCanonicalForm lp).NbConstraints) _ []
    intro i hi
    rw [hccl] at hi
    rw [s6 i hi, List.length_append, k5 i hi]
    simp

/-! ## C13 -/

/-- C13: for every well-formed model in state `Undefined`, after `ToSlackForm` the state is
`Slack`, there is one comparison per constraint row and every one is `EQ`, `NbVariables` is
the number of variables after canonicalization plus the number of constraint rows after
canonicalization, and exactly one slack name per constraint row has been added (numbered on
from the slack names present before). -/
theorem C13_toSlackForm_post (lp : LinearProgram) (hS : lp.State = .Undefined)
    (hw : WellFormed lp) :
    (ToSlackForm lp).State = .Slack ∧
    (ToSlackForm lp).NbConstraints = (ToCanonicalForm lp).NbConstraints ∧
    (ToSlackForm lp).Comparisons.length = (ToSlackForm lp).NbConstraints ∧
    (∀ c ∈ (ToSlackForm lp).Comparisons, c = Comparison.EQ) ∧
    (ToSlackForm lp).NbVariables
      = (ToCanonicalForm lp).NbVariables + (ToCanonicalForm lp).NbConstraints ∧
    (ToSlackForm lp).SlackVariablesNames
      = (ToCanonicalForm lp).SlackVariablesNames
        ++ (List.range (ToCanonicalForm lp).NbConstraints).map
            (fun t => slackName ((ToCanonicalForm lp).SlackVariablesNames.length + t + 1)) ∧
    (ToSlackForm lp).SlackVariablesNames.length
      = (ToCanonicalForm lp).SlackVariablesNames.length
        + (ToCanonicalForm lp).NbConstraints := by
  obtain ⟨_, _, f3, f4⟩ := toCanonical_frame lp
  obtain ⟨s1, s2, _⟩ := toSlack_fields lp hS hw
  obtain ⟨t1, t2, t3, _⟩ := toSlack_fields_more lp hS hw
  refine ⟨toSlack_state lp, s1, by rw [t1, s1], t2, by rw [s2, f4], by rw [t3, f3], ?_⟩
  rw [t3, f3]
  simp

/-- C13 on the model of `TestToSlackForm`: two rows, two slack names `s1`, `s2`. -/
theorem C13_toSlackForm_post_witness :
    (ToSlackForm testSlackModel).State = .Slack ∧
    (ToSlackForm testSlackModel).NbConstraints = (ToCanonicalForm testSlackModel).NbConstraints ∧
    (ToSlackForm testSlackModel).Comparisons.length
      = (ToSlackForm testSlackModel).NbConstraints ∧
    (∀ c ∈ (ToSlackForm testSlackModel).Comparisons, c = Comparison.EQ) ∧
    (ToSlackForm testSlackModel).NbVariables
      = (ToCanonicalForm testSlackModel).NbVariables
        + (ToCanonicalForm testSlackModel).NbConstraints ∧
    (ToSlackForm testSlackModel).SlackVariablesNames
      = (ToCanonicalForm testSlackModel).SlackVariablesNames
        ++ (List.range (ToCanonicalForm testSlackModel).NbConstraints).map
            (fun t => slackName
              ((ToCanonicalForm testSlackModel).SlackVariablesNames.length + t + 1)) ∧
    (ToSlackForm testSlackModel).SlackVariablesNames.length
      = (ToCanonicalForm testSlackModel).SlackVariablesNames.length
        + (ToCanonicalForm testSlackModel).NbConstraints :=
  C13_toSlackForm_post testSlackModel rfl (by decide)

/-! ## C14 -/

/-- C14: for every well-formed model in state `Undefined` with `n` variables and `m`
constraint rows after canonicalization, after `ToSlackForm` there are `m` rows of `n + m`
entries; in every row `k` the first `n` entries are those of the canonical row and the
entry in column `n + i` (for `i < m`) is `1` if `k = i` and `0` otherwise; and `ObjCoeff`
has `n + m` entries, the first `n` being the canonical ones and the appended `m` all `0`. -/
theorem C14_identity_block (lp : LinearProgram) (hS : lp.State = .Undefined)
    (hw : WellFormed lp) :
    (ToCanonicalForm lp).NbVariables = lp.NbVariables ∧
    (ToSlackForm lp).ConstraintCoeff.length = (ToCanonicalForm lp).NbConstraints ∧
    (∀ k, k < (ToCanonicalForm lp).NbConstraints →
      ((ToSlackForm lp).ConstraintCoeff.getD k []).length
        = lp.NbVariables + (ToCanonicalForm lp).NbConstraints ∧
      (∀ j, j < lp.NbVariables →
        entry (ToSlackForm lp).ConstraintCoeff k j
          = entry (ToCanonicalForm lp).ConstraintCoeff k j) ∧
      (∀ i, i < (ToCanonicalForm lp).NbConstraints →
        entry (ToSlackForm lp).ConstraintCoeff k (lp.NbVariables + i)
          = if k = i then 1 else 0)) ∧
    (ToSlackForm lp).ObjCoeff.length = lp.NbVariables + (ToCanonicalForm lp).NbConstraints ∧
    (∀ j, j < lp.NbVariables →
      (ToSlackForm lp).ObjCoeff.getD j 0 = (ToCanonicalForm lp).ObjCoeff.getD j 0) ∧
    (∀ i, i < (ToCanonicalForm lp).NbConstraints →
      (ToSlackForm lp).ObjCoeff.getD (lp.NbVariables + i) 0 = 0) := by
  obtain ⟨_, _, _, k4, k5, _⟩ := canonical_wellFormed lp hS hw
  obtain ⟨_, _, _, f4⟩ := toCanonical_frame lp
  obtain ⟨_, _, _, s4, _, s6⟩ := toSlack_fields lp hS hw
  obtain ⟨_, _, _, _, t5, _, t7, _⟩ := toSlack_fields_more lp hS hw
  refine ⟨f4, t5, ?_, t7, ?_, ?_⟩
  · intro k hk
    refine ⟨?_, ?_, ?_⟩
    · rw [s6 k hk, List.length_append, k5 k hk]
      simp
    · intro j hj
      unfold entry
      rw [s6 k hk, List.getD_append _ _ _ _ (by rw [k5 k hk]; exact hj)]
    · intro i hi
      unfold entry
      rw [s6 k hk, List.getD_append_right _ _ _ _ (by rw [k5 k hk]; omega), k5 k hk,
        Nat.add_sub_cancel_left, getD_map_range, if_pos hi]
  · intro j hj
    rw [s4, List.getD_append _ _ _ _ (by rw [k4]; exact hj)]
  · intro i hi
    rw [s4, List.getD_append_right _ _ _ _ (by rw [k4]; omega), k4, Nat.add_sub_cancel_left,
      List.getD_eq_getElem?_getD, List.getElem?_replicate, if_pos hi]
    rfl

/-- C14 on the model of `TestToSlackForm`: two variables, two rows, a `2 x 2` identity
block. -/
theorem C14_identity_block_witness :
    (ToCanonicalForm testSlackModel).NbVariables = testSlackModel.NbVariables ∧
    (ToSlackForm testSlackModel).ConstraintCoeff.length
      = (ToCanonicalForm testSlackModel).NbConstraints ∧
    (∀ k, k < (ToCanonicalForm testSlackModel).NbConstraints →
      ((ToSlackForm testSlackModel).ConstraintCoeff.getD k []).length
        = testSlackModel.NbVariables + (ToCanonicalForm testSlackModel).NbConstraints ∧
      (∀ j, j < testSlackModel.NbVariables →
        entry (ToSlackForm testSlackModel).ConstraintCoeff k j
          = entry (ToCanonicalForm testSlackModel).ConstraintCoeff k j) ∧
      (∀ i, i < (ToCanonicalForm testSlackModel).NbConstraints →
        entry (ToSlackForm testSlackModel).ConstraintCoeff k (testSlackModel.NbVariables + i)
          = if k = i then 1 else 0)) ∧
    (ToSlackForm testSlackModel).ObjCoeff.length
      = testSlackModel.NbVariables + (ToCanonicalForm testSlackModel).NbConstraints ∧
    (∀ j, j < testSlackModel.NbVariables →
      (ToSlackForm testSlackModel).ObjCoeff.getD j 0
        = (ToCanonicalForm testSlackModel).ObjCoeff.getD j 0) ∧
    (∀ i, i < (ToCanonicalForm testSlackModel).NbConstraints →
      (ToSlackForm testSlackModel).ObjCoeff.getD (testSlackModel.NbVariables + i) 0 = 0) :=
  C14_identity_block testSlackModel rfl (by decide)

/-! ## C16 -/

/-- C16: if a model is in state `Undefined`, has `len(VariableNames) = NbVariables`, no slack
names, `len(ObjCoeff) = NbVariables`, `len(Rhs) = len(Comparisons) = len(ConstraintCoeff) =
NbConstraints` and every row of `ConstraintCoeff` of length `NbVariables`, then both after
`ToCanonicalForm` and after `ToSlackForm` every row of `ConstraintCoeff` has exactly
`NbVariables` entries, `len(ObjCoeff) = NbVariables`, `len(Rhs) = len(Comparisons) =
len(ConstraintCoeff) = NbConstraints`, and
`NbVariables = len(VariableNames) + len(SlackVariablesNames)`. -/
theorem C16_dimension_invariant (lp : LinearProgram) (hS : lp.State = .Undefined)
    (hn : lp.VariableNames.length = lp.NbVariables) (hs : lp.SlackVariablesNames = [])
    (hw : WellFormed lp) :
    DimensionInvariant (ToCanonicalForm lp) ∧ DimensionInvariant (ToSlackForm lp) := by
  obtain ⟨k1, k2, k3, k4, k5, _⟩ := canonical_wellFormed lp hS hw
  obtain ⟨_, f2, f3, f4⟩ := toCanonical_frame lp
  obtain ⟨s1, s2, _⟩ := toSlack_fields lp hS hw
  obtain ⟨t1, _, t3, t4, t5, t6, t7, t8⟩ := toSlack_fields_more lp hS hw
  constructor
  · refine ⟨?_, by rw [k4, f4], k2, k3, k1, by rw [f4, f2, f3, hs, hn]; rfl⟩
    apply forall_mem_of_getD (fun row => row.length = (ToCanonicalForm lp).NbVariables) _ []
    intro i hi
    rw [k1] at hi
    rw [k5 i hi, f4]
  · refine ⟨by rw [s2]; exact t8, by rw [t7, s2], by rw [t6, s1], by rw [t1, s1],
      by rw [t5, s1], ?_⟩
    rw [s2, t3, t4, hs, hn]
    simp

/-- C16 on the model of `TestToSlackForm`. -/
theorem C16_dimension_invariant_witness :
    DimensionInvariant (ToCanonicalForm testSlackModel) ∧
    DimensionInvariant (ToSlackForm testSlackModel) :=
  C16_dimension_invariant testSlackModel rfl (by decide) rfl (by decide)

/-! ## C19 -/

/-- Reading a map at the key just written. -/
theorem mapGet_mapSet_self {α : Type} (m : List (String × α)) (k : String) (v : α) :
    mapGet (mapSet m k v) k = some v := by
  simp [mapSet, mapGet]

/-- Dropping the entries of another key does not change a read. -/
theorem mapGet_filter_ne {α : Type} (m : List (String × α)) (k k1 : String) (h : k1 ≠ k) :
    mapGet (m.filter (fun p => decide (p.1 ≠ k))) k1 = mapGet m k1 := by
  induction m with
  | nil => rfl
  | cons p m ih =>
    by_cases hp : p.1 = k
    · have hpk : ¬ p.1 = k1 := by rw [hp]; exact fun e => h e.symm
      have hkk : ¬ k = k1 := fun e => h e.symm
      simp only [List.filter_cons, hp, ne_eq, not_true_eq_false, decide_False,
        Bool.false_eq_true, if_false, mapGet, hkk]
      exact ih
    · simp only [List.filter_cons, hp, ne_eq, not_false_eq_true, decide_True, if_true, mapGet]
      rw [ih]

/-- Reading a map at another key than the one just written. -/
theorem mapGet_mapSet_ne {α : Type} (m : List (String × α)) (k k1 : String) (v : α)
    (h : k1 ≠ k) : mapGet (mapSet m k v) k1 = mapGet m k1 := by
  have hk : ¬ k = k1 := fun e => h e.symm
  simp only [mapSet, mapGet, hk, if_false]
  exact mapGet_filter_ne m k k1 h

/-- An entry of a map after a write is the entry written or an entry of the map before. -/
theorem mem_mapSet {α : Type} (m : List (String × α)) (k : String) (v : α)
    (p : String × α) (hp : p ∈ mapSet m k v) : p = (k, v) ∨ p ∈ m := by
  unfold mapSet at hp
  rcases List.mem_cons.mp hp with h | h
  · exact Or.inl h
  · exact Or.inr (List.mem_filter.mp h).1

/-- What a read of a map returns is one of its entries. -/
theorem mapGet_mem {α : Type} (m : List (String × α)) (k : String) (v : α)
    (h : mapGet m k = some v) : (k, v) ∈ m := by
  induction m with
  | nil => simp [mapGet] at h
  | cons p m ih =>
    simp only [mapGet] at h
    by_cases hp : p.1 = k
    · rw [if_pos hp] at h
      have hv : p.2 = v := Option.some.inj h
      have : p = (k, v) := Prod.ext hp hv
      rw [this]
      exact List.mem_cons_self _ _
    · rw [if_neg hp] at h
      exact List.mem_cons_of_mem _ (ih h)

/-- The loop of `GetSolutionJSON` after `k` names: it panics exactly when `ObjVar` has fewer
than `k` elements, and otherwise has written the first `k` names in order. -/
theorem solutionLoop_spec (names : List String) (vals : List Float64Value) (k : Nat) :
    (List.range k).foldl
      (fun acc i => acc.bind (fun solution =>
        (vals[i]?).map (fun v => mapSet solution (names.getD i "") v))) (some [])
    = if k ≤ vals.length then
        some ((List.range k).foldl
          (fun sol i => mapSet sol (names.getD i "") (vals.getD i (.finite 0))) [])
      else none := by
  induction k with
  | zero => simp
  | succ k ih =>
    rw [foldl_range_succ, ih, foldl_range_succ]
    by_cases h1 : k + 1 ≤ vals.length
    · have h2 : k ≤ vals.length := by omega
      have h3 : vals[k]? = some (vals.getD k (.finite 0)) := by
        rw [List.getD_eq_getElem _ _ (by omega), List.getElem?_eq_getElem (by omega)]
      rw [if_pos h1, if_pos h2]
      simp only [Option.some_bind, h3, Option.map_some']
    · rw [if_neg h1]
      by_cases h2 : k ≤ vals.length
      · have h3 : vals[k]? = none := List.getElem?_eq_none_iff.mpr (by omega)
        rw [if_pos h2]
        simp only [Option.some_bind, h3, Option.map_none']
      · rw [if_neg h2]
        rfl

/-- The entries of the map after `k` names: each is a name with its value. -/
theorem solutionLoop_mem (names : List String) (vals : List Float64Value) (k : Nat)
    (p : String × Float64Value)
    (hp : p ∈ (List.range k).foldl
      (fun sol i => mapSet sol (names.getD i "") (vals.getD i (.finite 0))) []) :
    ∃ i, i < k ∧ p = (names.getD i "", vals.getD i (.finite 0)) := by
  induction k with
  | zero => simp at hp
  | succ k ih =>
    rw [foldl_range_succ] at hp
    rcases mem_mapSet _ _ _ _ hp with h | h
    · exact ⟨k, Nat.lt_succ_self k, h⟩
    · obtain ⟨i, hi, hpi⟩ := ih h
      exact ⟨i, by omega, hpi⟩

/-- The loop of `GetSolutionJSON` after `k` names, when the names are pairwise distinct:
the map sends each of the first `k` names to its value and has no other key. -/
theorem solutionMap_loop (names : List String) (objVar : List Float64Value)
    (hnd : names.Nodup) (k : Nat) (hk : k ≤ names.length) :
    (∀ i, i < k →
      mapGet ((List.range k).foldl
        (fun sol i => mapSet sol (names.getD i "") (objVar.getD i (.finite 0))) [])
        (names.getD i "") = some (objVar.getD i (.finite 0))) ∧
    (∀ key, (∀ i, i < k → names.getD i "" ≠ key) →
      mapGet ((List.range k).foldl
        (fun sol i => mapSet sol (names.getD i "") (objVar.getD i (.finite 0))) []) key
        = none) := by
  induction k with
  | zero => exact ⟨fun i hi => absurd hi (Nat.not_lt_zero i), fun key _ => rfl⟩
  | succ k ih =>
    obtain ⟨h1, h2⟩ := ih (by omega)
    rw [foldl_range_succ]
    generalize (List.range k).foldl
      (fun sol i => mapSet sol (names.getD i "") (objVar.getD i (.finite 0))) [] = sol
      at h1 h2 ⊢
    constructor
    · intro i hi
      by_cases hik : i = k
      · rw [hik]
        exact mapGet_mapSet_self _ _ _
      · have hne : names.getD i "" ≠ names.getD k "" := by
          rw [List.getD_eq_getElem _ _ (by omega), List.getD_eq_getElem _ _ (by omega)]
          intro e
          exact hik ((List.Nodup.getElem_inj_iff hnd).mp e)
        rw [mapGet_mapSet_ne _ _ _ _ hne]
        exact h1 i (by omega)
    · intro key hkey
      have hne : key ≠ names.getD k "" := fun e => hkey k (Nat.lt_succ_self k) e.symm
      rw [mapGet_mapSet_ne _ _ _ _ hne]
      exact h2 key (fun i hi => hkey i (by omega))

/-- The map `GetSolutionJSON` builds: a panic exactly when `ObjVar` is empty or shorter than
`VariableNames`, and otherwise the names written in order, then the key `"objective"`. -/
theorem solutionMap_eq (names : List String) (vals : List Float64Value) :
    solutionMap names vals =
      if names.length ≤ vals.length ∧ vals ≠ [] then
        some (mapSet ((List.range names.length).foldl
            (fun sol i => mapSet sol (names.getD i "") (vals.getD i (.finite 0))) [])
          "objective" (vals.getD (vals.length - 1) (.finite 0)))
      else none := by
  unfold solutionMap
  simp only [solutionLoop_spec]
  by_cases h1 : names.length ≤ vals.length
  · by_cases h2 : vals = []
    · subst h2
      simp
    · have h3 : ¬ vals.length = 0 := fun e => h2 (List.length_eq_zero.mp e)
      simp [h1, h2, h3]
  · simp [h1]

/-- When `Solve` returns an error the model it leaves is the slack form of the input. -/
theorem solve_error_model (fuel : Nat) (lp lp1 : LinearProgram) (e : String)
    (h : Solve fuel lp = some (some e, lp1)) : lp1 = ToSlackForm lp := by
  have hS := toSlack_state lp
  simp only [Solve, Option.map_eq_some', Prod.mk.injEq] at h
  obtain ⟨r, hr, he, hlp⟩ := h
  simp only [SolveRunOf, initializeTableau_problem _ hS] at hr
  by_cases hf : IsInitiallyFeasible (InitializeTableau (ToSlackForm lp)).1 = true
  · simp only [hf, Bool.not_true, Bool.false_eq_true, if_false] at hr
    rcases solveLoop_result _ _ _ _ _ _ hr with ⟨_, h2⟩ | ⟨h1, _, _⟩
    · rw [← hlp, h2]
    · rw [he] at h1
      simp at h1
  · simp only [hf, Bool.not_false, if_true, Option.some.injEq] at hr
    rw [← hlp, ← hr]

/-- `GetSolutionJSON` on values that are there and finite: it succeeds, the key
`"objective"` holds the last element of `ObjVar`, and when the names are pairwise distinct
and none is `"objective"`, each name holds its value and there is no other key. -/
theorem getSolutionJSON_finite (names : List String) (vals : List Float64Value)
    (hlen : names.length ≤ vals.length) (hne : vals ≠ [])
    (hfin : ∀ i, i < names.length → (vals.getD i (.finite 0)).isFinite = true)
    (hlast : (vals.getD (vals.length - 1) (.finite 0)).isFinite = true) :
    ∃ m, GetSolutionJSON names (some vals) = some (.ok m) ∧
      mapGet m "objective" = some (vals.getD (vals.length - 1) (.finite 0)) ∧
      (names.Nodup → "objective" ∉ names →
        (∀ i, i < names.length →
          mapGet m (names.getD i "") = some (vals.getD i (.finite 0))) ∧
        (∀ key, key ∉ names → key ≠ "objective" → mapGet m key = none)) := by
  refine ⟨mapSet ((List.range names.length).foldl
      (fun sol i => mapSet sol (names.getD i "") (vals.getD i (.finite 0))) [])
    "objective" (vals.getD (vals.length - 1) (.finite 0)), ?_, mapGet_mapSet_self _ _ _, ?_⟩
  · unfold GetSolutionJSON
    simp only [solutionMap_eq, hlen, hne, ne_eq, not_false_eq_true, and_self, if_true,
      Option.map_some']
    rw [if_pos]
    rw [List.all_eq_true]
    intro p hp
    rcases mem_mapSet _ _ _ _ hp with h | h
    · rw [h]
      exact hlast
    · obtain ⟨i, hi, hpi⟩ := solutionLoop_mem names vals names.length p h
      rw [hpi]
      exact hfin i hi
  · intro hnd hobj
    obtain ⟨l1, l2⟩ := solutionMap_loop names vals hnd names.length (le_refl _)
    constructor
    · intro i hi
      have hne2 : names.getD i "" ≠ "objective" := by
        rw [List.getD_eq_getElem _ _ hi]
        intro e
        exact hobj (e ▸ List.getElem_mem hi)
      rw [mapGet_mapSet_ne _ _ _ _ hne2]
      exact l1 i hi
    · intro key hkey hko
      rw [mapGet_mapSet_ne _ _ _ _ hko]
      apply l2
      intro i hi e
      rw [List.getD_eq_getElem _ _ hi] at e
      exact hkey (e ▸ List.getElem_mem hi)

/-- `GetSolutionJSON` returns the error of `json.Marshal` when an entry of the map is not
finite. -/
theorem getSolutionJSON_unsupported (names : List String) (vals : List Float64Value)
    (hlen : names.length ≤ vals.length) (hne : vals ≠ [])
    (p : String × Float64Value)
    (hp : p ∈ mapSet ((List.range names.length).foldl
        (fun sol i => mapSet sol (names.getD i "") (vals.getD i (.finite 0))) [])
      "objective" (vals.getD (vals.length - 1) (.finite 0)))
    (hbad : p.2.isFinite = false) :
    GetSolutionJSON names (some vals) = some (.error .unsupportedValue) := by
  unfold GetSolutionJSON
  simp only [solutionMap_eq, hlen, hne, ne_eq, not_false_eq_true, and_self, if_true,
    Option.map_some']
  rw [if_neg]
  rw [List.all_eq_true]
  intro hall
  have := hall p hp
  rw [hbad] at this
  exact absurd this (by decide)

/-- C19 as stated fails, in three ways.  `objectiveNamedModel` (maximize `2*objective` subject
to `objective <= 1`) is well-formed, in state `Undefined`, with one name per variable; `Solve`
succeeds and writes `ObjVar = [1, 2]`; `GetSolutionJSON` then succeeds, but the map it encodes
has the single key `"objective"`, sent to the objective value `2`, not to `ObjVar[0] = 1`:
the entry of the variable is overwritten.  With `VariableNames = ["x"]` and
`ObjVar = [2^100, +Inf]`, which is not `nil`, `GetSolutionJSON` returns the error of
`json.Marshal`.  With `VariableNames = ["x"]` and an empty, non-`nil` `ObjVar` it panics. -/
theorem C19_counterexample :
    WellFormed objectiveNamedModel ∧ objectiveNamedModel.State = .Undefined ∧
    objectiveNamedModel.VariableNames.length = objectiveNamedModel.NbVariables ∧
    Solve 2 objectiveNamedModel =
      some (none, { ToSlackForm objectiveNamedModel with
                    ObjVar := some [1, 2], State := .Undefined }) ∧
    GetSolutionJSON
        ({ ToSlackForm objectiveNamedModel with
           ObjVar := some [1, 2], State := .Undefined } : LinearProgram).VariableNames
        (ObjVarValues { ToSlackForm objectiveNamedModel with
                        ObjVar := some [1, 2], State := .Undefined })
      = some (.ok [("objective", .finite 2)]) ∧
    objectiveNamedModel.VariableNames.getD 0 "" = "objective" ∧
    mapGet [("objective", Float64Value.finite 2)] "objective" ≠ some (.finite 1) ∧
    GetSolutionJSON ["x"] (some [.finite (2 ^ 100), .posInf])
      = some (.error .unsupportedValue) ∧
    GetSolutionJSON ["x"] (some []) = none := by
  refine ⟨by decide, rfl, rfl, by decide!, by decide!, by decide!, by decide!, by decide!,
    by decide!⟩

/-- Reading `ObjVar` as `float64` values. -/
theorem objVarValues_some (lp : LinearProgram) (sol : List ℚ) (h : lp.ObjVar = some sol) :
    ObjVarValues lp = some (sol.map Float64Value.finite) ∧
    (sol.map Float64Value.finite).length = sol.length ∧
    ∀ i, (sol.map Float64Value.finite).getD i (.finite 0) = .finite (sol.getD i 0) := by
  refine ⟨by rw [ObjVarValues, h]; rfl, List.length_map _ _, ?_⟩
  intro i
  by_cases hi : i < sol.length
  · rw [List.getD_eq_getElem _ _ (by simpa using hi), List.getD_eq_getElem _ _ hi]
    simp
  · rw [List.getD_eq_default _ _ (by simpa using hi), List.getD_eq_default _ _ (by omega)]

/-- C19, amended: `GetSolutionJSON` returns the error `"solution not available"` if and only
if `ObjVar` is `nil`, in particular on a model whose `ObjVar` is unset and on what a failed
`Solve` leaves of such a model.  It panics if and only if `ObjVar` is not `nil` and is empty
or has fewer elements than `VariableNames`.  Otherwise, it succeeds when the values of the
names and the last element of `ObjVar` are finite, and the map it encodes sends the key
`"objective"` to the last element of `ObjVar` and, when the names are pairwise distinct and
none is `"objective"`, each name `VariableNames[i]` to `ObjVar[i]`, and has no other key; it
returns the error of `json.Marshal` when the last element of `ObjVar` is not finite or, the
names being pairwise distinct and none `"objective"`, when the value of some name is not
finite.  After a successful `Solve` (in exact arithmetic, where every number is finite) of a
well-formed model in state `Undefined` with one name per variable, `ObjVar` has one element
per name and a last one, and `GetSolutionJSON` succeeds with that map. -/
theorem C19_getSolutionJSON (names : List String) (objVar : Option (List Float64Value)) :
    (GetSolutionJSON names objVar = some (.error .solutionNotAvailable) ↔ objVar = none) ∧
    (GetSolutionJSON names objVar = none ↔
      ∃ vals, objVar = some vals ∧ (vals.length < names.length ∨ vals = [])) ∧
    (∀ vals, objVar = some vals → names.length ≤ vals.length → vals ≠ [] →
      ((∀ i, i < names.length → (vals.getD i (.finite 0)).isFinite = true) →
        (vals.getD (vals.length - 1) (.finite 0)).isFinite = true →
        ∃ m, GetSolutionJSON names objVar = some (.ok m) ∧
          mapGet m "objective" = some (vals.getD (vals.length - 1) (.finite 0)) ∧
          (names.Nodup → "objective" ∉ names →
            (∀ i, i < names.length →
              mapGet m (names.getD i "") = some (vals.getD i (.finite 0))) ∧
            (∀ key, key ∉ names → key ≠ "objective" → mapGet m key = none))) ∧
      ((vals.getD (vals.length - 1) (.finite 0)).isFinite = false →
        GetSolutionJSON names objVar = some (.error .unsupportedValue)) ∧
      (names.Nodup → "objective" ∉ names →
        (∃ i, i < names.length ∧ (vals.getD i (.finite 0)).isFinite = false) →
        GetSolutionJSON names objVar = some (.error .unsupportedValue))) ∧
    (∀ lp : LinearProgram, lp.ObjVar = none →
      GetSolutionJSON lp.VariableNames (ObjVarValues lp)
        = some (.error .solutionNotAvailable)) ∧
    (∀ (lp : LinearProgram) (fuel : Nat) (e : String) (lp1 : LinearProgram),
      lp.ObjVar = none → Solve fuel lp = some (some e, lp1) →
      GetSolutionJSON lp1.VariableNames (ObjVarValues lp1)
        = some (.error .solutionNotAvailable)) ∧
    (∀ (lp : LinearProgram) (fuel : Nat) (lp1 : LinearProgram),
      lp.State = .Undefined → WellFormed lp → lp.VariableNames.length = lp.NbVariables →
      Solve fuel lp = some (none, lp1) →
      ∃ sol m, lp1.ObjVar = some sol ∧ lp1.VariableNames = lp.VariableNames ∧
        sol.length = lp.VariableNames.length + 1 ∧
        GetSolutionJSON lp1.VariableNames (ObjVarValues lp1) = some (.ok m) ∧
        mapGet m "objective" = some (.finite (sol.getD (sol.length - 1) 0)) ∧
        (lp.VariableNames.Nodup → "objective" ∉ lp.VariableNames →
          (∀ i, i < lp.VariableNames.length →
            mapGet m (lp.VariableNames.getD i "") = some (.finite (sol.getD i 0))) ∧
          (∀ key, key ∉ lp.VariableNames → key ≠ "objective" → mapGet m key = none))) := by
  refine ⟨?_, ?_, ?_, ?_, ?_, ?_⟩
  · cases objVar with
    | none => simp [GetSolutionJSON]
    | some vals =>
      simp only [GetSolutionJSON, solutionMap_eq, reduceCtorEq, iff_false]
      split_ifs <;> simp
      split_ifs <;> simp
  · cases objVar with
    | none => simp [GetSolutionJSON]
    | some vals =>
      simp only [GetSolutionJSON, solutionMap_eq, Option.map_eq_none', Option.some.injEq,
        exists_eq_left']
      by_cases h1 : names.length ≤ vals.length ∧ vals ≠ []
      · rw [if_pos h1]
        simp only [reduceCtorEq, false_iff, not_or, not_lt]
        exact h1
      · rw [if_neg h1]
        simp only [true_iff]
        by_cases h2 : vals = []
        · exact Or.inr h2
        · left
          by_contra h3
          exact h1 ⟨by omega, h2⟩
  · intro vals hv hlen hne
    subst hv
    refine ⟨getSolutionJSON_finite names vals hlen hne, ?_, ?_⟩
    · intro hbad
      exact getSolutionJSON_unsupported names vals hlen hne
        ("objective", vals.getD (vals.length - 1) (.finite 0))
        (by unfold mapSet; exact List.mem_cons_self _ _) hbad
    · intro hnd hobj hex
      obtain ⟨i, hi, hbad⟩ := hex
      obtain ⟨l1, _⟩ := solutionMap_loop names vals hnd names.length (le_refl _)
      have hne2 : names.getD i "" ≠ "objective" := by
        rw [List.getD_eq_getElem _ _ hi]
        intro e
        exact hobj (e ▸ List.getElem_mem hi)
      refine getSolutionJSON_unsupported names vals hlen hne
        (names.getD i "", vals.getD i (.finite 0)) ?_ hbad
      apply mapGet_mem
      rw [mapGet_mapSet_ne _ _ _ _ hne2]
      exact l1 i hi
  · intro lp h0
    simp [GetSolutionJSON, ObjVarValues, h0]
  · intro lp fuel e lp1 h0 h
    have hlp := solve_error_model fuel lp lp1 e h
    have h1 : lp1.ObjVar = none := by rw [hlp, toSlack_objVar, h0]
    simp [GetSolutionJSON, ObjVarValues, h1]
  · intro lp fuel lp1 hS hw hlen h
    obtain ⟨r, hr, her, hlp⟩ := solve_some_none fuel lp lp1 h
    have hSl := toSlack_state lp
    have hnames : lp1.VariableNames = lp.VariableNames := by
      have hr2 := hr
      simp only [SolveRunOf, initializeTableau_problem _ hSl] at hr2
      by_cases hf : IsInitiallyFeasible (InitializeTableau (ToSlackForm lp)).1 = true
      · simp only [hf, Bool.not_true, Bool.false_eq_true, if_false] at hr2
        rcases solveLoop_result _ _ _ _ _ _ hr2 with ⟨h1, _⟩ | ⟨_, _, h3⟩
        · rw [her] at h1
          simp at h1
        · rw [← hlp, h3]
          exact (toSlack_fields_more lp hS hw).2.2.2.1
      · simp only [hf, Bool.not_false, if_true, Option.some.injEq] at hr2
        rw [← hr2] at her
        simp at her
    obtain ⟨_, _, hobjvar⟩ := solve_success lp hS hw fuel r hr her
    rw [hlp] at hobjvar
    generalize hsol : (List.range lp.NbVariables).map
        (basicValue r.table (ToCanonicalForm lp).NbConstraints
          (lp.NbVariables + (ToCanonicalForm lp).NbConstraints))
        ++ [if lp.Objective = .MINIMIZE
            then entry r.table.data (ToCanonicalForm lp).NbConstraints
              (lp.NbVariables + (ToCanonicalForm lp).NbConstraints) * (-1)
            else entry r.table.data (ToCanonicalForm lp).NbConstraints
              (lp.NbVariables + (ToCanonicalForm lp).NbConstraints)] = sol at hobjvar
    have hsl : sol.length = lp.VariableNames.length + 1 := by
      rw [← hsol, hlen]
      simp
    obtain ⟨v1, v2, v3⟩ := objVarValues_some lp1 sol hobjvar
    obtain ⟨m, g1, g2, g3⟩ := getSolutionJSON_finite lp.VariableNames
      (sol.map Float64Value.finite) (by rw [v2]; omega)
      (by intro e; rw [List.map_eq_nil_iff] at e; rw [e] at hsl; simp at hsl)
      (by intro i _; rw [v3]; rfl) (by rw [v3]; rfl)
    refine ⟨sol, m, hobjvar, hnames, hsl, by rw [hnames, v1]; exact g1, ?_, ?_⟩
    · rw [g2, v3, v2]
    · intro hnd hobj
      obtain ⟨g4, g5⟩ := g3 hnd hobj
      refine ⟨?_, g5⟩
      intro i hi
      rw [g4 i hi, v3]

/-- C19, amended, on the model of `TestGetSolutionJSON`: after the successful `Solve` the map
is `x1 -> 2, x2 -> 6, objective -> 36`. -/
theorem C19_getSolutionJSON_witness :
    Solve 4 testSolveModel = some (none, testSolveSolved) ∧
    GetSolutionJSON testSolveSolved.VariableNames (ObjVarValues testSolveSolved)
      = some (.ok [("objective", .finite 36), ("x2", .finite 6), ("x1", .finite 2)]) ∧
    (∃ m, GetSolutionJSON ["x1", "x2"] (some [.finite 2, .finite 6, .finite 36]) = some (.ok m) ∧
      mapGet m "objective" = some (.finite 36) ∧
      (["x1", "x2"].Nodup → "objective" ∉ ["x1", "x2"] →
        (∀ i, i < 2 → mapGet m (["x1", "x2"].getD i "")
          = some (([.finite 2, .finite 6, .finite 36] : List Float64Value).getD i
              (.finite 0))) ∧
        (∀ key, key ∉ ["x1", "x2"] → key ≠ "objective" → mapGet m key = none))) ∧
    ∃ sol m, testSolveSolved.ObjVar = some sol ∧
      testSolveSolved.VariableNames = testSolveModel.VariableNames ∧
      sol.length = testSolveModel.VariableNames.length + 1 ∧
      GetSolutionJSON testSolveSolved.VariableNames (ObjVarValues testSolveSolved)
        = some (.ok m) ∧
      mapGet m "objective" = some (.finite (sol.getD (sol.length - 1) 0)) ∧
      (testSolveModel.VariableNames.Nodup → "objective" ∉ testSolveModel.VariableNames →
        (∀ i, i < testSolveModel.VariableNames.length →
          mapGet m (testSolveModel.VariableNames.getD i "") = some (.finite (sol.getD i 0))) ∧
        (∀ key, key ∉ testSolveModel.VariableNames → key ≠ "objective" →
          mapGet m key = none)) :=
  ⟨by decide!, by decide!,
    ((C19_getSolutionJSON ["x1", "x2"] (some [.finite 2, .finite 6, .finite 36])).2.2.1
      [.finite 2, .finite 6, .finite 36] rfl (by decide) (by decide)).1
      (by decide) (by decide),
    (C19_getSolutionJSON ["x1", "x2"]
      (some [.finite 2, .finite 6, .finite 36])).2.2.2.2.2 testSolveModel 4 testSolveSolved
      rfl (by decide) (by decide) (by decide!)⟩

/-! ## C20 -/

/-- A finite `float64` result is a value rounding fixes. -/
theorem toFloat64_fixed (x q : ℚ) (h : toFloat64 x = some q) : round64 q = q := by
  unfold toFloat64 at h
  split_ifs at h
  rw [← Option.some.inj h]
  exact round64_idem x

/-- The `float64` difference `q - epsilon` of a `float64` value `q` is not above `q`. -/
theorem round64_sub_epsilon_le (x q : ℚ) (h : toFloat64 x = some q) :
    round64 (q - epsilon) ≤ q := by
  have h1 := round64_mono (x := q - epsilon) (y := q) (by linarith [epsilon_pos])
  rw [toFloat64_fixed x q h] at h1
  exact h1

/-- The quotient of a candidate row is a `float64` value. -/
theorem leavingCandidate64_le (table : SimplexTable) (pivotCol i : Nat) (q : ℚ)
    (h : leavingCandidate64 table pivotCol i q) : round64 (q - epsilon) ≤ q := by
  obtain ⟨_, h2, _⟩ := h
  unfold rowRatio64 div64 at h2
  split_ifs at h2
  exact round64_sub_epsilon_le _ q h2

/-- The loop of `FindLeavingVariable` in `float64` arithmetic after `k` rows: either no row
below `k` is a candidate and nothing is held, or the row held is a candidate below `k`, no
candidate has a quotient below the rounded difference of the held quotient and `epsilon`, and
the row held is the first among the candidates with its own quotient. -/
theorem findLeaving64_loop_spec (table : SimplexTable) (pivotCol : Nat) (k : Nat) :
    ((List.range k).foldl
        (FindLeavingVariableStep64 table (pivotCol : Int) ((table.data.getD 0 []).length - 1))
        (none, -1) = (none, -1) ∧
      ∀ i, i < k → ∀ q, ¬ leavingCandidate64 table pivotCol i q) ∨
    (∃ (r : Nat) (qr : ℚ), r < k ∧
      (List.range k).foldl
        (FindLeavingVariableStep64 table (pivotCol : Int) ((table.data.getD 0 []).length - 1))
        (none, -1) = (some qr, (r : Int)) ∧
      leavingCandidate64 table pivotCol r qr ∧
      (∀ i, i < k → ∀ q, leavingCandidate64 table pivotCol i q →
        round64 (qr - epsilon) ≤ q) ∧
      (∀ i, i < k → ∀ q, leavingCandidate64 table pivotCol i q → q = qr → r ≤ i)) := by
  induction k with
  | zero => left; exact ⟨rfl, fun i hi => absurd hi (Nat.not_lt_zero i)⟩
  | succ k ih =>
    rw [foldl_range_succ]
    generalize (List.range k).foldl
      (FindLeavingVariableStep64 table (pivotCol : Int) ((table.data.getD 0 []).length - 1))
      (none, -1) = st at ih ⊢
    by_cases hc : ∃ q, leavingCandidate64 table pivotCol k q
    · obtain ⟨qk, hck⟩ := hc
      obtain ⟨hc1, hc2, hc3⟩ := hck
      have hc2' : div64 (entry table.data k ((table.data.getD 0 []).length - 1))
          (entry table.data k pivotCol) = some qk := hc2
      have hself := leavingCandidate64_le table pivotCol k qk ⟨hc1, hc2, hc3⟩
      have huniq : ∀ q, leavingCandidate64 table pivotCol k q → q = qk := by
        intro q hq
        have := hq.2.1
        rw [hc2] at this
        exact (Option.some.inj this).symm
      rcases ih with ⟨hst, hnone⟩ | ⟨r, qr, hr, hst, hcr, hmin, htie⟩
      · right
        refine ⟨k, qk, Nat.lt_succ_self k, ?_, ⟨hc1, hc2, hc3⟩, ?_, ?_⟩
        · rw [hst]
          simp only [FindLeavingVariableStep64, Int.toNat_ofNat, gt_iff_lt, hc1, if_true, hc2',
            ge_iff_le, hc3]
        · intro i hi q hci
          by_cases hik : i = k
          · subst hik
            rw [huniq q hci]
            exact hself
          · exact absurd hci (hnone i (by omega) q)
        · intro i hi q hci _
          by_cases hik : i = k
          · omega
          · exact absurd hci (hnone i (by omega) q)
      · by_cases hlt : qk < round64 (qr - epsilon)
        · right
          refine ⟨k, qk, Nat.lt_succ_self k, ?_, ⟨hc1, hc2, hc3⟩, ?_, ?_⟩
          · rw [hst]
            simp only [FindLeavingVariableStep64, Int.toNat_ofNat, gt_iff_lt, hc1, if_true,
              hc2', ge_iff_le, hc3, hlt]
          · intro i hi q hci
            by_cases hik : i = k
            · subst hik
              rw [huniq q hci]
              exact hself
            · have := hmin i (by omega) q hci
              linarith
          · intro i hi q hci heq
            by_cases hik : i = k
            · omega
            · have := hmin i (by omega) q hci
              linarith
        · right
          refine ⟨r, qr, by omega, ?_, hcr, ?_, ?_⟩
          · rw [hst]
            simp only [FindLeavingVariableStep64, Int.toNat_ofNat, gt_iff_lt, hc1, if_true,
              hc2', ge_iff_le, hc3, hlt, if_false]
          · intro i hi q hci
            by_cases hik : i = k
            · subst hik
              rw [huniq q hci]
              exact not_lt.mp hlt
            · exact hmin i (by omega) q hci
          · intro i hi q hci heq
            by_cases hik : i = k
            · omega
            · exact htie i (by omega) q hci heq
    · have hnot : ∀ q, ¬ leavingCandidate64 table pivotCol k q := fun q hq => hc ⟨q, hq⟩
      have hstep : FindLeavingVariableStep64 table (pivotCol : Int)
          ((table.data.getD 0 []).length - 1) st k = st := by
        simp only [FindLeavingVariableStep64, Int.toNat_ofNat, gt_iff_lt]
        by_cases h1 : epsilon < entry table.data k pivotCol
        · rw [if_pos h1]
          cases hd : div64 (entry table.data k ((table.data.getD 0 []).length - 1))
              (entry table.data k pivotCol) with
          | none => rfl
          | some ratio =>
            have h2 : ¬ ratio ≥ -epsilon := fun h => hnot ratio ⟨h1, hd, h⟩
            simp only [h2, if_false]
        · rw [if_neg h1]
      rw [hstep]
      rcases ih with ⟨hst, hnone⟩ | ⟨r, qr, hr, hst, hcr, hmin, htie⟩
      · left
        refine ⟨hst, ?_⟩
        intro i hi q
        by_cases hik : i = k
        · rw [hik]; exact hnot q
        · exact hnone i (by omega) q
      · right
        refine ⟨r, qr, by omega, hst, hcr, ?_, ?_⟩
        · intro i hi q hci
          by_cases hik : i = k
          · rw [hik] at hci; exact absurd hci (hnot q)
          · exact hmin i (by omega) q hci
        · intro i hi q hci heq
          by_cases hik : i = k
          · rw [hik] at hci; exact absurd hci (hnot q)
          · exact htie i (by omega) q hci heq

/-- C20 as stated fails, in three ways.  In `negativeRhsTable` the constraint row `0` has the
entry `1`, above `epsilon`, in column `0`, yet `FindLeavingVariable` returns `-1` for that
column, in `float64` as in exact arithmetic, because the quotient `-1 / 1` is below
`-epsilon`.  In `overflowTable` the constraint row `0` has the entry `2^-10`, above `epsilon`,
and `FindLeavingVariable` returns `-1` in `float64` arithmetic, because the quotient
`2^1023 / 2^-10` is not finite.  In `closeRatiosTable` both constraint rows have the entry
`1`, and `FindLeavingVariable` returns row `0` in `float64` arithmetic although the quotient
of row `1` is smaller by `2^-33`, which is more than `epsilon`: the difference
`600000 - epsilon` is rounded to `600000 - 2^-33`. -/
theorem C20_counterexample :
    (0 < negativeRhsTable.data.length - 1 ∧
      epsilon < entry negativeRhsTable.data 0 0 ∧
      FindLeavingVariable64 negativeRhsTable 0 = -1 ∧
      FindLeavingVariable negativeRhsTable 0 = -1) ∧
    (0 < overflowTable.data.length - 1 ∧
      epsilon < entry overflowTable.data 0 0 ∧
      rowRatio64 overflowTable 0 0 = none ∧
      FindLeavingVariable64 overflowTable 0 = -1) ∧
    (epsilon < entry closeRatiosTable.data 0 0 ∧
      epsilon < entry closeRatiosTable.data 1 0 ∧
      rowRatio64 closeRatiosTable 0 0 = some 600000 ∧
      rowRatio64 closeRatiosTable 0 1 = some (600000 - 1 / 2 ^ 33) ∧
      (600000 - 1 / 2 ^ 33 : ℚ) < 600000 - epsilon ∧
      FindLeavingVariable64 closeRatiosTable 0 = 0) := by
  refine ⟨⟨by decide!, by decide!, by decide!, by decide!⟩,
    ⟨by decide!, by decide!, by decide!, by decide!⟩,
    ⟨by decide!, by decide!, by decide!, by decide!, by decide!, by decide!⟩⟩

/-- C20, amended: for every table and pivot column, in `float64` arithmetic, the candidates
of `FindLeavingVariable` are the constraint rows whose pivot-column entry is above `epsilon`
and whose `float64` quotient `rhs / entry` is finite and at least `-epsilon`; it returns `-1`
exactly when there is no candidate; otherwise it returns a candidate row such that no
candidate has a quotient below the `float64` difference of the returned row's quotient and
`epsilon`, and which has the smallest index among the candidates whose quotient equals its
own. -/
theorem C20_findLeaving64 (table : SimplexTable) (pivotCol : Nat) :
    (FindLeavingVariable64 table (pivotCol : Int) = -1 ↔
      ∀ i, i < table.data.length - 1 → ∀ q, ¬ leavingCandidate64 table pivotCol i q) ∧
    (FindLeavingVariable64 table (pivotCol : Int) = -1 ∨
      ∃ r : Nat, FindLeavingVariable64 table (pivotCol : Int) = (r : Int)) ∧
    (∀ r : Nat, FindLeavingVariable64 table (pivotCol : Int) = (r : Int) →
      r < table.data.length - 1 ∧
      ∃ qr, leavingCandidate64 table pivotCol r qr ∧
        (∀ i, i < table.data.length - 1 → ∀ q, leavingCandidate64 table pivotCol i q →
          round64 (qr - epsilon) ≤ q) ∧
        (∀ i, i < table.data.length - 1 → ∀ q, leavingCandidate64 table pivotCol i q →
          q = qr → r ≤ i)) := by
  unfold FindLeavingVariable64
  simp only []
  rcases findLeaving64_loop_spec table pivotCol (table.data.length - 1) with
    ⟨hst, hnone⟩ | ⟨r, qr, hr, hst, hcr, hmin, htie⟩
  · rw [hst]
    refine ⟨⟨fun _ => hnone, fun _ => rfl⟩, Or.inl rfl, ?_⟩
    intro r hr
    simp only at hr
    omega
  · rw [hst]
    refine ⟨⟨?_, ?_⟩, Or.inr ⟨r, rfl⟩, ?_⟩
    · intro h
      simp only at h
      omega
    · intro h
      exact absurd hcr (h r hr qr)
    · intro r1 hr1
      simp only [Nat.cast_inj] at hr1
      subst hr1
      exact ⟨hr, qr, hcr, hmin, htie⟩

/-- C20, amended, on the first table of `TestSolve` and the entering column `0`: the
candidates are row `0` with the quotient `4` and row `2` with the quotient `6`, and row `0`
is returned. -/
theorem C20_findLeaving64_witness :
    FindLeavingVariable64 (InitializeTableau (ToSlackForm testSolveModel)).1 0 = 0 ∧
    (0 < (InitializeTableau (ToSlackForm testSolveModel)).1.data.length - 1 ∧
      ∃ qr, leavingCandidate64 (InitializeTableau (ToSlackForm testSolveModel)).1 0 0 qr ∧
        (∀ i, i < (InitializeTableau (ToSlackForm testSolveModel)).1.data.length - 1 →
          ∀ q, leavingCandidate64 (InitializeTableau (ToSlackForm testSolveModel)).1 0 i q →
            round64 (qr - epsilon) ≤ q) ∧
        (∀ i, i < (InitializeTableau (ToSlackForm testSolveModel)).1.data.length - 1 →
          ∀ q, leavingCandidate64 (InitializeTableau (ToSlackForm testSolveModel)).1 0 i q →
            q = qr → 0 ≤ i)) :=
  ⟨by decide!,
    (C20_findLeaving64 (InitializeTableau (ToSlackForm testSolveModel)).1 0).2.2 0
      (by decide!)⟩

/-! ## C21 -/

/-- C21: `PerformPivot` is a Gauss-Jordan step. For every table of `R` rows of `C` entries
each and every `row < R`, `col < C` with `data[row][col] != 0`, after
`PerformPivot(row, col)` the table has the same shape, the pivot row is the old pivot row
divided by the old `data[row][col]`, every other row `i` (the objective row included) is the
old row `i` minus the old `data[i][col]` times the new pivot row, and column `col` is the unit
vector with `1` at `row` and `0` in every other row; `basicVariables` is not touched. -/
theorem C21_performPivot_gauss_jordan (t : SimplexTable) (R C row col : Nat)
    (h : Rect t.data R C) (hrow : row < R) (hcol : col < C)
    (hp : entry t.data row col ≠ 0) :
    Rect (PerformPivot t (row : Int) (col : Int)).data R C ∧
    (PerformPivot t (row : Int) (col : Int)).basicVariables = t.basicVariables ∧
    (∀ j, j < C → entry (PerformPivot t (row : Int) (col : Int)).data row j
      = entry t.data row j / entry t.data row col) ∧
    (∀ i, i < R → i ≠ row → ∀ j, j < C →
      entry (PerformPivot t (row : Int) (col : Int)).data i j
        = entry t.data i j
          - entry t.data i col * entry (PerformPivot t (row : Int) (col : Int)).data row j) ∧
    (∀ i, i < R → entry (PerformPivot t (row : Int) (col : Int)).data i col
      = if i = row then 1 else 0) := by
  obtain ⟨hrect, hbv, hent⟩ := performPivot_entry h (by omega) (row : Int) (col : Int)
    (by simpa using hrow)
  simp only [Int.toNat_ofNat] at hent
  refine ⟨hrect, hbv, ?_, ?_, ?_⟩
  · intro j hj
    rw [hent row j hrow hj, if_pos rfl]
  · intro i hi hne j hj
    rw [hent i j hi hj, if_neg hne, hent row j hrow hj, if_pos rfl]
  · intro i hi
    rw [hent i col hi hcol]
    by_cases hir : i = row
    · rw [if_pos hir, if_pos hir, div_self hp]
    · rw [if_neg hir, if_neg hir, div_self hp, mul_one, sub_self]

/-- C21 on the first table of `TestSolve`, pivoting on row `1`, column `1` (the entry `2`). -/
theorem C21_performPivot_gauss_jordan_witness :
    Rect (InitializeTableau (ToSlackForm testSolveModel)).1.data 4 6 ∧
    entry (InitializeTableau (ToSlackForm testSolveModel)).1.data 1 1 ≠ 0 ∧
    Rect (PerformPivot (InitializeTableau (ToSlackForm testSolveModel)).1 1 1).data 4 6 ∧
    (PerformPivot (InitializeTableau (ToSlackForm testSolveModel)).1 1 1).basicVariables
      = (InitializeTableau (ToSlackForm testSolveModel)).1.basicVariables ∧
    (∀ j, j < 6 →
      entry (PerformPivot (InitializeTableau (ToSlackForm testSolveModel)).1 1 1).data 1 j
        = entry (InitializeTableau (ToSlackForm testSolveModel)).1.data 1 j
          / entry (InitializeTableau (ToSlackForm testSolveModel)).1.data 1 1) ∧
    (∀ i, i < 4 → i ≠ 1 → ∀ j, j < 6 →
      entry (PerformPivot (InitializeTableau (ToSlackForm testSolveModel)).1 1 1).data i j
        = entry (InitializeTableau (ToSlackForm testSolveModel)).1.data i j
          - entry (InitializeTableau (ToSlackForm testSolveModel)).1.data i 1
            * entry (PerformPivot (InitializeTableau (ToSlackForm testSolveModel)).1 1 1).data
                1 j) ∧
    (∀ i, i < 4 →
      entry (PerformPivot (InitializeTableau (ToSlackForm testSolveModel)).1 1 1).data i 1
        = if i = 1 then 1 else 0) :=
  ⟨⟨by decide!, by decide!⟩, by decide!,
    C21_performPivot_gauss_jordan (InitializeTableau (ToSlackForm testSolveModel)).1 4 6 1 1
      ⟨by decide!, by decide!⟩ (by decide) (by decide) (by decide!)⟩

/-! ## C22 -/

/-- C22: canonicalization preserves the feasible set. For every well-formed model in state
`Undefined` and every point `x`, the point satisfies every constraint of the model (reading
`<` as `<=` and `>` as `>=`) if and only if it satisfies every row `a . x <= b` of the model
after `ToCanonicalForm`, that is, every constraint of the canonical form, all of whose
comparisons are `LE`. -/
theorem C22_canonical_preserves_feasible_set (lp : LinearProgram)
    (hS : lp.State = .Undefined) (hw : WellFormed lp) (x : List ℚ) :
    (SatisfiesConstraints lp x ↔
      ∀ k, k < (ToCanonicalForm lp).NbConstraints →
        dot ((ToCanonicalForm lp).ConstraintCoeff.getD k []) x
          ≤ (ToCanonicalForm lp).Rhs.getD k 0) ∧
    (SatisfiesConstraints lp x ↔ SatisfiesConstraints (ToCanonicalForm lp) x) := by
  obtain ⟨_, _, _, _, _, k6⟩ := canonical_wellFormed lp hS hw
  have h1 := canonical_holds_iff lp hS hw x
  refine ⟨h1.symm, ?_⟩
  rw [← h1]
  unfold SatisfiesConstraints
  constructor
  · intro h k hk
    rw [k6 k hk]
    exact h k hk
  · intro h k hk
    have := h k hk
    rw [k6 k hk] at this
    exact this

/-- C22 on the model of `TestToCanonicalForm` at the point `(5, 5)`, which satisfies
`x + y >= 10` and `2*x + y <= 15`. -/
theorem C22_canonical_preserves_feasible_set_witness :
    testCanonicalModel.State = .Undefined ∧ WellFormed testCanonicalModel ∧
    SatisfiesConstraints testCanonicalModel [5, 5] ∧
    (SatisfiesConstraints testCanonicalModel [5, 5] ↔
      ∀ k, k < (ToCanonicalForm testCanonicalModel).NbConstraints →
        dot ((ToCanonicalForm testCanonicalModel).ConstraintCoeff.getD k []) [5, 5]
          ≤ (ToCanonicalForm testCanonicalModel).Rhs.getD k 0) ∧
    (SatisfiesConstraints testCanonicalModel [5, 5] ↔
      SatisfiesConstraints (ToCanonicalForm testCanonicalModel) [5, 5]) :=
  ⟨by decide, by decide, by decide!,
    C22_canonical_preserves_feasible_set testCanonicalModel (by decide) (by decide) [5, 5]⟩

/-! ## The verdict `"infeasible problem"` -/

/-- `IsInitiallyFeasible` on the table of a slack form: no right-hand side of the slack form
is negative. -/
theorem firstTable_feasible_iff (lp : LinearProgram) :
    IsInitiallyFeasible (InitializeTableau (ToSlackForm lp)).1 = true ↔
      ∀ i, i < (ToSlackForm lp).NbConstraints → 0 ≤ (ToSlackForm lp).Rhs.getD i 0 := by
  have hS := toSlack_state lp
  rw [isInitiallyFeasible_iff, initializeTableau_length _ hS,
    initializeTableau_row_length _ hS 0 (Nat.zero_le _)]
  simp only [Nat.add_sub_cancel]
  constructor
  · intro h i hi
    have := h i hi
    rw [initializeTableau_entry _ hS] at this
    simpa [hi] using this
  · intro h i hi
    rw [initializeTableau_entry _ hS]
    simpa [hi] using h i hi

/-- The right-hand sides of the `<=` rows made of one row, after the sign normalisation of
`EnsureNonNegativeRhs`: none is negative exactly when the row is not a rejected one. -/
theorem leRows_rhs_nonneg (comp : Comparison) (a : List ℚ) (b : ℚ) :
    (∀ p ∈ leRows (if b < 0 then FlipComparison comp else comp)
        (if b < 0 then MultiplyRow a (-1) else a) (if b < 0 then b * (-1) else b),
      0 ≤ p.2) ↔ ¬ rejectedRow comp b := by
  by_cases hneg : b < 0
  · simp only [hneg, if_true]
    cases comp <;>
      simp only [FlipComparison, leRows, rejectedRow, List.mem_cons, List.mem_singleton,
        List.not_mem_nil, or_false, forall_eq_or_imp, forall_eq] <;>
      first
        | (constructor
           · intro h; linarith [h.1, h.2]
           · intro h; exact absurd (ne_of_lt hneg) h)
        | (constructor
           · intro h; linarith
           · intro h; exact absurd hneg h)
        | (constructor
           · intro _; linarith
           · intro _; linarith)
  · simp only [hneg, if_false]
    have h0 : 0 ≤ b := not_lt.mp hneg
    cases comp <;>
      simp only [leRows, rejectedRow, List.mem_cons, List.mem_singleton,
        List.not_mem_nil, or_false, forall_eq_or_imp, forall_eq] <;>
      first
        | (constructor
           · intro h
             have h1 := h.1
             have h2 := h.2
             intro hb
             apply hb
             linarith
           · intro h
             have : b = 0 := not_not.mp h
             subst this
             simp)
        | (constructor
           · intro _; exact hneg
           · intro _; exact h0)
        | (constructor
           · intro h; linarith
           · intro h; linarith)

/-- For a well-formed model in state `Undefined`, the first table is feasible exactly when
the model has no rejected row. -/
theorem firstTable_feasible_iff_rows (lp : LinearProgram) (hS : lp.State = .Undefined)
    (hw : WellFormed lp) :
    IsInitiallyFeasible (InitializeTableau (ToSlackForm lp)).1 = true ↔
      ∀ i, i < lp.NbConstraints →
        ¬ rejectedRow (lp.Comparisons.getD i .EQ) (lp.Rhs.getD i 0) := by
  obtain ⟨s1, _, s3, _⟩ := toSlack_fields lp hS hw
  obtain ⟨_, c2, _, c4, _⟩ := toCanonical_fields lp hS
  obtain ⟨_, w2, w3, w4, _⟩ := hw
  obtain ⟨_, _, _, _, _, m6, m7, m8, _⟩ := ensureMax_frame lp
  obtain ⟨_, _, hrow⟩ := ensure_spec (EnsureMaximization lp) (by rw [m7, m8, w4, w2])
    (by rw [m6, m8, w3, w2])
  rw [firstTable_feasible_iff, s1, s3, c2, c4]
  have hP := forall_pairs_iff ((List.range lp.NbConstraints).flatMap
    (leRowsAt (EnsureNonNegativeRhs (EnsureMaximization lp)))) (fun _ b => 0 ≤ b)
  simp only at hP
  rw [hP]
  have hrowiff : ∀ i,
      (∀ p ∈ leRowsAt (EnsureNonNegativeRhs (EnsureMaximization lp)) i, 0 ≤ p.2) ↔
        ¬ rejectedRow (lp.Comparisons.getD i .EQ) (lp.Rhs.getD i 0) := by
    intro i
    obtain ⟨r1, r2, r3⟩ := hrow i
    unfold leRowsAt
    rw [r1, r2, r3, m6, m7, m8]
    exact leRows_rhs_nonneg _ _ _
  constructor
  · intro h i hi
    rw [← hrowiff i]
    intro p hp
    exact h p (List.mem_flatMap.mpr ⟨i, List.mem_range.mpr hi, hp⟩)
  · intro h p hp
    obtain ⟨i, hi, hp⟩ := List.mem_flatMap.mp hp
    exact (hrowiff i).mpr (h i (List.mem_range.mp hi)) p hp

/-- The verdict `"infeasible problem"` of `Solve` is that of `IsInitiallyFeasible` on the
first table, whatever the fuel. -/
theorem solve_infeasible_iff (lp : LinearProgram) (fuel : Nat) :
    (∃ lp1, Solve fuel lp = some (some "infeasible problem", lp1)) ↔
      IsInitiallyFeasible (InitializeTableau (ToSlackForm lp)).1 = false := by
  have hS := toSlack_state lp
  constructor
  · rintro ⟨lp1, h⟩
    simp only [Solve, Option.map_eq_some', Prod.mk.injEq] at h
    obtain ⟨r, hr, he, _⟩ := h
    simp only [SolveRunOf, initializeTableau_problem _ hS] at hr
    by_cases hf : IsInitiallyFeasible (InitializeTableau (ToSlackForm lp)).1 = true
    · simp only [hf, Bool.not_true, Bool.false_eq_true, if_false] at hr
      rcases solveLoop_result _ _ _ _ _ _ hr with ⟨h1, _⟩ | ⟨h1, _, _⟩
      · rw [he] at h1
        exact absurd h1 (by decide)
      · rw [he] at h1
        exact absurd h1 (by decide)
    · simpa using hf
  · intro hf
    refine ⟨ToSlackForm lp, ?_⟩
    simp [Solve, SolveRunOf, hf, initializeTableau_problem _ hS]

/-! ## C23 -/

/-- The slack form of the canonical form is the slack form. -/
theorem toSlack_toCanonical (lp : LinearProgram) :
    ToSlackForm (ToCanonicalForm lp) = ToSlackForm lp := by
  by_cases hS : lp.State = .Undefined
  · have hC : (ToCanonicalForm lp).State = .Canonical := (toCanonical_fields lp hS).2.2.2.2.2.2
    have h1 : ToSlackForm lp =
      { ConvertToEqualities (ToCanonicalForm lp) with State := .Slack } := by
      unfold ToSlackForm
      simp [hS]
    rw [h1]
    generalize ToCanonicalForm lp = q at hC ⊢
    unfold ToSlackForm
    simp [hC]
  · rw [toCanonical_noop lp hS]

/-- The slack form of the slack form is the slack form. -/
theorem toSlack_toSlack (lp : LinearProgram) :
    ToSlackForm (ToSlackForm lp) = ToSlackForm lp := by
  have h1 := toSlack_state lp
  generalize ToSlackForm lp = q at h1 ⊢
  unfold ToSlackForm
  rw [if_pos h1]

/-- The slack form of a model in state `Undefined` maximizes. -/
theorem toSlack_objective (lp : LinearProgram) (hS : lp.State = .Undefined) :
    (ToSlackForm lp).Objective = .MAXIMIZE := by
  have h1 : ToSlackForm lp =
      { ConvertToEqualities (ToCanonicalForm lp) with State := .Slack } := by
    unfold ToSlackForm
    simp [hS]
  rw [h1]
  show (ConvertToEqualities (ToCanonicalForm lp)).Objective = _
  unfold ConvertToEqualities
  rw [(convertEq_loop_frame _ _).2.2.1]
  exact toCanonical_objective lp hS

/-- `Solve` in terms of the slack form of its argument and of the direction the argument has
at the call. -/
theorem solveRunOf_eq (fuel : Nat) (lp : LinearProgram) :
    SolveRunOf fuel lp =
      if IsInitiallyFeasible (InitializeTableau (ToSlackForm lp)).1 = true then
        solveLoop lp.Objective (ToSlackForm lp) fuel (InitializeTableau (ToSlackForm lp)).1 0
      else
        some { err := some "infeasible problem", lp := ToSlackForm lp,
               table := (InitializeTableau (ToSlackForm lp)).1, pivots := 0 } := by
  simp only [SolveRunOf, initializeTableau_problem _ (toSlack_state lp)]
  by_cases hf : IsInitiallyFeasible (InitializeTableau (ToSlackForm lp)).1 = true
  · simp [hf]
  · simp [hf]

/-- A successful run of the loop of `Solve` under another remembered direction: the same
passes and the same last table, and `ObjVar` written for that direction. -/
theorem solveLoop_direction (o o2 : Objectiv) (lp : LinearProgram) :
    ∀ (fuel : Nat) (table : SimplexTable) (pivots : Nat) (r : SolveRun),
      solveLoop o lp fuel table pivots = some r → r.err = none →
      solveLoop o2 lp fuel table pivots =
        some { err := none
               lp := { lp with
                       ObjVar := some (if o2 = .MINIMIZE
                                       then negateLast (ExtractSolution r.table lp)
                                       else ExtractSolution r.table lp)
                       State := .Undefined }
               table := r.table
               pivots := r.pivots } := by
  intro fuel
  induction fuel with
  | zero => intro table pivots r h; simp [solveLoop] at h
  | succ n ih =>
    intro table pivots r h he
    simp only [solveLoop] at h ⊢
    by_cases h1 : FindEnteringVariable table = -1
    · simp only [h1, if_true, Option.some.injEq] at h ⊢
      subst h
      trivial
    · by_cases h2 : FindLeavingVariable table (FindEnteringVariable table) = -1
      · simp only [h1, h2, if_true, if_false, Option.some.injEq] at h
        subst h
        simp at he
      · simp only [h1, h2, if_false] at h ⊢
        exact ih _ _ _ h he

/-- A successful `Solve` of a model with the same slack form as `lp` that maximizes at the
call, from a successful `Solve` of `lp`. -/
theorem solve_of_same_slack (fuel : Nat) (lp lp2 : LinearProgram)
    (hsl : ToSlackForm lp2 = ToSlackForm lp) (hmax : lp2.Objective = .MAXIMIZE)
    (r : SolveRun) (hr : SolveRunOf fuel lp = some r) (he : r.err = none) :
    Solve fuel lp2 =
      some (none, { ToSlackForm lp with
                    ObjVar := some (ExtractSolution r.table (ToSlackForm lp))
                    State := .Undefined }) := by
  rw [solveRunOf_eq] at hr
  unfold Solve
  rw [solveRunOf_eq, hsl, hmax]
  by_cases hf : IsInitiallyFeasible (InitializeTableau (ToSlackForm lp)).1 = true
  · rw [if_pos hf] at hr ⊢
    rw [solveLoop_direction _ .MAXIMIZE _ _ _ _ _ hr he]
    simp
  · rw [if_neg hf] at hr
    simp only [Option.some.injEq] at hr
    rw [← hr] at he
    simp at he

/-! ## C24 -/

/-- C24: `Solve` remembers the direction of optimisation as it is at the call. For every
model in state `Undefined` that minimizes and on which `Solve` succeeds, `ObjVar` is then a
list of variable values followed by a last element `z`; when the caller first applies
`ToCanonicalForm`, or first applies `ToSlackForm`, and then `Solve`, the call succeeds with
the same fuel and leaves the same model with the same variable values, but with last element
`-z`: the value of the maximized, sign-flipped objective. -/
theorem C24_direction_at_call_time (lp : LinearProgram) (hS : lp.State = .Undefined)
    (hm : lp.Objective = .MINIMIZE) (fuel : Nat) (lp1 : LinearProgram)
    (h : Solve fuel lp = some (none, lp1)) :
    ∃ (vals : List ℚ) (z : ℚ), lp1.ObjVar = some (vals ++ [z]) ∧
      Solve fuel (ToCanonicalForm lp)
        = some (none, { lp1 with ObjVar := some (vals ++ [-z]) }) ∧
      Solve fuel (ToSlackForm lp)
        = some (none, { lp1 with ObjVar := some (vals ++ [-z]) }) := by
  obtain ⟨r, hr, he, hlp⟩ := solve_some_none fuel lp lp1 h
  have h1 := solve_of_same_slack fuel lp (ToCanonicalForm lp) (toSlack_toCanonical lp)
    (toCanonical_objective lp hS) r hr he
  have h2 := solve_of_same_slack fuel lp (ToSlackForm lp) (toSlack_toSlack lp)
    (toSlack_objective lp hS) r hr he
  have hr2 := hr
  rw [solveRunOf_eq] at hr2
  have hlp1 : lp1 = { ToSlackForm lp with
      ObjVar := some (negateLast (ExtractSolution r.table (ToSlackForm lp)))
      State := .Undefined } := by
    by_cases hf : IsInitiallyFeasible (InitializeTableau (ToSlackForm lp)).1 = true
    · rw [if_pos hf] at hr2
      rcases solveLoop_result _ _ _ _ _ _ hr2 with ⟨e1, _⟩ | ⟨_, _, e3⟩
      · rw [he] at e1
        simp at e1
      · rw [← hlp, e3, hm]
        simp
    · rw [if_neg hf] at hr2
      simp only [Option.some.injEq] at hr2
      rw [← hr2] at he
      simp at he
  obtain ⟨vals, zt, hex⟩ : ∃ (vals : List ℚ) (zt : ℚ),
      ExtractSolution r.table (ToSlackForm lp) = vals ++ [zt] := ⟨_, _, rfl⟩
  rw [hex] at h1 h2 hlp1
  rw [negateLast_append] at hlp1
  refine ⟨vals, zt * (-1), by rw [hlp1], ?_, ?_⟩
  · rw [h1, hlp1]
    simp
  · rw [h2, hlp1]
    simp

/-- C24 on `minimizeModel`: `Solve` writes `[2, 6, -36]`, and after `ToCanonicalForm` or
`ToSlackForm` it writes `[2, 6, 36]`. -/
theorem C24_direction_at_call_time_witness :
    minimizeModel.State = .Undefined ∧ minimizeModel.Objective = .MINIMIZE ∧
    Solve 4 minimizeModel
      = some (none, { ToSlackForm minimizeModel with
                      ObjVar := some [2, 6, -36], State := .Undefined }) ∧
    ∃ (vals : List ℚ) (z : ℚ),
      ({ ToSlackForm minimizeModel with
         ObjVar := some [2, 6, -36], State := .Undefined } : LinearProgram).ObjVar
        = some (vals ++ [z]) ∧
      Solve 4 (ToCanonicalForm minimizeModel)
        = some (none, { ({ ToSlackForm minimizeModel with
                           ObjVar := some [2, 6, -36], State := .Undefined } : LinearProgram)
                        with ObjVar := some (vals ++ [-z]) }) ∧
      Solve 4 (ToSlackForm minimizeModel)
        = some (none, { ({ ToSlackForm minimizeModel with
                           ObjVar := some [2, 6, -36], State := .Undefined } : LinearProgram)
                        with ObjVar := some (vals ++ [-z]) }) :=
  ⟨by decide, by decide, by decide!,
    C24_direction_at_call_time minimizeModel (by decide) (by decide) 4 _ (by decide!)⟩

/-! ## The slack form of a well-formed model, in any state -/

/-- The rows after `appendColumn` have one more entry each. -/
theorem appendColumn_rows_length (rows : List (List ℚ)) (idx : Nat) (u : ℚ) (n : Nat)
    (h : ∀ row ∈ rows, row.length = n) :
    ∀ row ∈ appendColumn rows idx u, row.length = n + 1 := by
  obtain ⟨a1, a2⟩ := appendColumn_spec rows idx u
  apply forall_mem_of_getD (fun row => row.length = n + 1) _ []
  intro i hi
  rw [a1] at hi
  rw [a2 i hi, List.length_append, List.length_singleton]
  congr 1
  rw [List.getD_eq_getElem rows [] hi]
  exact h _ (List.getElem_mem hi)

/-- One iteration of `ConvertToEqualities` keeps a well-formed model well-formed and labels
its row `EQ`. -/
theorem convertEqStep_wellFormed (q : LinearProgram) (k : Nat) (hw : WellFormed q) :
    WellFormed (ConvertToEqualitiesStep q k) ∧
    ∀ i, (ConvertToEqualitiesStep q k).Comparisons.getD i .EQ
      = if i = k then .EQ else q.Comparisons.getD i .EQ := by
  obtain ⟨w1, w2, w3, w4, w5⟩ := hw
  have hslack : ∀ u : ℚ, q.Comparisons.getD k .EQ ≠ .EQ →
      WellFormed { q with
        NbVariables := q.NbVariables + 1
        SlackVariablesNames :=
          q.SlackVariablesNames ++ [slackName (q.SlackVariablesNames.length + 1)]
        ObjCoeff := q.ObjCoeff ++ [0]
        ConstraintCoeff := appendColumn q.ConstraintCoeff k u
        Comparisons := q.Comparisons.set k .EQ } ∧
      ∀ i, (q.Comparisons.set k .EQ).getD i .EQ
        = if i = k then .EQ else q.Comparisons.getD i .EQ := by
    intro u hne
    have hk : k < q.Comparisons.length := by
      by_contra hge
      exact hne (List.getD_eq_default _ _ (by omega))
    refine ⟨⟨?_, w2, ?_, ?_, ?_⟩, ?_⟩
    · show (q.ObjCoeff ++ [0]).length = q.NbVariables + 1
      rw [List.length_append, w1]
      rfl
    · show (q.Comparisons.set k .EQ).length = q.NbConstraints
      rw [List.length_set, w3]
    · show (appendColumn q.ConstraintCoeff k u).length = q.NbConstraints
      rw [(appendColumn_spec _ _ _).1, w4]
    · exact appendColumn_rows_length _ _ _ _ w5
    · intro i
      rw [getD_set_ite]
      by_cases hik : i = k
      · subst hik
        simp only [hk, and_self, if_true]
      · have hki : ¬ k = i := fun e => hik e.symm
        simp only [hki, hik, false_and, if_false]
  unfold ConvertToEqualitiesStep
  cases hc : q.Comparisons.getD k .EQ with
  | EQ =>
    refine ⟨⟨w1, w2, w3, w4, w5⟩, ?_⟩
    intro i
    by_cases hik : i = k
    · rw [if_pos hik, hik, hc]
    · rw [if_neg hik]
  | LO => exact hslack 1 (by rw [hc]; decide)
  | LE => exact hslack 1 (by rw [hc]; decide)
  | BI => exact hslack (-1) (by rw [hc]; decide)
  | BE => exact hslack (-1) (by rw [hc]; decide)

/-- The loop of `ConvertToEqualities` after `k` rows, on a well-formed model with any
comparisons: the model stays well-formed and the rows below `k` are labelled `EQ`. -/
theorem convertEq_loop_wellFormed (lp : LinearProgram) (hw : WellFormed lp) (k : Nat) :
    WellFormed ((List.range k).foldl ConvertToEqualitiesStep lp) ∧
    ∀ i, ((List.range k).foldl ConvertToEqualitiesStep lp).Comparisons.getD i .EQ
      = if i < k then .EQ else lp.Comparisons.getD i .EQ := by
  induction k with
  | zero => exact ⟨hw, by intro i; simp⟩
  | succ k ih =>
    obtain ⟨h1, h2⟩ := ih
    rw [foldl_range_succ]
    generalize (List.range k).foldl ConvertToEqualitiesStep lp = q at h1 h2 ⊢
    obtain ⟨s1, s2⟩ := convertEqStep_wellFormed q k h1
    refine ⟨s1, ?_⟩
    intro i
    rw [s2 i, h2 i]
    by_cases hik : i = k
    · subst hik
      simp
    · have hlt : (i < k + 1) ↔ (i < k) := by omega
      simp only [hik, if_false, hlt]

/-- When every `<=` row made of one row has right-hand side `0`, the row has. -/
theorem leRows_rhs_zero (comp : Comparison) (a : List ℚ) (b : ℚ)
    (h : ∀ p ∈ leRows comp a b, p.2 = 0) : b = 0 := by
  cases comp <;> simp [leRows] at h <;> exact h

/-- A non-zero right-hand side of a well-formed model in state `Undefined` leaves a non-zero
right-hand side in its canonical form. -/
theorem canonical_rhs_nonzero (lp : LinearProgram) (hS : lp.State = .Undefined)
    (hw : WellFormed lp) (h : ∃ i, i < lp.NbConstraints ∧ lp.Rhs.getD i 0 ≠ 0) :
    ∃ k, k < (ToCanonicalForm lp).NbConstraints ∧ (ToCanonicalForm lp).Rhs.getD k 0 ≠ 0 := by
  obtain ⟨_, c2, _, c4, _⟩ := toCanonical_fields lp hS
  obtain ⟨_, w2, w3, w4, _⟩ := hw
  obtain ⟨_, _, _, _, _, m6, m7, m8, _⟩ := ensureMax_frame lp
  obtain ⟨_, _, hrow⟩ := ensure_spec (EnsureMaximization lp) (by rw [m7, m8, w4, w2])
    (by rw [m6, m8, w3, w2])
  obtain ⟨i, hi, hne⟩ := h
  by_contra hall
  push_neg at hall
  rw [c2, c4] at hall
  have hP := (forall_pairs_iff ((List.range lp.NbConstraints).flatMap
    (leRowsAt (EnsureNonNegativeRhs (EnsureMaximization lp)))) (fun _ b => b = 0)).mp hall
  have hz := leRows_rhs_zero _ _ _ (fun p hp =>
    hP p (List.mem_flatMap.mpr ⟨i, List.mem_range.mpr hi, hp⟩))
  rw [(hrow i).1, m8] at hz
  apply hne
  split_ifs at hz
  · linarith
  · exact hz

/-- The slack form of a well-formed model, in any state, is well-formed; all its comparisons
are `EQ`, provided those of a model already labelled `Slack` are; and it keeps a non-zero
right-hand side when the model has one. -/
theorem toSlack_wellFormed (lp : LinearProgram) (hw : WellFormed lp)
    (hst : lp.State = .Slack → ∀ c ∈ lp.Comparisons, c = Comparison.EQ) :
    WellFormed (ToSlackForm lp) ∧
    (∀ c ∈ (ToSlackForm lp).Comparisons, c = Comparison.EQ) ∧
    ((∃ i, i < lp.NbConstraints ∧ lp.Rhs.getD i 0 ≠ 0) →
      ∃ k, k < (ToSlackForm lp).NbConstraints ∧ (ToSlackForm lp).Rhs.getD k 0 ≠ 0) := by
  cases hS : lp.State with
  | Undefined =>
    obtain ⟨s1, s2, s3, _⟩ := toSlack_fields lp hS hw
    obtain ⟨t1, t2, _, _, t5, t6, t7, t8⟩ := toSlack_fields_more lp hS hw
    refine ⟨⟨by rw [t7, s2], by rw [t6, s1], by rw [t1, s1], by rw [t5, s1], ?_⟩, t2, ?_⟩
    · intro row hrow
      rw [t8 row hrow, s2]
    · intro h
      rw [s1, s3]
      exact canonical_rhs_nonzero lp hS hw h
  | Canonical =>
    have hform : ToSlackForm lp = { ConvertToEqualities lp with State := .Slack } := by
      unfold ToSlackForm
      simp [hS]
    obtain ⟨g1, g2⟩ := convertEq_loop_wellFormed lp hw lp.NbConstraints
    obtain ⟨f1, _, _, _, f5, _⟩ := convertEq_loop_frame lp lp.NbConstraints
    rw [hform]
    refine ⟨g1, ?_, ?_⟩
    · apply forall_mem_of_getD (fun c => c = Comparison.EQ) _ .EQ
      intro i hi
      show ((List.range lp.NbConstraints).foldl ConvertToEqualitiesStep lp).Comparisons.getD i
        .EQ = .EQ
      have hi2 : i < lp.NbConstraints := by
        have := g1.2.2.1
        rw [f1] at this
        rw [← this]
        exact hi
      rw [g2 i, if_pos hi2]
    · intro h
      show ∃ k, k < ((List.range lp.NbConstraints).foldl ConvertToEqualitiesStep
          lp).NbConstraints ∧
        ((List.range lp.NbConstraints).foldl ConvertToEqualitiesStep lp).Rhs.getD k 0 ≠ 0
      rw [f1, f5]
      exact h
  | Slack =>
    have hform : ToSlackForm lp = lp := by
      unfold ToSlackForm
      rw [if_pos hS]
    rw [hform]
    exact ⟨hw, hst hS, fun h => h⟩

/-! ## A second `Solve` on the model a successful `Solve` leaves -/

/-- The length of a concatenation of lists of the same length. -/
theorem length_flatMap_const {α β : Type} (l : List α) (f : α → List β) (c : Nat)
    (h : ∀ a ∈ l, (f a).length = c) : (l.flatMap f).length = c * l.length := by
  induction l with
  | nil => simp
  | cons a l ih =>
    rw [List.flatMap_cons, List.length_append, h a (List.mem_cons_self _ _),
      ih (fun b hb => h b (List.mem_cons_of_mem _ hb)), List.length_cons]
    ring

/-- The canonical form of a well-formed model in state `Undefined` all of whose comparisons
are `EQ` has two rows per row of the model. -/
theorem canonical_splits_eq_rows (lp : LinearProgram) (hS : lp.State = .Undefined)
    (hw : WellFormed lp) (heq : ∀ c ∈ lp.Comparisons, c = Comparison.EQ) :
    (ToCanonicalForm lp).NbConstraints = 2 * lp.NbConstraints := by
  obtain ⟨_, _, _, c4, _⟩ := toCanonical_fields lp hS
  obtain ⟨_, w2, w3, w4, _⟩ := hw
  obtain ⟨_, _, _, _, _, m6, m7, m8, _⟩ := ensureMax_frame lp
  obtain ⟨_, _, hrow⟩ := ensure_spec (EnsureMaximization lp) (by rw [m7, m8, w4, w2])
    (by rw [m6, m8, w3, w2])
  rw [c4, length_flatMap_const _ _ 2, List.length_range]
  intro i _
  have hc : lp.Comparisons.getD i .EQ = .EQ :=
    getD_of_forall_mem (fun c => c = Comparison.EQ) _ _ rfl heq i
  unfold leRowsAt
  rw [(hrow i).2.2, m6, hc]
  split_ifs <;> rfl

/-- On a well-formed model all of whose comparisons are `EQ`, with a non-zero right-hand
side, relabelled `Undefined`, `Solve` re-normalises, splitting every row, returns
`"infeasible problem"` whatever the fuel, and leaves `ObjVar` as it was. -/
theorem solve_again_infeasible (s : LinearProgram) (v : Option (List ℚ))
    (hw : WellFormed s) (heq : ∀ c ∈ s.Comparisons, c = Comparison.EQ)
    (hnz : ∃ k, k < s.NbConstraints ∧ s.Rhs.getD k 0 ≠ 0) (fuel : Nat) :
    Solve fuel { s with ObjVar := v, State := .Undefined }
      = some (some "infeasible problem",
          ToSlackForm { s with ObjVar := v, State := .Undefined }) ∧
    (ToSlackForm { s with ObjVar := v, State := .Undefined }).ObjVar = v ∧
    (ToSlackForm { s with ObjVar := v, State := .Undefined }).NbConstraints
      = 2 * s.NbConstraints := by
  have hw1 : WellFormed { s with ObjVar := v, State := .Undefined } := hw
  have hS1 : ({ s with ObjVar := v, State := .Undefined } : LinearProgram).State
      = .Undefined := rfl
  have hfeas : IsInitiallyFeasible
      (InitializeTableau (ToSlackForm { s with ObjVar := v, State := .Undefined })).1
      = false := by
    rw [← Bool.not_eq_true, firstTable_feasible_iff_rows _ hS1 hw1]
    intro hall
    obtain ⟨k, hk, hne⟩ := hnz
    have hc : s.Comparisons.getD k .EQ = .EQ :=
      getD_of_forall_mem (fun c => c = Comparison.EQ) _ _ rfl heq k
    have := hall k hk
    apply this
    show rejectedRow (s.Comparisons.getD k .EQ) (s.Rhs.getD k 0)
    rw [hc]
    exact hne
  refine ⟨?_, toSlack_objVar _, ?_⟩
  · unfold Solve
    rw [solveRunOf_eq, if_neg (by rw [hfeas]; decide)]
    rfl
  · rw [(toSlack_fields _ hS1 hw1).1]
    exact canonical_splits_eq_rows _ hS1 hw1 heq

/-- The model a successful `Solve` leaves: the slack form of the input with `ObjVar` written
and the state reset. -/
theorem solve_success_model (fuel : Nat) (lp lp1 : LinearProgram)
    (h : Solve fuel lp = some (none, lp1)) :
    ∃ sol, lp1 = { ToSlackForm lp with ObjVar := some sol, State := .Undefined } := by
  obtain ⟨r, hr, he, hlp⟩ := solve_some_none fuel lp lp1 h
  rw [solveRunOf_eq] at hr
  by_cases hf : IsInitiallyFeasible (InitializeTableau (ToSlackForm lp)).1 = true
  · rw [if_pos hf] at hr
    rcases solveLoop_result _ _ _ _ _ _ hr with ⟨e1, _⟩ | ⟨_, _, e3⟩
    · rw [he] at e1
      simp at e1
    · exact ⟨_, by rw [← hlp, e3]⟩
  · rw [if_neg hf] at hr
    simp only [Option.some.injEq] at hr
    rw [← hr] at he
    simp at he

/-! ## C25 -/

end LinearProgrammingTools
